import Mathlib

/-!
# holster `cmd/template`: a shallow embedding

The scaffolding tool in `cmd/template/main.go` walks a template directory,
renders every file with Go's `text/template` and writes the result below
`./workers/<name>`.  This file embeds the program in Lean:

* Go strings are lists of characters (`Str`);
* the functions of `path/filepath`, `strings`, `os` and `text/template` the
  program calls are modelled from their documented Unix behaviour;
* the file system is a tree of directories and regular files that is threaded
  through the program as explicit state;
* `log.Fatalf` and the panic raised by `template.Must` are explicit outcomes;
* templates made of text, `{{ .Field }}` and `{{ if .Field }}` are parsed and
  executed by the rules of `text/template`; what the package does with any
  other template is a parameter `E` of the program, so that every theorem
  holds whatever the package does with it.
-/

set_option autoImplicit false

namespace Holster

/-- A Go string, as the list of its characters. -/
abbrev Str := List Char

/-! ## `strings` and `path/filepath` (Unix) -/

/-- The path separator. -/
def sep : Char := '/'

/-- Put character `c` in front of the first piece of a split. -/
def consHead (c : Char) : List Str → List Str
  | [] => [[c]]
  | s :: ss => (c :: s) :: ss

/-- `strings.Split(p, "/")`: the pieces between separators; never empty. -/
def splitSep : Str → List Str
  | [] => [[]]
  | c :: cs => if c = sep then [] :: splitSep cs else consHead c (splitSep cs)

/-- `strings.Join(elems, "/")`. -/
def joinSep : List Str → Str
  | [] => []
  | [s] => s
  | s :: t :: ss => s ++ sep :: joinSep (t :: ss)

/-- The name `.`. -/
def dot : Str := ['.']

/-- The name `..`. -/
def dotdot : Str := ['.', '.']

/-- One step of `filepath.Clean` over the path elements; `stack` holds the
elements kept so far, the last one first.  Empty elements and `.` are dropped,
`..` removes the element before it, is dropped at the root of a rooted path and
is kept at the start of a relative one. -/
def cleanStep (rooted : Bool) (stack : List Str) (seg : Str) : List Str :=
  if seg = [] ∨ seg = dot then stack
  else if seg = dotdot then
    match stack with
    | [] => if rooted then [] else [dotdot]
    | top :: below => if top = dotdot then dotdot :: top :: below else below
  else seg :: stack

/-- `filepath.IsAbs` on Unix: the path starts with a separator. -/
def IsAbs : Str → Bool
  | c :: _ => c = sep
  | [] => false

/-- The elements `filepath.Clean` keeps, in order. -/
def cleanSegs (p : Str) : List Str :=
  ((splitSep p).foldl (cleanStep (IsAbs p)) []).reverse

/-- `filepath.Clean`: the shortest path equivalent to `p` by purely lexical
processing.  The result ends in a separator only if it is the root, and the
empty path becomes `.`. -/
def Clean (p : Str) : Str :=
  if IsAbs p then sep :: joinSep (cleanSegs p)
  else if cleanSegs p = [] then dot
  else joinSep (cleanSegs p)

/-- `filepath.Join`: empty leading elements are ignored, the rest is joined
with separators and cleaned; the result is empty if every element is. -/
def Join : List Str → Str
  | [] => []
  | e :: es => if e = [] then Join es else Clean (joinSep (e :: es))

/-- Remove trailing separators. -/
def stripTrailingSep (p : Str) : Str :=
  (p.reverse.dropWhile (fun c => c = sep)).reverse

/-- The part of `p` after its last separator. -/
def lastElem (p : Str) : Str :=
  (p.reverse.takeWhile (fun c => c ≠ sep)).reverse

/-- The part of `p` up to and including its last separator. -/
def uptoLastSep (p : Str) : Str :=
  (p.reverse.dropWhile (fun c => c ≠ sep)).reverse

/-- `filepath.Base`: the last element of the path, after trailing separators
are removed; `.` for the empty path and `/` for a path of separators only. -/
def Base (p : Str) : Str :=
  if p = [] then dot
  else if stripTrailingSep p = [] then [sep]
  else lastElem (stripTrailingSep p)

/-- `filepath.Dir`: everything up to the last separator, cleaned. -/
def Dir (p : Str) : Str :=
  Clean (uptoLastSep p)

/-- `strings.HasPrefix`. -/
def HasPrefix : Str → Str → Bool
  | _, [] => true
  | [], _ :: _ => false
  | c :: s, d :: pre => c = d && HasPrefix s pre

/-- `strings.TrimPrefix`: `s` without the leading `pre`, or `s` itself when
`s` does not start with `pre`. -/
def TrimPrefix (s pre : Str) : Str :=
  if HasPrefix s pre then s.drop pre.length else s

/-- Errors of the operating system calls. -/
inductive FsError where
  | notExist
  | notDir
  | isDir
  | permission
  | noWorkingDir
  deriving DecidableEq, Repr

/-- `filepath.Abs` on Unix; `cwd` is what `os.Getwd` returns, `none` when it
fails. -/
def Abs (cwd : Option Str) (p : Str) : Except FsError Str :=
  if IsAbs p then .ok (Clean p)
  else match cwd with
    | none => .error .noWorkingDir
    | some wd => .ok (Join [wd, p])

/-! ## The file system

Directories and regular files.  A directory carries its read permission (the
only permission modelled: it decides whether its entries can be listed) and its
entries, kept in ascending order of name, the order in which
`filepath.Walk` visits them.  Symbolic links are not modelled, so `os.Stat` and
`os.Lstat` agree. -/

/-- A file system object. -/
inductive Node where
  | file (content : Str)
  | dir (readable : Bool) (entries : List (Str × Node))
  deriving Repr

/-- Is the object a directory. -/
def Node.isDir : Node → Bool
  | .file _ => false
  | .dir _ _ => true

/-- The elements of a path as the operating system resolves them from the root: empty
elements are skipped.  Every path the program hands to the operating system is
absolute and cleaned. -/
def pathSegs (p : Str) : List Str :=
  (splitSep p).filter (fun s => s ≠ [])

/-- The entry called `n` in a directory. -/
def lookupEntry (n : Str) : List (Str × Node) → Option Node
  | [] => none
  | (m, c) :: es => if m = n then some c else lookupEntry n es

/-- Byte-wise order of two names. -/
def strLt : Str → Str → Bool
  | [], [] => false
  | [], _ :: _ => true
  | _ :: _, [] => false
  | a :: s, b :: t => decide (a.toNat < b.toNat) || (decide (a = b) && strLt s t)

/-- Replace the entry called `n`. -/
def replaceEntry (n : Str) (c : Node) : List (Str × Node) → List (Str × Node)
  | [] => []
  | (m, x) :: es => if m = n then (n, c) :: es else (m, x) :: replaceEntry n c es

/-- Add an entry called `n` at its place in the order of names. -/
def insertEntry (n : Str) (c : Node) : List (Str × Node) → List (Str × Node)
  | [] => [(n, c)]
  | (m, x) :: es => if strLt n m then (n, c) :: (m, x) :: es else (m, x) :: insertEntry n c es

/-- Bind name `n` to `c` in a directory: replace the entry if there is one,
otherwise add one. -/
def setEntry (n : Str) (c : Node) (es : List (Str × Node)) : List (Str × Node) :=
  if (lookupEntry n es).isSome then replaceEntry n c es else insertEntry n c es

/-- The object at the end of a chain of names, starting from `nd`. -/
def lookup : Node → List Str → Option Node
  | nd, [] => some nd
  | .file _, _ :: _ => none
  | .dir _ es, s :: ss =>
    match lookupEntry s es with
    | none => none
    | some c => lookup c ss

/-- The error of resolving a chain of names that leads nowhere: `ENOTDIR` when
the chain runs into a regular file, `ENOENT` when a name is missing. -/
def lookupErr : Node → List Str → FsError
  | .file _, _ :: _ => .notDir
  | .dir _ es, s :: ss =>
    match lookupEntry s es with
    | none => .notExist
    | some c => lookupErr c ss
  | _, [] => .notExist

/-- What `os.Stat` reports that the program reads. -/
structure FileInfo where
  isDir : Bool
  deriving DecidableEq, Repr

/-- `os.Lstat` (and `os.Stat`). -/
def Lstat (fs : Node) (p : Str) : Except FsError FileInfo :=
  match lookup fs (pathSegs p) with
  | none => .error (lookupErr fs (pathSegs p))
  | some nd => .ok ⟨nd.isDir⟩

/-- `os.ReadFile`. -/
def ReadFile (fs : Node) (p : Str) : Except FsError Str :=
  match lookup fs (pathSegs p) with
  | none => .error (lookupErr fs (pathSegs p))
  | some (.dir _ _) => .error .isDir
  | some (.file c) => .ok c

/-- Create the chain of directories `segs` below `nd`; directories that exist
are kept, a regular file in the way is an error. -/
def mkdirAllSegs : Node → List Str → Except FsError Node
  | .file _, _ => .error .notDir
  | .dir r es, [] => .ok (.dir r es)
  | .dir r es, s :: ss =>
    match mkdirAllSegs ((lookupEntry s es).getD (.dir true [])) ss with
    | .error e => .error e
    | .ok c => .ok (.dir r (setEntry s c es))

/-- `os.MkdirAll(p, os.ModePerm)`: the new file system and the error, if any.
On an error nothing has been created, since the only failure is a regular file
among the existing ancestors. -/
def MkdirAll (fs : Node) (p : Str) : Node × Option FsError :=
  match mkdirAllSegs fs (pathSegs p) with
  | .ok fs1 => (fs1, none)
  | .error e => (fs, some e)

/-- Create or truncate the regular file at `segs` below `nd` and store `c`
in it; the directory that holds it has to exist. -/
def writeFileSegs : Node → List Str → Str → Except FsError Node
  | _, [], _ => .error .isDir
  | .file _, _ :: _, _ => .error .notDir
  | .dir r es, [s], c =>
    match lookupEntry s es with
    | some (.dir _ _) => .error .isDir
    | _ => .ok (.dir r (setEntry s (.file c) es))
  | .dir r es, s :: t :: ss, c =>
    match lookupEntry s es with
    | none => .error .notExist
    | some child =>
      match writeFileSegs child (t :: ss) c with
      | .error e => .error e
      | .ok child1 => .ok (.dir r (setEntry s child1 es))

/-- `os.WriteFile(p, c, os.ModePerm)`. -/
def WriteFile (fs : Node) (p : Str) (c : Str) : Node × Option FsError :=
  match writeFileSegs fs (pathSegs p) c with
  | .ok fs1 => (fs1, none)
  | .error e => (fs, some e)

/-! ## `filepath.Walk` -/

/-- What a `filepath.WalkFunc` returns besides `nil`. -/
inductive WalkErr where
  | skipDir
  | skipAll
  | err (e : FsError)
  deriving DecidableEq, Repr

/-- A `filepath.WalkFunc` acting on a state `σ` (the variables it captures):
it gets the path, the file info (absent when `Lstat` failed) and the error met
on the way to the path. -/
abbrev WalkFunc (σ : Type) := Str → Option FileInfo → Option FsError → σ → σ × Option WalkErr

mutual
/-- The recursive `walk` of `path/filepath`: a non-directory is handed to the
function; a directory is read, handed to the function together with the error
of reading it, and then each entry is walked in order.  The entries of the tree
stand for `readDirNames` followed by `lstat` of each name. -/
def walk {σ : Type} (fn : WalkFunc σ) (path : Str) (nd : Node) (st : σ) : σ × Option WalkErr :=
  match nd with
  | .file _ => fn path (some ⟨false⟩) none st
  | .dir r es =>
    let err : Option FsError := if r then none else some .permission
    let res := fn path (some ⟨true⟩) err st
    if err.isSome || res.2.isSome then res
    else walkNames fn path es res.1
/-- The loop of `walk` over the entries of a directory. -/
def walkNames {σ : Type} (fn : WalkFunc σ) (path : Str) (es : List (Str × Node)) (st : σ) :
    σ × Option WalkErr :=
  match es with
  | [] => (st, none)
  | (name, child) :: more =>
    let res := walk fn (Join [path, name]) child st
    match res.2 with
    | none => walkNames fn path more res.1
    | some e =>
      if child.isDir && decide (e = .skipDir) then walkNames fn path more res.1
      else res
end

/-- `filepath.Walk`: when `Lstat` of the root fails the function is called
once with that error; `SkipDir` and `SkipAll` coming out of the walk are turned
into `nil`. -/
def Walk {σ : Type} (fs : Node) (root : Str) (fn : WalkFunc σ) (st : σ) : σ × Option WalkErr :=
  let res :=
    match lookup fs (pathSegs root) with
    | none => fn root none (some (lookupErr fs (pathSegs root))) st
    | some nd => walk fn root nd st
  match res.2 with
  | some .skipDir => (res.1, none)
  | some .skipAll => (res.1, none)
  | _ => res

/-! ## `text/template`

The fragment of the template language the tool's templates use: literal text,
the field action `{{ .Name }}`, and `{{ if .Name }} … {{ else }} … {{ end }}`.
Parsing has three outcomes: a tree, a definite parse error, or `unsupported`
for input outside the fragment.  What the package does with such input is a
parameter of the program, the `Engine`. -/

/-- The pieces the lexer cuts a template into. -/
inductive Tok where
  | text (s : Str)
  | action (body : Str)
  deriving DecidableEq, Repr

/-- A text token, unless the text is empty. -/
def textTok (acc : Str) : List Tok :=
  if acc = [] then [] else [.text acc.reverse]

/-- The lexer.  Outside an action (`inAct = false`) it collects text up to the
leftmost `{{`; inside one it collects the body up to the first `}}`.  `acc` is
the piece being collected, reversed.  `none`: the input ends inside an
action. -/
def lexGo : Bool → Str → Str → Option (List Tok)
  | false, acc, [] => some (textTok acc)
  | true, _, [] => none
  | false, acc, [c] => some (textTok (c :: acc))
  | true, _, [_] => none
  | false, acc, c :: d :: rest =>
    if c = '{' ∧ d = '{' then (lexGo true [] rest).map (fun ts => textTok acc ++ ts)
    else lexGo false (c :: acc) (d :: rest)
  | true, acc, c :: d :: rest =>
    if c = '}' ∧ d = '}' then (lexGo false [] rest).map (fun ts => Tok.action acc.reverse :: ts)
    else lexGo true (c :: acc) (d :: rest)

/-- Cut a template into text and actions. -/
def lex (s : Str) : Option (List Tok) :=
  lexGo false [] s

/-- Blank and tab, the white space allowed around an action of the
fragment. -/
def isBlank (c : Char) : Bool :=
  c = ' ' || c = '\t'

/-- A character of a field name: an ASCII letter, a digit or `_`. -/
def isIdentChar (c : Char) : Bool :=
  c.isAlphanum || c = '_'

/-- Remove blanks at both ends. -/
def trimBlank (s : Str) : Str :=
  ((s.dropWhile isBlank).reverse.dropWhile isBlank).reverse

/-- The field named by `.Name`: a dot, then a letter or `_`, then name
characters. -/
def fieldName : Str → Option Str
  | '.' :: c :: cs =>
    if (c.isAlpha || c = '_') && cs.all isIdentChar then some (c :: cs) else none
  | _ => none

/-- The actions of the fragment. -/
inductive Act where
  | field (name : Str)
  | ifField (name : Str)
  | elseAct
  | endAct
  deriving DecidableEq, Repr

/-- How the body of an action is read. -/
inductive BodyClass where
  | act (a : Act)
  | bad
  | unsupported
  deriving DecidableEq, Repr

/-- Characters that start a string, character or raw-string constant or a
comment inside an action. -/
def isQuoting (c : Char) : Bool :=
  c = '"' || c = '\'' || c = '\x60' || c = '/' || c = '*'

/-- Read the body of an action.  `.Name`, `if .Name`, `else` and `end`,
surrounded by blanks, are the actions of the fragment.  A body that holds a
`{` outside any constant or comment cannot be parsed (`unexpected "{" in
command`).  Everything else is outside the fragment. -/
def classify (body : Str) : BodyClass :=
  let b := trimBlank body
  if b = ['e', 'n', 'd'] then .act .endAct
  else if b = ['e', 'l', 's', 'e'] then .act .elseAct
  else match fieldName b with
    | some n => .act (.field n)
    | none =>
      match b with
      | 'i' :: 'f' :: c :: more =>
        match (if isBlank c then fieldName (more.dropWhile isBlank) else none) with
        | some n => .act (.ifField n)
        | none => if body.any (fun x => x = '{') && !body.any isQuoting then .bad else .unsupported
      | _ => if body.any (fun x => x = '{') && !body.any isQuoting then .bad else .unsupported

/-- A parsed template. -/
inductive TNode where
  | text (s : Str)
  | field (name : Str)
  | cond (name : Str) (thenPart : List TNode) (elsePart : List TNode)
  deriving Repr

/-- An open `if`: its field, the nodes of the enclosing list read before it
(reversed), and the `then` branch once `else` has been seen. -/
structure Frame where
  name : Str
  outer : List TNode
  thenPart : Option (List TNode)

/-- Outcome of parsing. -/
inductive ParseResult where
  | ok (tree : List TNode)
  | error
  | unsupported
  deriving Repr

/-- The parser: `cur` is the list being read (reversed), `stack` the open
`if`s, innermost first.  `else` and `end` without an open `if`, a second
`else`, and an `if` still open at the end of the input are parse errors. -/
def parseGo : List TNode → List Frame → List Tok → ParseResult
  | cur, [], [] => .ok cur.reverse
  | _, _ :: _, [] => .error
  | cur, stack, .text s :: ts => parseGo (.text s :: cur) stack ts
  | cur, stack, .action body :: ts =>
    match classify body with
    | .bad => .error
    | .unsupported => .unsupported
    | .act (.field n) => parseGo (.field n :: cur) stack ts
    | .act (.ifField n) => parseGo [] (⟨n, cur, none⟩ :: stack) ts
    | .act .elseAct =>
      match stack with
      | ⟨n, outer, none⟩ :: below => parseGo [] (⟨n, outer, some cur.reverse⟩ :: below) ts
      | _ => .error
    | .act .endAct =>
      match stack with
      | ⟨n, outer, none⟩ :: below => parseGo (.cond n cur.reverse [] :: outer) below ts
      | ⟨n, outer, some th⟩ :: below => parseGo (.cond n th cur.reverse :: outer) below ts
      | [] => .error

/-- `(*Template).Parse`. -/
def parse (s : Str) : ParseResult :=
  match lex s with
  | none => .error
  | some ts => parseGo [] [] ts

/-- The data every template is executed with. -/
structure tpl where
  WorkerName : Str
  UseCustomDomain : Bool
  deriving DecidableEq, Repr

/-- A value a field evaluates to. -/
inductive Value where
  | str (s : Str)
  | bool (b : Bool)
  deriving DecidableEq, Repr

/-- Errors of `(*Template).Execute`. -/
inductive ExecError where
  | noField (name : Str)
  | other (msg : Str)
  deriving DecidableEq, Repr

/-- Evaluate `.name` on a `tpl`: the struct has the two fields and no
method, any other name is `can't evaluate field`. -/
def evalField (d : tpl) (name : Str) : Except ExecError Value :=
  if name = "WorkerName".toList then .ok (.str d.WorkerName)
  else if name = "UseCustomDomain".toList then .ok (.bool d.UseCustomDomain)
  else .error (.noField name)

/-- What an action prints for a value. -/
def Value.print : Value → Str
  | .str s => s
  | .bool true => "true".toList
  | .bool false => "false".toList

/-- Truth of a value in `if`: a string is true when it is not empty. -/
def Value.truth : Value → Bool
  | .str s => s ≠ []
  | .bool b => b

mutual
/-- Execute one node: the output written and the error that stopped the
execution, if any.  What was written before the error stays written. -/
def execNode (d : tpl) : TNode → Str × Option ExecError
  | .text s => (s, none)
  | .field n =>
    match evalField d n with
    | .ok v => (v.print, none)
    | .error e => ([], some e)
  | .cond n th el =>
    match evalField d n with
    | .ok v => if v.truth then execList d th else execList d el
    | .error e => ([], some e)
/-- Execute a list of nodes, stopping at the first error. -/
def execList (d : tpl) : List TNode → Str × Option ExecError
  | [] => ([], none)
  | nd :: more =>
    match execNode d nd with
    | (out, some e) => (out, some e)
    | (out, none) => ((out ++ (execList d more).1), (execList d more).2)
end

/-- `(*Template).Execute` into a fresh buffer: the buffer's contents and the
error returned. -/
def Execute (tree : List TNode) (d : tpl) : Str × Option ExecError :=
  execList d tree

/-- What parsing a template and executing it into a fresh buffer gives: a
parse error, or the contents of the buffer and the error `Execute` returned.
What was written before an error stays in the buffer. -/
inductive Rendered where
  | parseError
  | done (out : Str) (err : Option ExecError)
  deriving DecidableEq, Repr

/-- The behaviour of `text/template` on templates outside the fragment: what
parsing and executing gives for the name of the template, its text and the
data.  `Execute` reports what goes wrong as an error and bounds the depth of
template calls, so these are all the outcomes. -/
abbrev Engine := Str → Str → tpl → Rendered

/-- Parse the template called `name` and execute it with `data`: inside the
fragment by the rules above, outside it by the engine. -/
def render (E : Engine) (name t : Str) (data : tpl) : Rendered :=
  match parse t with
  | .error => .parseError
  | .unsupported => E name t data
  | .ok tree => .done (Execute tree data).1 (Execute tree data).2

/-- What a call that may panic produces. -/
inductive Ret (α : Type) where
  | ret (a : α)
  | panic
  deriving DecidableEq, Repr

/-! ## The program -/

/-- The closure `listFiles` passes to `filepath.Walk`: it appends the path and
returns `nil`, whatever `err` is. -/
def listFilesFn : WalkFunc (List Str) :=
  fun path _info _err files => (files ++ [path], none)

/-- `listFiles`: the paths `filepath.Walk` visits, or the error it returns. -/
def listFiles (fs : Node) (path : Str) : Except WalkErr (List Str) :=
  match Walk fs path listFilesFn [] with
  | (_, some e) => .error e
  | (files, none) => .ok files

/-- The calls that change the file system. -/
inductive Call where
  | mkdirAll (path : Str)
  | writeFile (path : Str) (content : Str)
  deriving DecidableEq, Repr

/-- One call made by the program: the file system it found, the call, and
the error it returned. -/
structure Step where
  before : Node
  call : Call
  err : Option FsError

/-- The file system together with the calls made so far, the latest first.
The lines written with `log.Printf` are not recorded. -/
structure Sys where
  fs : Node
  trace : List Step

/-- `isDirectory`: whether `os.Stat` reports a directory, and its error. -/
def isDirectory (fs : Node) (path : Str) : Bool × Option FsError :=
  match Lstat fs path with
  | .error e => (false, some e)
  | .ok info => (info.isDir, none)

/-- `mkdir`: `os.MkdirAll(path, os.ModePerm)`. -/
def mkdir (sys : Sys) (path : Str) : Sys × Option FsError :=
  let r := MkdirAll sys.fs path
  (⟨r.1, ⟨sys.fs, .mkdirAll path, r.2⟩ :: sys.trace⟩, r.2)

/-- `templateString`: parse with `template.Must` (a parse error panics),
execute into a buffer and return the buffer.  The error `Execute` returns is
not looked at. -/
def templateString (E : Engine) (t : Str) (data : tpl) : Ret Str :=
  match render E [] t data with
  | .parseError => .panic
  | .done out _ => .ret out

/-- The errors `templateFile` returns. -/
inductive TplError where
  | exec (e : ExecError)
  | write (e : FsError)
  deriving DecidableEq, Repr

/-- `templateFile`: `template.Must(template.ParseFiles(src))` panics when the
file cannot be read or parsed, and names the template after the file; an
error of `Execute` is returned before anything is written; otherwise the
buffer is written with `os.WriteFile`. -/
def templateFile (E : Engine) (sys : Sys) (tplSrcPath dstPath : Str) (data : tpl) :
    Sys × Ret (Option TplError) :=
  match ReadFile sys.fs tplSrcPath with
  | .error _ => (sys, .panic)
  | .ok content =>
    match render E (Base tplSrcPath) content data with
    | .parseError => (sys, .panic)
    | .done _ (some e) => (sys, .ret (some (.exec e)))
    | .done out none =>
      let r := WriteFile sys.fs dstPath out
      (⟨r.1, ⟨sys.fs, .writeFile dstPath out, r.2⟩ :: sys.trace⟩, .ret (r.2.map .write))

/-- The command line flags. -/
structure Flags where
  name : Str
  customdomain : Bool
  template : Str
  deriving DecidableEq, Repr

/-- The flags when the command line gives none. -/
def Flags.default : Flags :=
  ⟨"hello-world".toList, false, []⟩

/-- The `log.Fatalf` calls of `main`. -/
inductive Fatal where
  | locateTemplates
  | invalidDestination
  | listFiles
  | templateFile
  deriving DecidableEq, Repr

/-- How the process ends: normally, in `log.Fatalf`, or in a panic. -/
inductive Exit where
  | ok
  | fatal (f : Fatal)
  | panic
  deriving DecidableEq, Repr

/-- The end of a run. -/
structure Outcome where
  sys : Sys
  exit : Exit

/-- The template directory: the flag, or `./.templates/{{ .WorkerName }}`
when the flag is empty. -/
def templateDirOf (f : Flags) : Str :=
  if f.template = [] then
    Join ["./".toList, ".templates".toList, "\x7b\x7b .WorkerName \x7d\x7d".toList]
  else f.template

/-- The data handed to the templates. -/
def templateDataOf (f : Flags) : tpl :=
  ⟨f.name, f.customdomain⟩

/-- The two roots `main` computes. -/
structure Roots where
  srcTplPath : Str
  dstRootPath : Str
  deriving DecidableEq, Repr

/-- The first part of `main`: the absolute source root, and the destination
root `./workers/<rendered base name of the source root>` made absolute. -/
def mainRoots (E : Engine) (cwd : Option Str) (f : Flags) : Except Exit Roots :=
  match Abs cwd (templateDirOf f) with
  | .error _ => .error (.fatal .locateTemplates)
  | .ok srcTplPath =>
    match templateString E (Base srcTplPath) (templateDataOf f) with
    | .panic => .error .panic
    | .ret name =>
      match Abs cwd (Join ["./workers".toList, name]) with
      | .error _ => .error (.fatal .invalidDestination)
      | .ok dstRootPath => .ok ⟨srcTplPath, dstRootPath⟩

/-- The loop of `main` over the listed paths.  The errors of `isDirectory`
and `mkdir` are dropped; an error of `templateFile` ends the run. -/
def mainLoop (E : Engine) (srcTplPath dstRootPath : Str) (data : tpl) :
    List Str → Sys → Outcome
  | [], sys => ⟨sys, .ok⟩
  | srcPath :: files, sys =>
    let dstPath := Join [dstRootPath, TrimPrefix srcPath srcTplPath]
    if (isDirectory sys.fs srcPath).1 then
      mainLoop E srcTplPath dstRootPath data files (mkdir sys dstPath).1
    else
      match templateFile E (mkdir sys (Dir dstPath)).1 srcPath dstPath data with
      | (sys2, .ret none) => mainLoop E srcTplPath dstRootPath data files sys2
      | (sys2, .ret (some _)) => ⟨sys2, .fatal .templateFile⟩
      | (sys2, .panic) => ⟨sys2, .panic⟩

/-- The program: `E` is what `text/template` does outside the fragment, `cwd`
the working directory `os.Getwd` reports, `fs` the file system it starts
in. -/
def main (E : Engine) (cwd : Option Str) (fs : Node) (f : Flags) : Outcome :=
  match mainRoots E cwd f with
  | .error x => ⟨⟨fs, []⟩, x⟩
  | .ok roots =>
    match listFiles fs roots.srcTplPath with
    | .error _ => ⟨⟨fs, []⟩, .fatal .listFiles⟩
    | .ok files =>
      mainLoop E roots.srcTplPath roots.dstRootPath (templateDataOf f) files ⟨fs, []⟩

/-! ## Notions used to state the claims -/

/-- A name a directory entry can have: not empty, without separator, and
neither `.` nor `..`. -/
def PlainName (s : Str) : Prop :=
  s ≠ [] ∧ sep ∉ s ∧ s ≠ dot ∧ s ≠ dotdot

/-- A chain of entry names. -/
def PlainSegs (l : List Str) : Prop :=
  ∀ s ∈ l, PlainName s

instance (s : Str) : Decidable (PlainName s) := by
  unfold PlainName; infer_instance

instance (l : List Str) : Decidable (PlainSegs l) := by
  unfold PlainSegs; infer_instance

/-- The absolute path with the given elements: `/a/b`, and `/` for none. -/
def absOf (segs : List Str) : Str :=
  sep :: joinSep segs

/-- The elements as a suffix of a path: `/a/b`, and the empty string for
none. -/
def relOf : List Str → Str
  | [] => []
  | s :: ss => sep :: joinSep (s :: ss)

/-- The chain of names `p` is an initial part of the chain `q`: the path `q`
is `p` itself or lies below it. -/
def leads : List Str → List Str → Bool
  | [], _ => true
  | _ :: _, [] => false
  | a :: p, b :: q => decide (a = b) && leads p q

mutual
/-- Check that every entry name below the node is a name a directory entry
can have. -/
def wellNamed : Node → Bool
  | .file _ => true
  | .dir _ es => wellNamedList es
/-- Check the names of the entries and of everything below them. -/
def wellNamedList : List (Str × Node) → Bool
  | [] => true
  | (n, c) :: more => decide (PlainName n) && wellNamed c && wellNamedList more
end

/-- Every entry name below the node is a name a directory entry can have. -/
def WellNamed (nd : Node) : Prop :=
  wellNamed nd = true

/-- The entries have proper names, and so has everything below them. -/
def WellNamedList (es : List (Str × Node)) : Prop :=
  wellNamedList es = true

instance (nd : Node) : Decidable (WellNamed nd) := by
  unfold WellNamed; infer_instance

mutual
/-- No directory at or below the node has two entries of the same name. -/
def distinctNames : Node → Bool
  | .file _ => true
  | .dir _ es => distinctNamesList es
/-- The entries have different names, and so have the entries of every
directory below them. -/
def distinctNamesList : List (Str × Node) → Bool
  | [] => true
  | (n, c) :: more => (lookupEntry n more).isNone && distinctNames c && distinctNamesList more
end

/-- The names of the entries ascend strictly. -/
def ascendingNames : List (Str × Node) → Bool
  | [] => true
  | [_] => true
  | (n, _) :: (m, c) :: more => strLt n m && ascendingNames ((m, c) :: more)

mutual
/-- Every directory at or below the node holds its entries in strictly
ascending order of name, the order in which `filepath.Walk` reads them. -/
def ascending : Node → Bool
  | .file _ => true
  | .dir _ es => ascendingNames es && ascendingList es
/-- Every directory below the entries holds its entries in ascending
order. -/
def ascendingList : List (Str × Node) → Bool
  | [] => true
  | (_, c) :: more => ascending c && ascendingList more
end

mutual
/-- Every directory at or below the node can be read. -/
def allReadable : Node → Bool
  | .file _ => true
  | .dir r es => r && allReadableList es
/-- Every directory below the entries can be read. -/
def allReadableList : List (Str × Node) → Bool
  | [] => true
  | (_, c) :: more => allReadable c && allReadableList more
end

mutual
/-- The paths `listFiles` collects at and below a node: the node itself, then,
for a readable directory, what is collected below its entries, in order. -/
def listing (path : Str) : Node → List Str
  | .file _ => [path]
  | .dir r es => path :: (if r then listingNames path es else [])
/-- The paths collected below the entries of the directory `path`. -/
def listingNames (path : Str) : List (Str × Node) → List Str
  | [] => []
  | (name, child) :: more => listing (Join [path, name]) child ++ listingNames path more
end

/-- A path of the listing of the directory `absOf a` that comes from one of
its entries `es`: the entry `m`, followed by a chain of names that leads to
something below that entry. -/
def BelowEntry (a : List Str) (es : List (Str × Node)) (p : Str) : Prop :=
  ∃ m c r, lookupEntry m es = some c ∧ PlainSegs (m :: r) ∧ p = absOf (a ++ m :: r) ∧
    (lookup c r).isSome = true

/-- What the program can see of a file system object: the content of a
regular file, nothing for a directory. -/
def Node.kind : Node → Option Str
  | .file c => some c
  | .dir _ _ => none

/-- What the program can see at a path: nothing there, a directory, or a
regular file and its content. -/
def kindAt (nd : Node) (x : List Str) : Option (Option Str) :=
  (lookup nd x).map Node.kind

/-- The calls of a trace in the order they were made, with their errors. -/
def callsOf (tr : List Step) : List (Call × Option FsError) :=
  tr.reverse.map (fun s => (s.call, s.err))

/-- The `WriteFile` call of a step, as path and content. -/
def writeOf (st : Step) : Option (Str × Str) :=
  match st.call with
  | .writeFile p c => some (p, c)
  | .mkdirAll _ => none

/-- The files written in a trace, in the order they were written, with the
content written. -/
def writesOf (tr : List Step) : List (Str × Str) :=
  tr.reverse.filterMap writeOf

/-- A trace (latest call first) in which every `WriteFile` comes directly
after the `MkdirAll` of the directory of the same path, on the file system that
call left, and, when it succeeded, found that directory and every ancestor of
it in place. -/
def Guarded : List Step → Prop
  | [] => True
  | st :: older =>
    (∀ p c, st.call = .writeFile p c →
      (∃ st0 rest, older = st0 :: rest ∧ st0.call = .mkdirAll (Dir p) ∧
        st.before = (MkdirAll st0.before (Dir p)).1) ∧
      (st.err = none → ∀ a b, pathSegs (Dir p) = a ++ b →
        ∃ r es, lookup st.before a = some (.dir r es))) ∧
    Guarded older

/-- The content of the regular file at a path, if there is one. -/
def contentAt (fs : Node) (p : Str) : Option Str :=
  match ReadFile fs p with
  | .ok c => some c
  | .error _ => none

/-- The text the template called `name` renders to, when it parses and
executes without error. -/
def rendering (E : Engine) (name : Str) (data : tpl) (content : Str) : Option Str :=
  match render E name content data with
  | .done out none => some out
  | _ => none

/-- The rendering of the file at `p` in `fs`, as the template `ParseFiles`
makes of it, which is called after the file. -/
def renderingAt (E : Engine) (fs : Node) (data : tpl) (p : Str) : Option Str :=
  (contentAt fs p).bind (rendering E (Base p) data)

/-- What `main` is expected to write for the listed paths: for each path that
is not a directory, in order, the destination path and the rendering of the
content of the source file. -/
def expectedWrites (E : Engine) (fs : Node) (data : tpl) (src dst : Str) (files : List Str) :
    List (Str × Option Str) :=
  (files.filter (fun p => !(isDirectory fs p).1)).map
    (fun p => (Join [dst, TrimPrefix p src], renderingAt E fs data p))

/-- Two views of a path agree for the program that renders the file there
under the name `name`: both show a directory, or both a regular file, with
contents of the same rendering. -/
def sameRendering (E : Engine) (name : Str) (data : tpl) : Option Str → Option Str → Prop
  | none, none => True
  | some a, some b => rendering E name data a = rendering E name data b
  | _, _ => False

/-- Text without the opening delimiter `{{`. -/
def openFree : Str → Bool
  | [] => true
  | [_] => true
  | c :: d :: r => !(decide (c = '{') && decide (d = '{')) && openFree (d :: r)

/-- Text that can stand in front of an action: it holds no `{{` and does not
end in `{`, so that the `{{` that follows is the leftmost one. -/
def textBefore (s : Str) : Bool :=
  openFree (s ++ ['{'])

/-- An action body that ends at the `}}` that follows it: it holds no `}}`
and does not end in `}`. -/
def closeFree : Str → Bool
  | [] => true
  | [c] => !decide (c = '}')
  | c :: d :: r => !(decide (c = '}') && decide (d = '}')) && closeFree (d :: r)

/-- The node a piece of literal text parses to: none when it is empty. -/
def textNode (s : Str) : List TNode :=
  if s = [] then [] else [.text s]

/-- The opening delimiter. -/
def openDelim : Str := ['{', '{']

/-- The closing delimiter. -/
def closeDelim : Str := ['}', '}']

/-- The template `pre{{ if .UseCustomDomain }}x{{ end }}post`. -/
def customDomainTemplate (pre x post : Str) : Str :=
  pre ++ openDelim ++ " if .UseCustomDomain ".toList ++ closeDelim ++ x ++
    openDelim ++ " end ".toList ++ closeDelim ++ post

/-- The path shows the same kind of object, a directory or a regular file, in
both file systems. -/
def kindsAgree (fs cur : Node) (q : Str) : Prop :=
  ∃ k k1, kindAt fs (pathSegs q) = some k ∧ kindAt cur (pathSegs q) = some k1 ∧
    k1.isNone = k.isNone

/-! ## Example inputs -/

/-- The example of the specification: `/w/.templates/greet/hello.txt` holds
`Hi {{ .WorkerName }}`. -/
def greetFs : Node :=
  .dir true [("w".toList, .dir true [(".templates".toList, .dir true [("greet".toList,
    .dir true [("hello.txt".toList, .file "Hi \x7b\x7b .WorkerName \x7d\x7d".toList)])])])]

/-- The flags `-name=foo -template=./.templates/greet`. -/
def greetFlags : Flags :=
  ⟨"foo".toList, false, "./.templates/greet".toList⟩

/-- A working directory `/w` without any template directory. -/
def bareFs : Node :=
  .dir true [("w".toList, .dir true [])]

/-- The flags `-name=foo -template=./nope`. -/
def nopeFlags : Flags :=
  ⟨"foo".toList, false, "./nope".toList⟩

/-- The flags `-name=foo -template=./t`. -/
def tFlags : Flags :=
  ⟨"foo".toList, false, "./t".toList⟩

/-- A template `/w/t` that cannot be read. -/
def unreadableRootFs : Node :=
  .dir true [("w".toList, .dir true [("t".toList, .dir false [
    ("b".toList, .file "B".toList)])])]

/-- A template `/w/t` whose sub-directory `c` cannot be read. -/
def unreadableFs : Node :=
  .dir true [("w".toList, .dir true [("t".toList, .dir true [
    ("b".toList, .file "B".toList),
    ("c".toList, .dir false [("y".toList, .file "Y".toList)])])])]

/-- A template `/w/t` with a directory `a` and a file `b`, and a regular file
where the destination of `a` should go. -/
def blockedFs : Node :=
  .dir true [("w".toList, .dir true [
    ("t".toList, .dir true [("a".toList, .dir true []), ("b".toList, .file "B".toList)]),
    ("workers".toList, .dir true [("t".toList, .dir true [
      ("a".toList, .file "in the way".toList)])])])]

/-- A template `/w/t/f` that holds `{{ .Missing }}`. -/
def missingFs : Node :=
  .dir true [("w".toList, .dir true [("t".toList, .dir true [
    ("f".toList, .file "\x7b\x7b .Missing \x7d\x7d".toList)])])]

/-- A template `/w/t/f` that holds
`{{ if .UseCustomDomain }}{{ .Missing }}{{ end }}`: the placeholder sits in a
branch that is skipped when `UseCustomDomain` is false. -/
def skippedFs : Node :=
  .dir true [("w".toList, .dir true [("t".toList, .dir true [
    ("f".toList, .file
      "\x7b\x7b if .UseCustomDomain \x7d\x7d\x7b\x7b .Missing \x7d\x7d\x7b\x7b end \x7d\x7d".toList)])])]

/-- A template `/w/t/f` that holds `{{{ if .UseCustomDomain }}X{{ end }}`:
the block of the specification right after the text `{`. -/
def braceFs : Node :=
  .dir true [("w".toList, .dir true [("t".toList, .dir true [
    ("f".toList, .file (customDomainTemplate ['{'] ['X'] []))])])]

/-- A template inside its own destination: `/w/workers` holds `a` and
`workers/a`, and with `-template=./workers` the destination root is
`/w/workers/workers`. -/
def nestedFs : Node :=
  .dir true [("w".toList, .dir true [("workers".toList, .dir true [
    ("a".toList, .file "A\x7b\x7b .WorkerName \x7d\x7d".toList),
    ("workers".toList, .dir true [("a".toList, .file "B".toList)])])])]

/-- The flags `-name=foo -template=./workers`. -/
def nestedFlags : Flags :=
  ⟨"foo".toList, false, "./workers".toList⟩

/-- A template inside the directory that is its destination: `/w/workers/x/x`
holds `x/z` and `z`, and with `-template=./workers/x/x` the destination root
is `/w/workers/x`. -/
def insideFs : Node :=
  .dir true [("w".toList, .dir true [("workers".toList, .dir true [("x".toList, .dir true [
    ("x".toList, .dir true [
      ("x".toList, .dir true [("z".toList, .file "Q\x7b\x7b .WorkerName \x7d\x7d".toList)]),
      ("z".toList, .file "Z".toList)])])])])]

/-- The flags `-name=foo -template=./workers/x/x`. -/
def insideFlags : Flags :=
  ⟨"foo".toList, false, "./workers/x/x".toList⟩

/-- A template that is its own destination: `/w/workers/x` holds `a` and
`b/c`, and with `-template=./workers/x` the destination root is
`/w/workers/x` again. -/
def inPlaceFs : Node :=
  .dir true [("w".toList, .dir true [("workers".toList, .dir true [("x".toList, .dir true [
    ("a".toList, .file "A\x7b\x7b .WorkerName \x7d\x7d".toList),
    ("b".toList, .dir true [("c".toList, .file "C\x7b\x7b .UseCustomDomain \x7d\x7d".toList)])])])])]

/-- The flags `-name=foo -template=./workers/x`. -/
def inPlaceFlags : Flags :=
  ⟨"foo".toList, false, "./workers/x".toList⟩

/-- A template that holds its own destination: with `-template=/w` the source
root is `/w` and the destination root `/w/workers/w`, which does not exist
when the files are listed. -/
def aboveFs : Node :=
  .dir true [("w".toList, .dir true [
    ("a".toList, .file "A\x7b\x7b .WorkerName \x7d\x7d".toList)])]

/-- The flags `-name=foo -template=/w`. -/
def aboveFlags : Flags :=
  ⟨"foo".toList, false, "/w".toList⟩

/-- The template `nestedFs` with two files of the same plain content: the
file main overwrites before reading it renders as before. -/
def sameFs : Node :=
  .dir true [("w".toList, .dir true [("workers".toList, .dir true [
    ("a".toList, .file "A".toList),
    ("workers".toList, .dir true [("a".toList, .file "A".toList)])])])]

/-- A template `/w/t` with a file outside the modelled fragment: `a` holds
`{{- .WorkerName }}`, with a trim marker, and `b/c` holds `x`. -/
def trimFs : Node :=
  .dir true [("w".toList, .dir true [("t".toList, .dir true [
    ("a".toList, .file "\x7b\x7b- .WorkerName \x7d\x7d".toList),
    ("b".toList, .dir true [("c".toList, .file "x".toList)])])])]
/-! ## Lemmas about paths -/

theorem splitSep_ne_nil (p : Str) : splitSep p ≠ [] := by
  cases p with
  | nil => simp [splitSep]
  | cons c cs =>
    simp only [splitSep]
    split
    · simp
    · cases splitSep cs <;> simp [consHead]

theorem consHead_append (c : Char) (l m : List Str) (h : l ≠ []) :
    consHead c (l ++ m) = consHead c l ++ m := by
  cases l with
  | nil => exact absurd rfl h
  | cons s ss => rfl

theorem splitSep_append_sep (a b : Str) :
    splitSep (a ++ sep :: b) = splitSep a ++ splitSep b := by
  induction a with
  | nil => simp [splitSep]
  | cons c a ih =>
    have e : (c :: a) ++ sep :: b = c :: (a ++ sep :: b) := rfl
    rw [e]
    simp only [splitSep]
    split
    · simp [ih]
    · rw [ih, consHead_append _ _ _ (splitSep_ne_nil a)]

theorem splitSep_of_not_mem (s : Str) (h : sep ∉ s) : splitSep s = [s] := by
  induction s with
  | nil => rfl
  | cons c s ih =>
    simp only [List.mem_cons, not_or] at h
    have hc : c ≠ sep := fun e => h.1 e.symm
    simp [splitSep, hc, ih h.2, consHead]

theorem splitSep_joinSep (segs : List Str) (hne : segs ≠ []) (h : ∀ s ∈ segs, sep ∉ s) :
    splitSep (joinSep segs) = segs := by
  induction segs with
  | nil => exact absurd rfl hne
  | cons s ss ih =>
    cases ss with
    | nil => simpa [joinSep] using splitSep_of_not_mem s (h s (by simp))
    | cons t ts =>
      simp only [joinSep]
      rw [splitSep_append_sep, splitSep_of_not_mem s (h s (by simp)),
        ih (by simp) (fun x hx => h x (List.mem_cons_of_mem _ hx))]
      rfl

theorem sep_not_mem_of_mem_splitSep (p s : Str) (h : s ∈ splitSep p) : sep ∉ s := by
  induction p generalizing s with
  | nil => simp [splitSep] at h; simp [h]
  | cons c cs ih =>
    simp only [splitSep] at h
    split at h
    · rcases List.mem_cons.1 h with h | h
      · simp [h]
      · exact ih s h
    · rename_i hc
      cases hs : splitSep cs with
      | nil => exact absurd hs (splitSep_ne_nil cs)
      | cons t ts =>
        rw [hs] at h ih
        simp only [consHead, List.mem_cons] at h
        rcases h with h | h
        · subst h
          have := ih t (by simp)
          simp only [List.mem_cons, not_or]
          exact ⟨fun e => hc e.symm, this⟩
        · exact ih s (by simp [h])

theorem cleanStep_plain (r : Bool) (stack : List Str) (s : Str) (h : PlainName s) :
    cleanStep r stack s = s :: stack := by
  obtain ⟨h1, -, h3, h4⟩ := h
  simp [cleanStep, h1, h3, h4]

theorem foldl_cleanStep_plain (r : Bool) (segs stack : List Str) (h : PlainSegs segs) :
    segs.foldl (cleanStep r) stack = segs.reverse ++ stack := by
  induction segs generalizing stack with
  | nil => rfl
  | cons s ss ih =>
    simp only [List.foldl_cons, List.reverse_cons, List.append_assoc, List.singleton_append]
    rw [cleanStep_plain r stack s (h s (by simp)), ih _ (fun x hx => h x (List.mem_cons_of_mem _ hx))]

theorem cleanStep_nil (r : Bool) (stack : List Str) : cleanStep r stack [] = stack := by
  simp [cleanStep]

theorem splitSep_absOf (segs : List Str) (h : PlainSegs segs) :
    splitSep (absOf segs) = [] :: (if segs = [] then [[]] else segs) := by
  unfold absOf
  have : splitSep (sep :: joinSep segs) = [] :: splitSep (joinSep segs) := by
    simp [splitSep]
  rw [this]
  split
  · rename_i e; subst e; rfl
  · rename_i hne
    rw [splitSep_joinSep segs hne (fun s hs => (h s hs).2.1)]

theorem splitSep_relOf (segs : List Str) (h : PlainSegs segs) :
    splitSep (relOf segs) = [] :: segs := by
  cases segs with
  | nil => rfl
  | cons s ss =>
    have : splitSep (relOf (s :: ss)) = [] :: splitSep (joinSep (s :: ss)) := by
      simp [relOf, splitSep]
    rw [this, splitSep_joinSep _ (by simp) (fun x hx => (h x hx).2.1)]

theorem IsAbs_absOf (segs : List Str) : IsAbs (absOf segs) = true := by
  simp [absOf, IsAbs]

theorem cleanSegs_absOf (segs : List Str) (h : PlainSegs segs) :
    cleanSegs (absOf segs) = segs := by
  unfold cleanSegs
  rw [splitSep_absOf segs h, IsAbs_absOf]
  simp only [List.foldl_cons, cleanStep_nil]
  split
  · rename_i e; subst e; simp [cleanStep_nil]
  · rw [foldl_cleanStep_plain _ _ _ h]; simp

theorem Clean_absOf (segs : List Str) (h : PlainSegs segs) : Clean (absOf segs) = absOf segs := by
  unfold Clean
  rw [IsAbs_absOf, cleanSegs_absOf segs h]
  simp [absOf]

theorem pathSegs_absOf (segs : List Str) (h : PlainSegs segs) : pathSegs (absOf segs) = segs := by
  unfold pathSegs
  rw [splitSep_absOf segs h]
  have hf : segs.filter (fun s => decide (s ≠ [])) = segs := by
    rw [List.filter_eq_self]
    intro s hs
    simpa using (h s hs).1
  split
  · rename_i e; subst e; simp
  · rw [List.filter_cons_of_neg (by simp)]; exact hf

theorem absOf_append_relOf (d r : List Str) (hd : d ≠ []) :
    absOf (d ++ r) = absOf d ++ relOf r := by
  cases r with
  | nil => simp [relOf]
  | cons s ss =>
    simp only [absOf, relOf, List.cons_append, List.cons.injEq, true_and]
    induction d with
    | nil => exact absurd rfl hd
    | cons x xs ih =>
      cases xs with
      | nil => simp [joinSep]
      | cons y ys =>
        have := ih (by simp)
        simp only [List.cons_append] at this ⊢
        simp only [joinSep, List.append_assoc, List.cons_append]
        rw [this]

theorem HasPrefix_append (a b : Str) : HasPrefix (a ++ b) a = true := by
  induction a with
  | nil => cases b <;> rfl
  | cons c a ih => simp [HasPrefix, ih]

theorem TrimPrefix_append (a b : Str) : TrimPrefix (a ++ b) a = b := by
  simp [TrimPrefix, HasPrefix_append]

theorem PlainSegs_append {a b : List Str} (ha : PlainSegs a) (hb : PlainSegs b) :
    PlainSegs (a ++ b) := by
  intro s hs
  rcases List.mem_append.1 hs with h | h
  · exact ha s h
  · exact hb s h

/-- Joining a cleaned absolute path with a chain of names below it. -/
theorem Join_absOf_relOf (d r : List Str) (hd : PlainSegs d) (hr : PlainSegs r) :
    Join [absOf d, relOf r] = absOf (d ++ r) := by
  have h1 : Join [absOf d, relOf r] = Clean (absOf d ++ sep :: relOf r) := by
    simp [Join, absOf, joinSep]
  rw [h1]
  unfold Clean
  have habs : IsAbs (absOf d ++ sep :: relOf r) = true := by simp [absOf, IsAbs]
  rw [habs]
  have hs : cleanSegs (absOf d ++ sep :: relOf r) = d ++ r := by
    unfold cleanSegs
    rw [habs, splitSep_append_sep, splitSep_absOf d hd, splitSep_relOf r hr]
    simp only [List.cons_append, List.foldl_cons, cleanStep_nil, List.foldl_append]
    split
    · rename_i e; subst e
      simp only [List.foldl_cons, cleanStep_nil, List.foldl_nil]
      rw [foldl_cleanStep_plain _ _ _ hr]; simp
    · rw [foldl_cleanStep_plain _ _ _ hd, foldl_cleanStep_plain _ _ _ hr]; simp
  rw [hs]
  rfl

theorem cleanStep_rooted_plain (stack : List Str) (seg : Str) (hs : PlainSegs stack)
    (hseg : sep ∉ seg) : PlainSegs (cleanStep true stack seg) := by
  unfold cleanStep
  split
  · exact hs
  · rename_i h1
    simp only [not_or] at h1
    split
    · cases stack with
      | nil => simpa using hs
      | cons top below =>
        have ht : top ≠ dotdot := (hs top (by simp)).2.2.2
        simp only [ht, if_false]
        exact fun s h => hs s (List.mem_cons_of_mem _ h)
    · rename_i h2
      intro s h
      rcases List.mem_cons.1 h with h | h
      · subst h
        exact ⟨h1.1, hseg, h1.2, h2⟩
      · exact hs s h

theorem foldl_cleanStep_rooted_plain (l stack : List Str) (hs : PlainSegs stack)
    (hl : ∀ s ∈ l, sep ∉ s) : PlainSegs (l.foldl (cleanStep true) stack) := by
  induction l generalizing stack with
  | nil => exact hs
  | cons s ss ih =>
    simp only [List.foldl_cons]
    exact ih _ (cleanStep_rooted_plain stack s hs (hl s (by simp)))
      (fun x hx => hl x (List.mem_cons_of_mem _ hx))

/-- The elements `Clean` keeps of a rooted path are entry names. -/
theorem PlainSegs_cleanSegs (p : Str) (h : IsAbs p = true) : PlainSegs (cleanSegs p) := by
  unfold cleanSegs
  rw [h]
  have := foldl_cleanStep_rooted_plain (splitSep p) [] (by intro s hs; simp at hs)
    (fun s hs => sep_not_mem_of_mem_splitSep p s hs)
  intro s hs
  exact this s (List.mem_reverse.1 hs)

/-- A rooted path is cleaned to the absolute path of the elements kept. -/
theorem Clean_of_IsAbs (p : Str) (h : IsAbs p = true) : Clean p = absOf (cleanSegs p) := by
  simp [Clean, h, absOf]

theorem foldl_cleanStep_filter (r : Bool) (l stack : List Str)
    (h : ∀ s ∈ l, s = [] ∨ PlainName s) :
    l.foldl (cleanStep r) stack = (l.filter (fun s => s ≠ [])).reverse ++ stack := by
  induction l generalizing stack with
  | nil => rfl
  | cons s ss ih =>
    simp only [List.foldl_cons]
    rcases h s (by simp) with hs | hs
    · subst hs
      rw [cleanStep_nil, ih _ (fun x hx => h x (List.mem_cons_of_mem _ hx))]
      simp
    · rw [cleanStep_plain r stack s hs, ih _ (fun x hx => h x (List.mem_cons_of_mem _ hx))]
      have : s ≠ [] := hs.1
      simp [List.filter_cons, this]

theorem pathSegs_plain_of_split (x : Str) (h : ∀ s ∈ splitSep x, s = [] ∨ PlainName s) :
    PlainSegs (pathSegs x) := by
  intro s hs
  unfold pathSegs at hs
  rw [List.mem_filter] at hs
  rcases h s hs.1 with e | e
  · simp [e] at hs
  · exact e

/-- Joining a cleaned absolute path with a string whose elements are entry
names appends those elements. -/
theorem Join_absOf (d : List Str) (x : Str) (hd : PlainSegs d)
    (hx : ∀ s ∈ splitSep x, s = [] ∨ PlainName s) :
    Join [absOf d, x] = absOf (d ++ pathSegs x) := by
  have h1 : Join [absOf d, x] = Clean (absOf d ++ sep :: x) := by
    simp [Join, absOf, joinSep]
  have habs : IsAbs (absOf d ++ sep :: x) = true := by simp [absOf, IsAbs]
  rw [h1, Clean_of_IsAbs _ habs]
  congr 1
  unfold cleanSegs
  rw [habs, splitSep_append_sep, List.foldl_append, splitSep_absOf d hd]
  have hd' : (([] : Str) :: if d = [] then [[]] else d).foldl (cleanStep true) [] = d.reverse := by
    simp only [List.foldl_cons, cleanStep_nil]
    split
    · rename_i e; subst e; simp [cleanStep_nil]
    · rw [foldl_cleanStep_plain _ _ _ hd]; simp
  rw [hd', foldl_cleanStep_filter _ _ _ hx]
  simp [pathSegs]

theorem splitSep_name (n : Str) (h : PlainName n) : splitSep n = [n] :=
  splitSep_of_not_mem n h.2.1

theorem pathSegs_name (n : Str) (h : PlainName n) : pathSegs n = [n] := by
  have : n ≠ [] := h.1
  simp [pathSegs, splitSep_name n h, this]

/-- The path of an entry called `n` in the directory `absOf d`. -/
theorem Join_absOf_name (d : List Str) (n : Str) (hd : PlainSegs d) (hn : PlainName n) :
    Join [absOf d, n] = absOf (d ++ [n]) := by
  rw [Join_absOf d n hd (by rw [splitSep_name n hn]; intro s hs; simp at hs; exact Or.inr (hs ▸ hn)),
    pathSegs_name n hn]

theorem joinSep_append_one (x : List Str) (l : Str) (hx : x ≠ []) :
    joinSep (x ++ [l]) = joinSep x ++ sep :: l := by
  induction x with
  | nil => exact absurd rfl hx
  | cons a as ih =>
    cases as with
    | nil => simp [joinSep]
    | cons b bs =>
      have := ih (by simp)
      simp only [List.cons_append] at this ⊢
      simp only [joinSep, this, List.append_assoc, List.cons_append]

theorem absOf_append_one (x : List Str) (l : Str) :
    absOf (x ++ [l]) = (if x = [] then [] else absOf x) ++ sep :: l := by
  split
  · rename_i e; subst e; simp [absOf, joinSep]
  · rename_i hx
    simp [absOf, joinSep_append_one x l hx]

theorem uptoLastSep_append (a l : Str) (hl : sep ∉ l) : uptoLastSep (a ++ sep :: l) = a ++ [sep] := by
  unfold uptoLastSep
  have h1 : (a ++ sep :: l).reverse = l.reverse ++ sep :: a.reverse := by simp
  rw [h1, List.dropWhile_append_of_pos]
  · simp [List.dropWhile]
  · intro c hc
    have : c ∈ l := List.mem_reverse.1 hc
    simp only [ne_eq, decide_not, Bool.not_eq_true', decide_eq_false_iff_not]
    intro e
    exact hl (e ▸ this)

theorem lastElem_append (a l : Str) (hl : sep ∉ l) : lastElem (a ++ sep :: l) = l := by
  unfold lastElem
  have h1 : (a ++ sep :: l).reverse = l.reverse ++ sep :: a.reverse := by simp
  rw [h1, List.takeWhile_append_of_pos]
  · simp [List.takeWhile]
  · intro c hc
    have : c ∈ l := List.mem_reverse.1 hc
    simp only [ne_eq, decide_not, Bool.not_eq_true', decide_eq_false_iff_not]
    intro e
    exact hl (e ▸ this)

/-- The directory of `/x/l` is `/x`. -/
theorem Dir_absOf (x : List Str) (l : Str) (h : PlainSegs (x ++ [l])) :
    Dir (absOf (x ++ [l])) = absOf x := by
  have hl : PlainName l := h l (by simp)
  have hx : PlainSegs x := fun s hs => h s (by simp [hs])
  unfold Dir
  rw [absOf_append_one, uptoLastSep_append _ _ hl.2.1]
  split
  · rename_i e; subst e
    decide
  · have e : absOf x ++ [sep] = absOf x ++ sep :: [] := rfl
    have habs : IsAbs (absOf x ++ sep :: []) = true := by simp [absOf, IsAbs]
    rw [e, Clean_of_IsAbs _ habs]
    congr 1
    unfold cleanSegs
    rw [habs, splitSep_append_sep, List.foldl_append, splitSep_absOf x hx]
    rename_i hne
    simp only [hne, if_false, List.foldl_cons, cleanStep_nil, splitSep, List.foldl_nil]
    rw [foldl_cleanStep_plain _ _ _ hx]
    simp

/-- The base name of `/x/l` is `l`. -/
theorem Base_absOf (x : List Str) (l : Str) (hl : PlainName l) :
    Base (absOf (x ++ [l])) = l := by
  have hstrip : stripTrailingSep (absOf (x ++ [l])) = absOf (x ++ [l]) := by
    rw [absOf_append_one]
    unfold stripTrailingSep
    obtain ⟨c, cs, hcs⟩ : ∃ c cs, l.reverse = c :: cs := by
      cases hr : l.reverse with
      | nil => exact absurd (List.reverse_eq_nil_iff.1 hr) hl.1
      | cons c cs => exact ⟨c, cs, rfl⟩
    have hc : c ≠ sep := by
      intro e
      have : c ∈ l := List.mem_reverse.1 (by rw [hcs]; simp)
      exact hl.2.1 (e ▸ this)
    have h1 : ((if x = [] then [] else absOf x) ++ sep :: l).reverse
        = c :: (cs ++ sep :: (if x = [] then [] else absOf x).reverse) := by
      simp [hcs]
    rw [h1, List.dropWhile_cons_of_neg (by simpa using hc), ← h1, List.reverse_reverse]
  unfold Base
  rw [hstrip]
  have hne : absOf (x ++ [l]) ≠ [] := by simp [absOf]
  simp only [hne, if_false]
  rw [absOf_append_one, lastElem_append _ _ hl.2.1]

theorem joinSep_cons_ne (s : Str) (l : List Str) (hl : l ≠ []) :
    joinSep (s :: l) = s ++ sep :: joinSep l := by
  cases l with
  | nil => exact absurd rfl hl
  | cons t ts => rfl

/-- `filepath.Join("./workers", b)` for a relative path `b` of entry names. -/
theorem Join_workers (bs : List Str) (hbs : PlainSegs bs) (hne : bs ≠ []) :
    Join ["./workers".toList, joinSep bs] = joinSep ("workers".toList :: bs) := by
  have h1 : Join ["./workers".toList, joinSep bs]
      = Clean ("./workers".toList ++ sep :: joinSep bs) := by
    simp [Join, joinSep]
  have hrel : IsAbs ("./workers".toList ++ sep :: joinSep bs) = false := rfl
  have hsegs : cleanSegs ("./workers".toList ++ sep :: joinSep bs) = "workers".toList :: bs := by
    unfold cleanSegs
    rw [hrel, splitSep_append_sep, List.foldl_append,
      splitSep_joinSep bs hne (fun s hs => (hbs s hs).2.1)]
    have h2 : (splitSep "./workers".toList).foldl (cleanStep false) [] = ["workers".toList] := by
      decide
    rw [h2, foldl_cleanStep_plain _ _ _ hbs]
    simp
  rw [h1]
  unfold Clean
  rw [hrel, hsegs]
  simp

theorem IsAbs_joinSep_workers (bs : List Str) :
    IsAbs (joinSep ("workers".toList :: bs)) = false := by
  cases bs with
  | nil => decide
  | cons t ts => simp [joinSep, IsAbs, sep]

/-- `filepath.Abs` of a relative path of entry names, in a cleaned absolute
working directory. -/
theorem Abs_rel (cs l : List Str) (hcs : PlainSegs cs) (hl : PlainSegs l) (hne : l ≠ [])
    (hrel : IsAbs (joinSep l) = false) :
    Abs (some (absOf cs)) (joinSep l) = .ok (absOf (cs ++ l)) := by
  unfold Abs
  rw [hrel]
  simp only [Bool.false_eq_true, if_false]
  have hsplit := splitSep_joinSep l hne (fun s hs => (hl s hs).2.1)
  rw [Join_absOf cs (joinSep l) hcs (by rw [hsplit]; exact fun s hs => Or.inr (hl s hs))]
  have : pathSegs (joinSep l) = l := by
    unfold pathSegs
    rw [hsplit, List.filter_eq_self]
    intro s hs
    simpa using (hl s hs).1
  rw [this]

theorem leads_iff (p q : List Str) : leads p q = true ↔ ∃ t, q = p ++ t := by
  induction p generalizing q with
  | nil => simp [leads]
  | cons a p ih =>
    cases q with
    | nil => simp [leads]
    | cons b q =>
      simp only [leads, Bool.and_eq_true, decide_eq_true_eq, ih, List.cons_append,
        List.cons.injEq]
      constructor
      · rintro ⟨e, t, ht⟩
        exact ⟨t, e.symm, ht⟩
      · rintro ⟨t, e, ht⟩
        exact ⟨e.symm, t, ht⟩
/-! ## Lemmas about the file system -/

theorem lookupEntry_replaceEntry_same (n : Str) (c : Node) (es : List (Str × Node))
    (h : (lookupEntry n es).isSome) : lookupEntry n (replaceEntry n c es) = some c := by
  induction es with
  | nil => simp [lookupEntry] at h
  | cons e es ih =>
    obtain ⟨m, x⟩ := e
    simp only [replaceEntry]
    by_cases hm : m = n
    · simp [hm, lookupEntry]
    · simp only [lookupEntry, hm, if_false] at h ⊢
      exact ih h

theorem lookupEntry_insertEntry_same (n : Str) (c : Node) (es : List (Str × Node))
    (h : lookupEntry n es = none) : lookupEntry n (insertEntry n c es) = some c := by
  induction es with
  | nil => simp [insertEntry, lookupEntry]
  | cons e es ih =>
    obtain ⟨m, x⟩ := e
    simp only [insertEntry]
    by_cases hm : m = n
    · simp [hm, lookupEntry] at h
    · simp only [lookupEntry, hm, if_false] at h
      split
      · simp [lookupEntry]
      · simp only [lookupEntry, hm, if_false]
        exact ih h

theorem lookupEntry_setEntry_same (n : Str) (c : Node) (es : List (Str × Node)) :
    lookupEntry n (setEntry n c es) = some c := by
  unfold setEntry
  split
  · rename_i h
    exact lookupEntry_replaceEntry_same n c es h
  · rename_i h
    exact lookupEntry_insertEntry_same n c es (by simpa using h)

theorem lookupEntry_replaceEntry_other (n m : Str) (c : Node) (es : List (Str × Node))
    (h : m ≠ n) : lookupEntry m (replaceEntry n c es) = lookupEntry m es := by
  have h' : n ≠ m := fun e => h e.symm
  induction es with
  | nil => rfl
  | cons e es ih =>
    obtain ⟨k, x⟩ := e
    simp only [replaceEntry]
    by_cases hk : k = n
    · subst hk
      simp [lookupEntry, h']
    · simp only [hk, if_false, lookupEntry, ih]

theorem lookupEntry_insertEntry_other (n m : Str) (c : Node) (es : List (Str × Node))
    (h : m ≠ n) : lookupEntry m (insertEntry n c es) = lookupEntry m es := by
  have h' : n ≠ m := fun e => h e.symm
  induction es with
  | nil => simp [insertEntry, lookupEntry, h']
  | cons e es ih =>
    obtain ⟨k, x⟩ := e
    simp only [insertEntry]
    split
    · simp [lookupEntry, h']
    · simp only [lookupEntry, ih]

theorem lookupEntry_setEntry_other (n m : Str) (c : Node) (es : List (Str × Node)) (h : m ≠ n) :
    lookupEntry m (setEntry n c es) = lookupEntry m es := by
  unfold setEntry
  split
  · exact lookupEntry_replaceEntry_other n m c es h
  · exact lookupEntry_insertEntry_other n m c es h

theorem lookup_nil (nd : Node) : lookup nd [] = some nd := by
  cases nd <;> rfl

theorem lookup_file_cons (c : Str) (s : Str) (ss : List Str) :
    lookup (.file c) (s :: ss) = none := rfl

theorem lookup_dir_cons (r : Bool) (es : List (Str × Node)) (s : Str) (ss : List Str) :
    lookup (.dir r es) (s :: ss) = (lookupEntry s es).bind (fun c => lookup c ss) := by
  simp only [lookup]
  cases lookupEntry s es <;> rfl

theorem lookup_append (nd : Node) (a b : List Str) :
    lookup nd (a ++ b) = (lookup nd a).bind (fun x => lookup x b) := by
  induction a generalizing nd with
  | nil => simp [lookup_nil]
  | cons s ss ih =>
    cases nd with
    | file c => simp [lookup_file_cons]
    | dir r es =>
      simp only [List.cons_append, lookup_dir_cons]
      cases lookupEntry s es with
      | none => rfl
      | some c => simp [ih]

theorem mkdirAllSegs_file (c : Str) (q : List Str) : mkdirAllSegs (.file c) q = .error .notDir := by
  cases q <;> rfl

theorem mkdirAllSegs_dir_nil (r : Bool) (es : List (Str × Node)) :
    mkdirAllSegs (.dir r es) [] = .ok (.dir r es) := rfl

theorem mkdirAllSegs_dir_cons (r : Bool) (es : List (Str × Node)) (s : Str) (ss : List Str) :
    mkdirAllSegs (.dir r es) (s :: ss) =
      match mkdirAllSegs ((lookupEntry s es).getD (.dir true [])) ss with
      | .error e => .error e
      | .ok c => .ok (.dir r (setEntry s c es)) := rfl

/-- Creating directories along `q` changes nothing at a path `p` that is not
an initial part of `q`. -/
theorem lookup_mkdirAllSegs_frame (q : List Str) :
    ∀ (nd nd1 : Node) (p : List Str), mkdirAllSegs nd q = .ok nd1 →
      (¬ ∃ t, q = p ++ t) → lookup nd1 p = lookup nd p := by
  induction q with
  | nil =>
    intro nd nd1 p h hp
    cases nd with
    | file c => simp [mkdirAllSegs_file] at h
    | dir r es =>
      simp only [mkdirAllSegs_dir_nil, Except.ok.injEq] at h
      rw [← h]
  | cons s ss ih =>
    intro nd nd1 p h hp
    cases nd with
    | file c => simp [mkdirAllSegs_file] at h
    | dir r es =>
      rw [mkdirAllSegs_dir_cons] at h
      cases hc : mkdirAllSegs ((lookupEntry s es).getD (.dir true [])) ss with
      | error e => rw [hc] at h; simp at h
      | ok c =>
        rw [hc] at h
        simp only [Except.ok.injEq] at h
        subst h
        cases p with
        | nil => exact absurd ⟨s :: ss, rfl⟩ hp
        | cons a pp =>
          rw [lookup_dir_cons, lookup_dir_cons]
          by_cases ha : a = s
          · subst ha
            rw [lookupEntry_setEntry_same]
            have hpp : ¬ ∃ t, ss = pp ++ t := by
              rintro ⟨t, ht⟩
              exact hp ⟨t, by simp [ht]⟩
            have := ih _ _ pp hc hpp
            simp only [Option.some_bind, this]
            cases hl : lookupEntry a es with
            | some ch => simp
            | none =>
              simp only [Option.getD_none, Option.none_bind]
              cases pp with
              | nil => exact absurd ⟨ss, rfl⟩ hp
              | cons x xs => simp [lookup_dir_cons, lookupEntry]
          · rw [lookupEntry_setEntry_other _ _ _ _ ha]

/-- When directories can be created along `p ++ t`, whatever is at `p` is a
directory. -/
theorem isDir_of_mkdirAllSegs (p : List Str) :
    ∀ (nd nd1 x : Node) (t : List Str), mkdirAllSegs nd (p ++ t) = .ok nd1 →
      lookup nd p = some x → x.isDir = true := by
  induction p with
  | nil =>
    intro nd nd1 x t h hx
    rw [lookup_nil] at hx
    simp only [Option.some.injEq] at hx
    subst hx
    cases nd with
    | file c => simp [mkdirAllSegs_file] at h
    | dir r es => rfl
  | cons s ss ih =>
    intro nd nd1 x t h hx
    cases nd with
    | file c => simp [mkdirAllSegs_file] at h
    | dir r es =>
      rw [List.cons_append, mkdirAllSegs_dir_cons] at h
      rw [lookup_dir_cons] at hx
      cases hl : lookupEntry s es with
      | none => rw [hl] at hx; simp at hx
      | some ch =>
        rw [hl] at hx h
        simp only [Option.some_bind, Option.getD_some] at hx h
        cases hc : mkdirAllSegs ch (ss ++ t) with
        | error e => rw [hc] at h; simp at h
        | ok c => exact ih ch c x t hc hx

theorem writeFileSegs_nil (nd : Node) (c : Str) : writeFileSegs nd [] c = .error .isDir := by
  cases nd <;> rfl

theorem writeFileSegs_file (x : Str) (q : List Str) (c : Str) :
    ∃ e, writeFileSegs (.file x) q c = .error e := by
  cases q with
  | nil => exact ⟨_, rfl⟩
  | cons s ss => exact ⟨_, rfl⟩

theorem writeFileSegs_dir_one (r : Bool) (es : List (Str × Node)) (s c : Str) :
    writeFileSegs (.dir r es) [s] c =
      match lookupEntry s es with
      | some (.dir _ _) => .error .isDir
      | _ => .ok (.dir r (setEntry s (.file c) es)) := rfl

theorem writeFileSegs_dir_more (r : Bool) (es : List (Str × Node)) (s t : Str) (ss : List Str)
    (c : Str) :
    writeFileSegs (.dir r es) (s :: t :: ss) c =
      match lookupEntry s es with
      | none => .error .notExist
      | some child =>
        match writeFileSegs child (t :: ss) c with
        | .error e => .error e
        | .ok child1 => .ok (.dir r (setEntry s child1 es)) := rfl

/-- Writing the file at `q` changes nothing at a path `p` that is not an
initial part of `q`. -/
theorem lookup_writeFileSegs_frame (q : List Str) :
    ∀ (nd nd1 : Node) (c : Str) (p : List Str), writeFileSegs nd q c = .ok nd1 →
      (¬ ∃ t, q = p ++ t) → lookup nd1 p = lookup nd p := by
  induction q with
  | nil =>
    intro nd nd1 c p h
    simp [writeFileSegs_nil] at h
  | cons s ss ih =>
    intro nd nd1 c p h hp
    cases nd with
    | file x =>
      obtain ⟨e, he⟩ := writeFileSegs_file x (s :: ss) c
      rw [he] at h; simp at h
    | dir r es =>
      cases p with
      | nil => exact absurd ⟨s :: ss, rfl⟩ hp
      | cons a pp =>
        cases ss with
        | nil =>
          rw [writeFileSegs_dir_one] at h
          have hnd : nd1 = .dir r (setEntry s (.file c) es) ∧
              ∀ r1 es1, lookupEntry s es ≠ some (.dir r1 es1) := by
            cases hl : lookupEntry s es with
            | none => rw [hl] at h; simp only [Except.ok.injEq] at h; simp [h]
            | some ch =>
              rw [hl] at h
              cases ch with
              | file y => simp only [Except.ok.injEq] at h; simp [h]
              | dir r1 es1 => simp at h
          obtain ⟨e1, hnot⟩ := hnd
          subst e1
          rw [lookup_dir_cons, lookup_dir_cons]
          by_cases ha : a = s
          · subst ha
            rw [lookupEntry_setEntry_same]
            cases pp with
            | nil => exact absurd ⟨[], rfl⟩ hp
            | cons x xs =>
              simp only [Option.some_bind, lookup_file_cons]
              cases hl : lookupEntry a es with
              | none => rfl
              | some ch =>
                cases ch with
                | file y => rfl
                | dir r1 es1 => exact absurd hl (hnot r1 es1)
          · rw [lookupEntry_setEntry_other _ _ _ _ ha]
        | cons t ts =>
          rw [writeFileSegs_dir_more] at h
          cases hl : lookupEntry s es with
          | none => rw [hl] at h; simp at h
          | some ch =>
            rw [hl] at h
            simp only at h
            cases hc : writeFileSegs ch (t :: ts) c with
            | error e => rw [hc] at h; simp at h
            | ok ch1 =>
              rw [hc] at h
              simp only [Except.ok.injEq] at h
              subst h
              rw [lookup_dir_cons, lookup_dir_cons]
              by_cases ha : a = s
              · subst ha
                rw [lookupEntry_setEntry_same, hl]
                have hpp : ¬ ∃ u, t :: ts = pp ++ u := by
                  rintro ⟨u, hu⟩
                  exact hp ⟨u, by simp [hu]⟩
                simpa using ih ch ch1 c pp hc hpp
              · rw [lookupEntry_setEntry_other _ _ _ _ ha]

/-- A file can only be written where every proper initial part of the path
is a directory. -/
theorem dirs_of_writeFileSegs (a : List Str) :
    ∀ (nd nd1 : Node) (b : List Str) (c : Str), b ≠ [] → writeFileSegs nd (a ++ b) c = .ok nd1 →
      ∃ r es, lookup nd a = some (.dir r es) := by
  induction a with
  | nil =>
    intro nd nd1 b c hb h
    cases nd with
    | file x =>
      obtain ⟨e, he⟩ := writeFileSegs_file x ([] ++ b) c
      rw [he] at h; simp at h
    | dir r es => exact ⟨r, es, lookup_nil _⟩
  | cons s ss ih =>
    intro nd nd1 b c hb h
    cases nd with
    | file x =>
      obtain ⟨e, he⟩ := writeFileSegs_file x (s :: ss ++ b) c
      rw [he] at h; simp at h
    | dir r es =>
      have hne : ss ++ b ≠ [] := by simp [hb]
      obtain ⟨t, ts, hts⟩ : ∃ t ts, ss ++ b = t :: ts := by
        cases hss : ss ++ b with
        | nil => exact absurd hss hne
        | cons t ts => exact ⟨t, ts, rfl⟩
      rw [List.cons_append, hts, writeFileSegs_dir_more] at h
      rw [lookup_dir_cons]
      cases hl : lookupEntry s es with
      | none => rw [hl] at h; simp at h
      | some ch =>
        rw [hl] at h
        simp only at h
        cases hc : writeFileSegs ch (t :: ts) c with
        | error e => rw [hc] at h; simp at h
        | ok ch1 =>
          rw [← hts] at hc
          obtain ⟨r1, es1, h1⟩ := ih ch ch1 b c hb hc
          exact ⟨r1, es1, by simp [h1]⟩

/-- `MkdirAll` leaves every regular file as it is. -/
theorem lookup_file_MkdirAll (fs : Node) (q : Str) (p : List Str) (c : Str)
    (h : lookup fs p = some (.file c)) : lookup (MkdirAll fs q).1 p = some (.file c) := by
  unfold MkdirAll
  cases hm : mkdirAllSegs fs (pathSegs q) with
  | error e => exact h
  | ok fs1 =>
    simp only
    by_cases hp : ∃ t, pathSegs q = p ++ t
    · obtain ⟨t, ht⟩ := hp
      rw [ht] at hm
      have := isDir_of_mkdirAllSegs p fs fs1 _ t hm h
      simp [Node.isDir] at this
    · rw [lookup_mkdirAllSegs_frame _ fs fs1 p hm hp, h]

theorem ReadFile_ok_iff (fs : Node) (p c : Str) :
    ReadFile fs p = .ok c ↔ lookup fs (pathSegs p) = some (.file c) := by
  unfold ReadFile
  cases h : lookup fs (pathSegs p) with
  | none => simp
  | some nd =>
    cases nd with
    | file x => simp
    | dir r es => simp

theorem WellNamed_dir (r : Bool) (es : List (Str × Node)) :
    WellNamed (.dir r es) ↔ WellNamedList es := by
  simp [WellNamed, WellNamedList, wellNamed]

theorem WellNamedList_cons (n : Str) (c : Node) (more : List (Str × Node)) :
    WellNamedList ((n, c) :: more) ↔ PlainName n ∧ WellNamed c ∧ WellNamedList more := by
  simp [WellNamed, WellNamedList, wellNamedList, and_assoc]

theorem WellNamedList_lookupEntry (es : List (Str × Node)) (h : WellNamedList es) (n : Str)
    (c : Node) (hl : lookupEntry n es = some c) : WellNamed c := by
  induction es with
  | nil => simp [lookupEntry] at hl
  | cons e more ih =>
    obtain ⟨m, x⟩ := e
    rw [WellNamedList_cons] at h
    simp only [lookupEntry] at hl
    split at hl
    · simp only [Option.some.injEq] at hl
      exact hl ▸ h.2.1
    · exact ih h.2.2 hl

theorem WellNamed_lookup (r : List Str) :
    ∀ (nd x : Node), WellNamed nd → lookup nd r = some x → WellNamed x := by
  induction r with
  | nil =>
    intro nd x h hl
    rw [lookup_nil] at hl
    simp only [Option.some.injEq] at hl
    exact hl ▸ h
  | cons s ss ih =>
    intro nd x h hl
    cases nd with
    | file c => simp [lookup_file_cons] at hl
    | dir rd es =>
      rw [lookup_dir_cons] at hl
      rw [WellNamed_dir] at h
      cases he : lookupEntry s es with
      | none => rw [he] at hl; simp at hl
      | some c =>
        rw [he] at hl
        exact ih c x (WellNamedList_lookupEntry es h s c he) (by simpa using hl)

/-- After a successful write the file holds what was written. -/
theorem lookup_writeFileSegs_same (q : List Str) :
    ∀ (nd nd1 : Node) (c : Str), writeFileSegs nd q c = .ok nd1 →
      lookup nd1 q = some (.file c) := by
  induction q with
  | nil =>
    intro nd nd1 c h
    simp [writeFileSegs_nil] at h
  | cons s ss ih =>
    intro nd nd1 c h
    cases nd with
    | file x =>
      obtain ⟨e, he⟩ := writeFileSegs_file x (s :: ss) c
      rw [he] at h; simp at h
    | dir r es =>
      cases ss with
      | nil =>
        rw [writeFileSegs_dir_one] at h
        have hnd : nd1 = .dir r (setEntry s (.file c) es) := by
          cases hl : lookupEntry s es with
          | none => rw [hl] at h; simp only [Except.ok.injEq] at h; exact h.symm
          | some ch =>
            rw [hl] at h
            cases ch with
            | file y => simp only [Except.ok.injEq] at h; exact h.symm
            | dir r1 es1 => simp at h
        subst hnd
        rw [lookup_dir_cons, lookupEntry_setEntry_same]
        simp [lookup_nil]
      | cons t ts =>
        rw [writeFileSegs_dir_more] at h
        cases hl : lookupEntry s es with
        | none => rw [hl] at h; simp at h
        | some ch =>
          rw [hl] at h
          simp only at h
          cases hc : writeFileSegs ch (t :: ts) c with
          | error e => rw [hc] at h; simp at h
          | ok ch1 =>
            rw [hc] at h
            simp only [Except.ok.injEq] at h
            subst h
            rw [lookup_dir_cons, lookupEntry_setEntry_same]
            simpa using ih ch ch1 c hc

/-- After a successful `WriteFile` the file can be read back. -/
theorem ReadFile_WriteFile (fs : Node) (q c : Str) (h : (WriteFile fs q c).2 = none) :
    ReadFile (WriteFile fs q c).1 q = .ok c := by
  unfold WriteFile at h ⊢
  cases hw : writeFileSegs fs (pathSegs q) c with
  | error e => rw [hw] at h; simp at h
  | ok fs1 =>
    simp only
    rw [ReadFile_ok_iff]
    exact lookup_writeFileSegs_same _ fs fs1 c hw

/-- `WriteFile` leaves every regular file at another path as it is. -/
theorem lookup_file_WriteFile (fs : Node) (q c : Str) (x : List Str) (cx : Str)
    (hx : lookup fs x = some (.file cx)) (hne : pathSegs q ≠ x) :
    lookup (WriteFile fs q c).1 x = some (.file cx) := by
  unfold WriteFile
  cases hw : writeFileSegs fs (pathSegs q) c with
  | error e => exact hx
  | ok fs1 =>
    simp only
    by_cases hp : ∃ t, pathSegs q = x ++ t
    · obtain ⟨t, ht⟩ := hp
      have htne : t ≠ [] := by
        intro e
        rw [e, List.append_nil] at ht
        exact hne ht
      rw [ht] at hw
      obtain ⟨r, es, hdir⟩ := dirs_of_writeFileSegs x fs fs1 t c htne hw
      rw [hx] at hdir
      simp at hdir
    · rw [lookup_writeFileSegs_frame _ fs fs1 c x hw hp, hx]

/-! ### What stays in place when the file system changes -/

theorem kindAt_nil (nd : Node) : kindAt nd [] = some nd.kind := by
  simp [kindAt, lookup_nil]

theorem kindAt_dir_cons (r : Bool) (es : List (Str × Node)) (s : Str) (ss : List Str) :
    kindAt (.dir r es) (s :: ss) = (lookupEntry s es).bind (fun c => kindAt c ss) := by
  unfold kindAt
  rw [lookup_dir_cons]
  cases lookupEntry s es <;> rfl

theorem kindAt_file_cons (c : Str) (s : Str) (ss : List Str) :
    kindAt (.file c) (s :: ss) = none := rfl

/-- Creating directories leaves whatever exists as it is seen. -/
theorem kindAt_mkdirAllSegs (q : List Str) :
    ∀ (nd nd1 : Node) (x : List Str) (k : Option Str), mkdirAllSegs nd q = .ok nd1 →
      kindAt nd x = some k → kindAt nd1 x = some k := by
  induction q with
  | nil =>
    intro nd nd1 x k h hk
    cases nd with
    | file c => simp [mkdirAllSegs_file] at h
    | dir r es =>
      simp only [mkdirAllSegs_dir_nil, Except.ok.injEq] at h
      rw [← h]; exact hk
  | cons s ss ih =>
    intro nd nd1 x k h hk
    cases nd with
    | file c => simp [mkdirAllSegs_file] at h
    | dir r es =>
      rw [mkdirAllSegs_dir_cons] at h
      cases hc : mkdirAllSegs ((lookupEntry s es).getD (.dir true [])) ss with
      | error e => rw [hc] at h; simp at h
      | ok c =>
        rw [hc] at h
        simp only [Except.ok.injEq] at h
        subst h
        cases x with
        | nil =>
          rw [kindAt_nil] at hk ⊢
          exact hk
        | cons a xx =>
          rw [kindAt_dir_cons] at hk ⊢
          by_cases ha : a = s
          · subst ha
            rw [lookupEntry_setEntry_same]
            cases hl : lookupEntry a es with
            | none => rw [hl] at hk; simp at hk
            | some ch =>
              rw [hl] at hk hc
              simp only [Option.some_bind, Option.getD_some] at hk hc ⊢
              exact ih ch c xx k hc hk
          · rw [lookupEntry_setEntry_other _ _ _ _ ha]
            exact hk

/-- `MkdirAll` leaves whatever exists as it is seen. -/
theorem kindAt_MkdirAll (fs : Node) (q : Str) (x : List Str) (k : Option Str)
    (hk : kindAt fs x = some k) : kindAt (MkdirAll fs q).1 x = some k := by
  unfold MkdirAll
  cases hm : mkdirAllSegs fs (pathSegs q) with
  | error e => exact hk
  | ok fs1 => exact kindAt_mkdirAllSegs _ fs fs1 x k hm hk

/-- Writing a file leaves whatever exists at another path as it is seen. -/
theorem kindAt_writeFileSegs (q : List Str) :
    ∀ (nd nd1 : Node) (c : Str) (x : List Str) (k : Option Str),
      writeFileSegs nd q c = .ok nd1 → x ≠ q → kindAt nd x = some k →
      kindAt nd1 x = some k := by
  induction q with
  | nil =>
    intro nd nd1 c x k h
    simp [writeFileSegs_nil] at h
  | cons s ss ih =>
    intro nd nd1 c x k h hx hk
    cases nd with
    | file y =>
      obtain ⟨e, he⟩ := writeFileSegs_file y (s :: ss) c
      rw [he] at h; simp at h
    | dir r es =>
      cases ss with
      | nil =>
        rw [writeFileSegs_dir_one] at h
        have hnd : nd1 = .dir r (setEntry s (.file c) es) ∧
            ∀ r1 es1, lookupEntry s es ≠ some (.dir r1 es1) := by
          cases hl : lookupEntry s es with
          | none => rw [hl] at h; simp only [Except.ok.injEq] at h; simp [h]
          | some ch =>
            rw [hl] at h
            cases ch with
            | file y => simp only [Except.ok.injEq] at h; simp [h]
            | dir r1 es1 => simp at h
        obtain ⟨e1, hnot⟩ := hnd
        subst e1
        cases x with
        | nil =>
          rw [kindAt_nil] at hk ⊢
          exact hk
        | cons a xx =>
          rw [kindAt_dir_cons] at hk ⊢
          by_cases ha : a = s
          · subst ha
            exfalso
            cases xx with
            | nil => exact hx rfl
            | cons b bs =>
              cases hl : lookupEntry a es with
              | none => rw [hl] at hk; simp at hk
              | some ch =>
                rw [hl] at hk
                cases ch with
                | file y => simp [kindAt_file_cons] at hk
                | dir r1 es1 => exact hnot r1 es1 hl
          · rw [lookupEntry_setEntry_other _ _ _ _ ha]
            exact hk
      | cons t ts =>
        rw [writeFileSegs_dir_more] at h
        cases hl : lookupEntry s es with
        | none => rw [hl] at h; simp at h
        | some ch =>
          rw [hl] at h
          simp only at h
          cases hc : writeFileSegs ch (t :: ts) c with
          | error e => rw [hc] at h; simp at h
          | ok ch1 =>
            rw [hc] at h
            simp only [Except.ok.injEq] at h
            subst h
            cases x with
            | nil =>
              rw [kindAt_nil] at hk ⊢
              exact hk
            | cons a xx =>
              rw [kindAt_dir_cons] at hk ⊢
              by_cases ha : a = s
              · subst ha
                rw [lookupEntry_setEntry_same]
                rw [hl] at hk
                simp only [Option.some_bind] at hk ⊢
                exact ih ch ch1 c xx k hc (fun e => hx (by rw [e])) hk
              · rw [lookupEntry_setEntry_other _ _ _ _ ha]
                exact hk

/-- `WriteFile` leaves whatever exists at another path as it is seen. -/
theorem kindAt_WriteFile (fs : Node) (q c : Str) (x : List Str) (k : Option Str)
    (hx : x ≠ pathSegs q) (hk : kindAt fs x = some k) :
    kindAt (WriteFile fs q c).1 x = some k := by
  unfold WriteFile
  cases hm : writeFileSegs fs (pathSegs q) c with
  | error e => exact hk
  | ok fs1 => exact kindAt_writeFileSegs _ fs fs1 c x k hm hx hk

/-- `isDirectory` finds a directory exactly where one is seen. -/
theorem isDirectory_of_kindAt (fs : Node) (p : Str) (k : Option Str)
    (h : kindAt fs (pathSegs p) = some k) : isDirectory fs p = (k.isNone, none) := by
  unfold kindAt at h
  unfold isDirectory Lstat
  cases ha : lookup fs (pathSegs p) with
  | none => rw [ha] at h; simp at h
  | some a =>
    rw [ha] at h
    simp only [Option.map_some', Option.some.injEq] at h
    subst h
    cases a <;> rfl

/-- `ReadFile` gives the content seen at the path. -/
theorem ReadFile_iff_kindAt (fs : Node) (p c : Str) :
    ReadFile fs p = .ok c ↔ kindAt fs (pathSegs p) = some (some c) := by
  rw [ReadFile_ok_iff]
  unfold kindAt
  cases ha : lookup fs (pathSegs p) with
  | none => simp
  | some a =>
    cases a with
    | file y => simp [Node.kind]
    | dir r es => simp [Node.kind]

/-- A write that succeeds did not find a directory at its path. -/
theorem kindAt_of_writeFileSegs (q : List Str) :
    ∀ (nd nd1 : Node) (c : Str), writeFileSegs nd q c = .ok nd1 → kindAt nd q ≠ some none := by
  induction q with
  | nil =>
    intro nd nd1 c h
    simp [writeFileSegs_nil] at h
  | cons s ss ih =>
    intro nd nd1 c h
    cases nd with
    | file y =>
      obtain ⟨e, he⟩ := writeFileSegs_file y (s :: ss) c
      rw [he] at h; simp at h
    | dir r es =>
      rw [kindAt_dir_cons]
      cases ss with
      | nil =>
        rw [writeFileSegs_dir_one] at h
        cases hl : lookupEntry s es with
        | none => simp
        | some ch =>
          rw [hl] at h
          cases ch with
          | file y => simp [kindAt_nil, Node.kind]
          | dir r1 es1 => simp at h
      | cons t ts =>
        rw [writeFileSegs_dir_more] at h
        cases hl : lookupEntry s es with
        | none => simp
        | some ch =>
          rw [hl] at h
          simp only at h
          cases hc : writeFileSegs ch (t :: ts) c with
          | error e => rw [hc] at h; simp at h
          | ok ch1 =>
            simp only [Option.some_bind]
            exact ih ch ch1 c hc

/-- `WriteFile` that succeeds did not find a directory at its path. -/
theorem kindAt_of_WriteFile (fs : Node) (q c : Str) (h : (WriteFile fs q c).2 = none) :
    kindAt fs (pathSegs q) ≠ some none := by
  unfold WriteFile at h
  cases hm : writeFileSegs fs (pathSegs q) c with
  | error e => rw [hm] at h; simp at h
  | ok fs1 => exact kindAt_of_writeFileSegs _ fs fs1 c hm
/-! ## Lemmas about `filepath.Walk` and `listFiles` -/

mutual
/-- With the closure of `listFiles`, `walk` appends the listing of the node
and never returns an error. -/
theorem walk_listFilesFn (path : Str) (nd : Node) (st : List Str) :
    walk listFilesFn path nd st = (st ++ listing path nd, none) := by
  cases nd with
  | file c => simp [walk, listFilesFn, listing]
  | dir r es =>
    cases r with
    | false => simp [walk, listFilesFn, listing]
    | true =>
      simp only [walk, listFilesFn, listing]
      simp [walkNames_listFilesFn path es]
/-- The loop of `walk` with the closure of `listFiles`. -/
theorem walkNames_listFilesFn (path : Str) (es : List (Str × Node)) (st : List Str) :
    walkNames listFilesFn path es st = (st ++ listingNames path es, none) := by
  cases es with
  | nil => simp [walkNames, listingNames]
  | cons e more =>
    obtain ⟨name, child⟩ := e
    simp only [walkNames, listingNames]
    rw [walk_listFilesFn (Join [path, name]) child st]
    simp [walkNames_listFilesFn path more]
end

/-- `listFiles` on a path that resolves to a node. -/
theorem listFiles_of_lookup (fs : Node) (path : Str) (nd : Node)
    (h : lookup fs (pathSegs path) = some nd) : listFiles fs path = .ok (listing path nd) := by
  simp [listFiles, Walk, h, walk_listFilesFn]

/-- `listFiles` on a path that does not resolve: the path alone, no error. -/
theorem listFiles_of_missing (fs : Node) (path : Str)
    (h : lookup fs (pathSegs path) = none) : listFiles fs path = .ok [path] := by
  simp [listFiles, Walk, h, listFilesFn]

mutual
/-- Every path listed at or below the node at `absOf a` is `absOf a` followed
by a chain of entry names. -/
theorem listing_shape (a : List Str) (ha : PlainSegs a) (nd : Node) (hn : WellNamed nd)
    (p : Str) (hp : p ∈ listing (absOf a) nd) : ∃ r, PlainSegs r ∧ p = absOf (a ++ r) := by
  cases nd with
  | file c =>
    simp only [listing, List.mem_singleton] at hp
    exact ⟨[], by intro s hs; simp at hs, by simp [hp]⟩
  | dir rd es =>
    rw [listing] at hp
    rcases List.mem_cons.1 hp with h | h
    · exact ⟨[], by intro s hs; simp at hs, by simp [h]⟩
    · cases rd with
      | false => simp at h
      | true =>
        rw [WellNamed_dir] at hn
        exact listingNames_shape a ha es hn p (by simpa using h)
/-- Every path listed below the entries of the directory `absOf a` is
`absOf a` followed by a chain of entry names. -/
theorem listingNames_shape (a : List Str) (ha : PlainSegs a) (es : List (Str × Node))
    (hes : WellNamedList es) (p : Str) (hp : p ∈ listingNames (absOf a) es) :
    ∃ r, PlainSegs r ∧ p = absOf (a ++ r) := by
  cases es with
  | nil => simp [listingNames] at hp
  | cons e more =>
    obtain ⟨n, c⟩ := e
    rw [WellNamedList_cons] at hes
    rw [listingNames] at hp
    rcases List.mem_append.1 hp with h | h
    · rw [Join_absOf_name a n ha hes.1] at h
      have han : PlainSegs (a ++ [n]) :=
        PlainSegs_append ha (by intro s hs; simp at hs; exact hs ▸ hes.1)
      obtain ⟨r, hr, e⟩ := listing_shape (a ++ [n]) han c hes.2.1 p h
      refine ⟨n :: r, ?_, by simp [e]⟩
      intro s hs
      rcases List.mem_cons.1 hs with h1 | h1
      · exact h1 ▸ hes.1
      · exact hr s h1
    · exact listingNames_shape a ha more hes.2.2 p h
end

/-- Every path `listFiles` returns for the root `absOf s` is the root followed
by a chain of entry names. -/
theorem listFiles_shape (fs : Node) (s : List Str) (hs : PlainSegs s) (hfs : WellNamed fs)
    (files : List Str) (h : listFiles fs (absOf s) = .ok files) :
    ∀ p ∈ files, ∃ r, PlainSegs r ∧ p = absOf (s ++ r) := by
  intro p hp
  cases hl : lookup fs (pathSegs (absOf s)) with
  | none =>
    rw [listFiles_of_missing fs _ hl] at h
    simp only [Except.ok.injEq] at h
    subst h
    simp only [List.mem_singleton] at hp
    exact ⟨[], by intro x hx; simp at hx, by simp [hp]⟩
  | some nd =>
    rw [listFiles_of_lookup fs _ nd hl] at h
    simp only [Except.ok.injEq] at h
    subst h
    rw [pathSegs_absOf s hs] at hl
    exact listing_shape s hs nd (WellNamed_lookup s fs nd hfs hl) p hp

/-! ### The listing of a tree that can be read -/

theorem absOf_injective (x y : List Str) (hx : PlainSegs x) (hy : PlainSegs y)
    (h : absOf x = absOf y) : x = y := by
  have := congrArg pathSegs h
  rwa [pathSegs_absOf x hx, pathSegs_absOf y hy] at this

theorem listing_head (path : Str) (nd : Node) : ∃ tail, listing path nd = path :: tail := by
  cases nd with
  | file c => exact ⟨[], by rw [listing]⟩
  | dir r es => exact ⟨_, by rw [listing]⟩

theorem PlainSegs_cons {n : Str} {r : List Str} (hn : PlainName n) (hr : PlainSegs r) :
    PlainSegs (n :: r) := by
  intro s hs
  rcases List.mem_cons.1 hs with h | h
  · exact h ▸ hn
  · exact hr s h

theorem PlainSegs_one {n : Str} (hn : PlainName n) : PlainSegs [n] :=
  PlainSegs_cons hn (by intro s hs; simp at hs)

theorem distinctNames_dir (r : Bool) (es : List (Str × Node)) :
    distinctNames (.dir r es) = distinctNamesList es := by
  rw [distinctNames]

theorem distinctNamesList_cons (n : Str) (c : Node) (more : List (Str × Node)) :
    distinctNamesList ((n, c) :: more) = true ↔
      lookupEntry n more = none ∧ distinctNames c = true ∧ distinctNamesList more = true := by
  rw [distinctNamesList]
  simp [and_assoc]

theorem allReadable_dir (r : Bool) (es : List (Str × Node)) :
    allReadable (.dir r es) = true ↔ r = true ∧ allReadableList es = true := by
  rw [allReadable]
  simp

theorem allReadableList_cons (n : Str) (c : Node) (more : List (Str × Node)) :
    allReadableList ((n, c) :: more) = true ↔
      allReadable c = true ∧ allReadableList more = true := by
  rw [allReadableList]
  simp

mutual
/-- On a tree that can be read, every path that resolves below the node is
listed. -/
theorem listing_complete (a : List Str) (ha : PlainSegs a) (nd : Node) (hn : WellNamed nd)
    (hr : allReadable nd = true) (r : List Str) (x : Node) (hx : lookup nd r = some x) :
    absOf (a ++ r) ∈ listing (absOf a) nd := by
  cases r with
  | nil =>
    obtain ⟨tail, ht⟩ := listing_head (absOf a) nd
    rw [ht]
    simp
  | cons s ss =>
    cases nd with
    | file c => simp [lookup_file_cons] at hx
    | dir rd es =>
      rw [allReadable_dir] at hr
      rw [WellNamed_dir] at hn
      rw [lookup_dir_cons] at hx
      cases he : lookupEntry s es with
      | none => rw [he] at hx; simp at hx
      | some c =>
        rw [he] at hx
        rw [listing, hr.1]
        simp only [if_true]
        exact List.mem_cons_of_mem _
          (listingNames_complete a ha es hn hr.2 s c ss x he (by simpa using hx))
/-- On a tree that can be read, every path that resolves below an entry of
the directory is listed. -/
theorem listingNames_complete (a : List Str) (ha : PlainSegs a) (es : List (Str × Node))
    (hn : WellNamedList es) (hr : allReadableList es = true) (s : Str) (c : Node)
    (ss : List Str) (x : Node) (he : lookupEntry s es = some c) (hx : lookup c ss = some x) :
    absOf (a ++ s :: ss) ∈ listingNames (absOf a) es := by
  cases es with
  | nil => simp [lookupEntry] at he
  | cons e more =>
    obtain ⟨n, c0⟩ := e
    rw [WellNamedList_cons] at hn
    rw [allReadableList_cons] at hr
    rw [listingNames]
    simp only [lookupEntry] at he
    split at he
    · rename_i hns
      simp only [Option.some.injEq] at he
      subst hns he
      rw [Join_absOf_name a n ha hn.1]
      have := listing_complete (a ++ [n]) (PlainSegs_append ha (PlainSegs_one hn.1)) c0 hn.2.1
        hr.1 ss x hx
      exact List.mem_append_left _ (by simpa using this)
    · exact List.mem_append_right _
        (listingNames_complete a ha more hn.2.2 hr.2 s c ss x he hx)
end

mutual
/-- Every listed path resolves to something below the node. -/
theorem listing_sound (a : List Str) (ha : PlainSegs a) (nd : Node) (hn : WellNamed nd)
    (hd : distinctNames nd = true) (p : Str) (hp : p ∈ listing (absOf a) nd) :
    ∃ r, PlainSegs r ∧ p = absOf (a ++ r) ∧ (lookup nd r).isSome = true := by
  cases nd with
  | file c =>
    simp only [listing, List.mem_singleton] at hp
    exact ⟨[], by intro s hs; simp at hs, by simp [hp], by simp [lookup_nil]⟩
  | dir rd es =>
    rw [listing] at hp
    rcases List.mem_cons.1 hp with h | h
    · exact ⟨[], by intro s hs; simp at hs, by simp [h], by simp [lookup_nil]⟩
    · cases rd with
      | false => simp at h
      | true =>
        rw [WellNamed_dir] at hn
        rw [distinctNames_dir] at hd
        obtain ⟨m, c, r, hm, hmr, e, hl⟩ := listingNames_sound a ha es hn hd p (by simpa using h)
        exact ⟨m :: r, hmr, e, by rw [lookup_dir_cons, hm]; simpa using hl⟩
/-- Every path listed below the entries of a directory comes from one of the
entries. -/
theorem listingNames_sound (a : List Str) (ha : PlainSegs a) (es : List (Str × Node))
    (hn : WellNamedList es) (hd : distinctNamesList es = true) (p : Str)
    (hp : p ∈ listingNames (absOf a) es) : BelowEntry a es p := by
  cases es with
  | nil => simp [listingNames] at hp
  | cons e more =>
    obtain ⟨n, c⟩ := e
    rw [WellNamedList_cons] at hn
    rw [distinctNamesList_cons] at hd
    rw [listingNames] at hp
    rcases List.mem_append.1 hp with h | h
    · rw [Join_absOf_name a n ha hn.1] at h
      obtain ⟨r, hr, e, hl⟩ := listing_sound (a ++ [n])
        (PlainSegs_append ha (PlainSegs_one hn.1)) c hn.2.1 hd.2.1 p h
      exact ⟨n, c, r, by simp [lookupEntry], PlainSegs_cons hn.1 hr, by simp [e], hl⟩
    · obtain ⟨m, c1, r, hm, hmr, e, hl⟩ := listingNames_sound a ha more hn.2.2 hd.2.2 p h
      have hnm : n ≠ m := by
        intro e1
        rw [e1, hm] at hd
        simp at hd
      exact ⟨m, c1, r, by simp [lookupEntry, hnm, hm], hmr, e, hl⟩
end

theorem leads_append_left (a x y : List Str) : leads (a ++ x) (a ++ y) = leads x y := by
  induction a with
  | nil => rfl
  | cons s a ih => simp [leads, ih]

theorem leads_cons_nil (m : Str) (r : List Str) : leads (m :: r) [] = false := rfl

theorem leads_cons_cons_ne (m n : Str) (r t : List Str) (h : m ≠ n) :
    leads (m :: r) (n :: t) = false := by
  simp [leads, h]

/-- A path that comes from an entry of the directory `absOf a` is not the
directory itself and not above it. -/
theorem BelowEntry_not_leads (a : List Str) (ha : PlainSegs a) (es : List (Str × Node))
    (p : Str) (hp : BelowEntry a es p) : leads (pathSegs p) (pathSegs (absOf a)) = false := by
  obtain ⟨m, c, r, -, hmr, e, -⟩ := hp
  rw [e, pathSegs_absOf _ (PlainSegs_append ha hmr), pathSegs_absOf _ ha]
  have := leads_append_left a (m :: r) []
  rw [List.append_nil] at this
  rw [this, leads_cons_nil]

/-- A path that comes from an entry of the directory with a name other than
`n` is not at or above a path at or below the entry `n`. -/
theorem BelowEntry_other (a : List Str) (ha : PlainSegs a) (more : List (Str × Node))
    (n : Str) (hn : PlainName n) (hnone : lookupEntry n more = none) (p q : Str)
    (hp : BelowEntry a more p) (hq : ∃ r, PlainSegs r ∧ q = absOf ((a ++ [n]) ++ r)) :
    leads (pathSegs p) (pathSegs q) = false ∧ p ≠ q := by
  obtain ⟨m, c, r, hm, hmr, e, -⟩ := hp
  obtain ⟨r1, hr1, e1⟩ := hq
  have hmn : m ≠ n := by
    intro h
    rw [h, hnone] at hm
    simp at hm
  have hq' : PlainSegs ((a ++ [n]) ++ r1) :=
    PlainSegs_append (PlainSegs_append ha (PlainSegs_one hn)) hr1
  have hl : leads (pathSegs p) (pathSegs q) = false := by
    rw [e, e1, pathSegs_absOf _ (PlainSegs_append ha hmr), pathSegs_absOf _ hq']
    have e2 : (a ++ [n]) ++ r1 = a ++ (n :: r1) := by simp
    rw [e2, leads_append_left, leads_cons_cons_ne m n r r1 hmn]
  refine ⟨hl, ?_⟩
  intro hpq
  rw [hpq] at hl
  have : leads (pathSegs q) (pathSegs q) = true := (leads_iff _ _).2 ⟨[], by simp⟩
  rw [this] at hl
  exact Bool.noConfusion hl

mutual
/-- No path is listed twice. -/
theorem listing_nodup (a : List Str) (ha : PlainSegs a) (nd : Node) (hn : WellNamed nd)
    (hd : distinctNames nd = true) : (listing (absOf a) nd).Nodup := by
  cases nd with
  | file c => simp [listing]
  | dir rd es =>
    rw [listing]
    cases rd with
    | false => simp
    | true =>
      rw [WellNamed_dir] at hn
      rw [distinctNames_dir] at hd
      simp only [if_true]
      refine List.nodup_cons.2 ⟨?_, listingNames_nodup a ha es hn hd⟩
      intro hmem
      have h1 := BelowEntry_not_leads a ha es _ (listingNames_sound a ha es hn hd _ hmem)
      have : leads (pathSegs (absOf a)) (pathSegs (absOf a)) = true :=
        (leads_iff _ _).2 ⟨[], by simp⟩
      rw [this] at h1
      exact Bool.noConfusion h1
/-- No path is listed twice below the entries of a directory. -/
theorem listingNames_nodup (a : List Str) (ha : PlainSegs a) (es : List (Str × Node))
    (hn : WellNamedList es) (hd : distinctNamesList es = true) :
    (listingNames (absOf a) es).Nodup := by
  cases es with
  | nil => simp [listingNames]
  | cons e more =>
    obtain ⟨n, c⟩ := e
    rw [WellNamedList_cons] at hn
    rw [distinctNamesList_cons] at hd
    rw [listingNames, Join_absOf_name a n ha hn.1]
    have han : PlainSegs (a ++ [n]) := PlainSegs_append ha (PlainSegs_one hn.1)
    refine List.nodup_append.2 ⟨listing_nodup (a ++ [n]) han c hn.2.1 hd.2.1,
      listingNames_nodup a ha more hn.2.2 hd.2.2, ?_⟩
    intro q hq1 hq2
    have hp := listingNames_sound a ha more hn.2.2 hd.2.2 q hq2
    obtain ⟨r, hr, e, -⟩ := listing_sound (a ++ [n]) han c hn.2.1 hd.2.1 q hq1
    exact (BelowEntry_other a ha more n hn.1 hd.1 q q hp ⟨r, hr, e⟩).2 rfl
end

mutual
/-- The listing is in pre-order: nothing listed after a path is that path or
a directory above it. -/
theorem listing_preorder (a : List Str) (ha : PlainSegs a) (nd : Node) (hn : WellNamed nd)
    (hd : distinctNames nd = true) (l1 : List Str) (q : Str) (l2 : List Str)
    (hl : listing (absOf a) nd = l1 ++ q :: l2) (p : Str) (hp : p ∈ l2) :
    leads (pathSegs p) (pathSegs q) = false := by
  have hone : ∀ x : Str, [x] = l1 ++ q :: l2 → False := by
    intro x hx
    cases l1 with
    | nil =>
      simp only [List.nil_append, List.cons.injEq] at hx
      rw [← hx.2] at hp
      simp at hp
    | cons y ys =>
      simp only [List.cons_append, List.cons.injEq] at hx
      have := congrArg List.length hx.2
      simp at this
      omega
  cases nd with
  | file c =>
    rw [listing] at hl
    exact (hone _ hl).elim
  | dir rd es =>
    rw [listing] at hl
    cases rd with
    | false =>
      simp only [Bool.false_eq_true, if_false] at hl
      exact (hone _ hl).elim
    | true =>
      simp only [if_true] at hl
      rw [WellNamed_dir] at hn
      rw [distinctNames_dir] at hd
      cases l1 with
      | nil =>
        simp only [List.nil_append, List.cons.injEq] at hl
        rw [← hl.1]
        exact BelowEntry_not_leads a ha es p
          (listingNames_sound a ha es hn hd p (by rw [hl.2]; exact hp))
      | cons y ys =>
        simp only [List.cons_append, List.cons.injEq] at hl
        exact listingNames_preorder a ha es hn hd ys q l2 hl.2 p hp
/-- The listing below the entries of a directory is in pre-order. -/
theorem listingNames_preorder (a : List Str) (ha : PlainSegs a) (es : List (Str × Node))
    (hn : WellNamedList es) (hd : distinctNamesList es = true) (l1 : List Str) (q : Str)
    (l2 : List Str) (hl : listingNames (absOf a) es = l1 ++ q :: l2) (p : Str) (hp : p ∈ l2) :
    leads (pathSegs p) (pathSegs q) = false := by
  cases es with
  | nil =>
    rw [listingNames] at hl
    simp at hl
  | cons e more =>
    obtain ⟨n, c⟩ := e
    rw [WellNamedList_cons] at hn
    rw [distinctNamesList_cons] at hd
    rw [listingNames, Join_absOf_name a n ha hn.1] at hl
    have han : PlainSegs (a ++ [n]) := PlainSegs_append ha (PlainSegs_one hn.1)
    rcases List.append_eq_append_iff.1 hl with ⟨t, h1, h2⟩ | ⟨t, h1, h2⟩
    · -- `q` is listed below the later entries
      exact listingNames_preorder a ha more hn.2.2 hd.2.2 t q l2 h2 p hp
    · cases t with
      | nil =>
        simp only [List.nil_append] at h2
        exact listingNames_preorder a ha more hn.2.2 hd.2.2 [] q l2 (by simpa using h2.symm) p hp
      | cons y t1 =>
        simp only [List.cons_append, List.cons.injEq] at h2
        obtain ⟨hq, h3⟩ := h2
        subst hq
        rw [h3] at hp
        rcases List.mem_append.1 hp with h | h
        · exact listing_preorder (a ++ [n]) han c hn.2.1 hd.2.1 l1 q t1 h1 p h
        · have hq1 : q ∈ listing (absOf (a ++ [n])) c := by rw [h1]; simp
          obtain ⟨r, hr, e, -⟩ := listing_sound (a ++ [n]) han c hn.2.1 hd.2.1 q hq1
          exact (BelowEntry_other a ha more n hn.1 hd.1 p q
            (listingNames_sound a ha more hn.2.2 hd.2.2 p h) ⟨r, hr, e⟩).1
end

theorem distinctNamesList_lookupEntry (es : List (Str × Node)) (h : distinctNamesList es = true)
    (n : Str) (c : Node) (hl : lookupEntry n es = some c) : distinctNames c = true := by
  induction es with
  | nil => simp [lookupEntry] at hl
  | cons e more ih =>
    obtain ⟨m, x⟩ := e
    rw [distinctNamesList_cons] at h
    simp only [lookupEntry] at hl
    split at hl
    · simp only [Option.some.injEq] at hl
      exact hl ▸ h.2.1
    · exact ih h.2.2 hl

theorem distinctNames_lookup (r : List Str) :
    ∀ (nd x : Node), distinctNames nd = true → lookup nd r = some x →
      distinctNames x = true := by
  induction r with
  | nil =>
    intro nd x h hl
    rw [lookup_nil] at hl
    simp only [Option.some.injEq] at hl
    exact hl ▸ h
  | cons s ss ih =>
    intro nd x h hl
    cases nd with
    | file c => simp [lookup_file_cons] at hl
    | dir rd es =>
      rw [lookup_dir_cons] at hl
      rw [distinctNames_dir] at h
      cases he : lookupEntry s es with
      | none => rw [he] at hl; simp at hl
      | some c =>
        rw [he] at hl
        exact ih c x (distinctNamesList_lookupEntry es h s c he) (by simpa using hl)

/-- `listFiles` returns no path twice. -/
theorem listFiles_nodup (fs : Node) (s : List Str) (hs : PlainSegs s) (hfs : WellNamed fs)
    (hdist : distinctNames fs = true) (files : List Str)
    (h : listFiles fs (absOf s) = .ok files) : files.Nodup := by
  cases hl : lookup fs (pathSegs (absOf s)) with
  | none =>
    rw [listFiles_of_missing fs _ hl] at h
    simp only [Except.ok.injEq] at h
    subst h
    simp
  | some nd =>
    rw [listFiles_of_lookup fs _ nd hl] at h
    simp only [Except.ok.injEq] at h
    subst h
    rw [pathSegs_absOf s hs] at hl
    exact listing_nodup s hs nd (WellNamed_lookup s fs nd hfs hl)
      (distinctNames_lookup s fs nd hdist hl)

/-! ## Lemmas about templates -/

theorem lexGo_text_nil (acc : Str) : lexGo false acc [] = some (textTok acc) := rfl

theorem lexGo_text_one (acc : Str) (c : Char) :
    lexGo false acc [c] = some (textTok (c :: acc)) := rfl

theorem lexGo_text_two (acc : Str) (c d : Char) (rest : Str) :
    lexGo false acc (c :: d :: rest) =
      if c = '{' ∧ d = '{' then (lexGo true [] rest).map (fun ts => textTok acc ++ ts)
      else lexGo false (c :: acc) (d :: rest) := by
  rw [lexGo]

theorem lexGo_action_two (acc : Str) (c d : Char) (rest : Str) :
    lexGo true acc (c :: d :: rest) =
      if c = '}' ∧ d = '}' then
        (lexGo false [] rest).map (fun ts => Tok.action acc.reverse :: ts)
      else lexGo true (c :: acc) (d :: rest) := by
  rw [lexGo]

/-- Literal text in front of `{{` becomes one text token. -/
theorem lexGo_text_open (pre : Str) :
    ∀ (acc rest : Str), textBefore pre = true →
      lexGo false acc (pre ++ openDelim ++ rest)
        = (lexGo true [] rest).map (fun ts => textTok (pre.reverse ++ acc) ++ ts) := by
  induction pre with
  | nil =>
    intro acc rest _
    show lexGo false acc ('{' :: '{' :: rest) = _
    rw [lexGo_text_two]
    simp
  | cons c pre ih =>
    intro acc rest h
    cases pre with
    | nil =>
      have hc : c ≠ '{' := by
        intro e; subst e; simp [textBefore, openFree] at h
      show lexGo false acc (c :: '{' :: '{' :: rest) = _
      rw [lexGo_text_two]
      simp only [hc, false_and, if_false]
      have := ih (c :: acc) rest (by decide)
      simpa [openDelim] using this
    | cons d r =>
      have h' : ¬ (c = '{' ∧ d = '{') ∧ textBefore (d :: r) = true := by
        simp only [textBefore, List.cons_append, openFree, Bool.and_eq_true, Bool.not_eq_true',
          Bool.and_eq_false_iff, decide_eq_false_iff_not] at h ⊢
        exact ⟨fun hcd => by rcases h.1 with h1 | h1 <;> simp_all, h.2⟩
      show lexGo false acc (c :: d :: (r ++ openDelim ++ rest)) = _
      rw [lexGo_text_two]
      simp only [h'.1, if_false]
      have := ih (c :: acc) rest h'.2
      simpa using this

/-- Literal text at the end of the template becomes one text token. -/
theorem lexGo_text_end (post : Str) :
    ∀ (acc : Str), openFree post = true →
      lexGo false acc post = some (textTok (post.reverse ++ acc)) := by
  induction post with
  | nil => intro acc _; simp [lexGo_text_nil]
  | cons c post ih =>
    intro acc h
    cases post with
    | nil => simp [lexGo_text_one]
    | cons d r =>
      have h' : ¬ (c = '{' ∧ d = '{') ∧ openFree (d :: r) = true := by
        simp only [openFree, Bool.and_eq_true, Bool.not_eq_true',
          Bool.and_eq_false_iff, decide_eq_false_iff_not] at h ⊢
        exact ⟨fun hcd => by rcases h.1 with h1 | h1 <;> simp_all, h.2⟩
      rw [lexGo_text_two]
      simp only [h'.1, if_false]
      have := ih (c :: acc) h'.2
      simpa using this

/-- The body of an action up to `}}` becomes one action token. -/
theorem lexGo_action_close (body : Str) :
    ∀ (acc rest : Str), closeFree body = true →
      lexGo true acc (body ++ closeDelim ++ rest)
        = (lexGo false [] rest).map (fun ts => Tok.action (acc.reverse ++ body) :: ts) := by
  induction body with
  | nil =>
    intro acc rest _
    show lexGo true acc ('}' :: '}' :: rest) = _
    rw [lexGo_action_two]
    simp
  | cons c body ih =>
    intro acc rest h
    cases body with
    | nil =>
      have hc : c ≠ '}' := by
        intro e; subst e; simp [closeFree] at h
      show lexGo true acc (c :: '}' :: '}' :: rest) = _
      rw [lexGo_action_two]
      simp only [hc, false_and, if_false]
      have := ih (c :: acc) rest (by decide)
      simpa [closeDelim] using this
    | cons d r =>
      have h' : ¬ (c = '}' ∧ d = '}') ∧ closeFree (d :: r) = true := by
        simp only [closeFree, Bool.and_eq_true, Bool.not_eq_true',
          Bool.and_eq_false_iff, decide_eq_false_iff_not] at h ⊢
        exact ⟨fun hcd => by rcases h.1 with h1 | h1 <;> simp_all, h.2⟩
      show lexGo true acc (c :: d :: (r ++ closeDelim ++ rest)) = _
      rw [lexGo_action_two]
      simp only [h'.1, if_false]
      have := ih (c :: acc) rest h'.2
      simpa using this

theorem textTok_reverse (s : Str) :
    textTok s.reverse = if s = [] then [] else [Tok.text s] := by
  simp [textTok]

/-- The tokens of `pre{{ if .UseCustomDomain }}x{{ end }}post`. -/
theorem lex_customDomainTemplate (pre x post : Str) (hpre : textBefore pre = true)
    (hx : textBefore x = true) (hpost : openFree post = true) :
    lex (customDomainTemplate pre x post)
      = some (textTok pre.reverse ++ (Tok.action " if .UseCustomDomain ".toList ::
          (textTok x.reverse ++ (Tok.action " end ".toList :: textTok post.reverse)))) := by
  unfold lex customDomainTemplate
  have e : pre ++ openDelim ++ " if .UseCustomDomain ".toList ++ closeDelim ++ x ++ openDelim ++
      " end ".toList ++ closeDelim ++ post
      = pre ++ openDelim ++ (" if .UseCustomDomain ".toList ++ closeDelim ++
          (x ++ openDelim ++ (" end ".toList ++ closeDelim ++ post))) := by
    simp
  rw [e, lexGo_text_open pre _ _ hpre, lexGo_action_close _ _ _ (by decide),
    lexGo_text_open x _ _ hx, lexGo_action_close _ _ _ (by decide), lexGo_text_end post _ hpost]
  simp

theorem parseGo_textTok (s : Str) (cur : List TNode) (stack : List Frame) (ts : List Tok) :
    parseGo cur stack (textTok s.reverse ++ ts) = parseGo (textNode s ++ cur) stack ts := by
  rw [textTok_reverse]
  unfold textNode
  split
  · rfl
  · simp [parseGo]

theorem parseGo_done (cur : List TNode) : parseGo cur [] [] = .ok cur.reverse := by
  rw [parseGo]

/-- The tree of `pre{{ if .UseCustomDomain }}x{{ end }}post`. -/
theorem parse_customDomainTemplate (pre x post : Str) (hpre : textBefore pre = true)
    (hx : textBefore x = true) (hpost : openFree post = true) :
    parse (customDomainTemplate pre x post)
      = .ok (textNode pre ++ (TNode.cond "UseCustomDomain".toList (textNode x) [] ::
          textNode post)) := by
  unfold parse
  rw [lex_customDomainTemplate pre x post hpre hx hpost]
  simp only
  have hif : classify " if .UseCustomDomain ".toList
      = .act (.ifField "UseCustomDomain".toList) := by decide
  have hend : classify " end ".toList = .act .endAct := by decide
  rw [parseGo_textTok, parseGo, hif]
  simp only
  rw [parseGo_textTok, parseGo, hend]
  simp only
  have e : textTok post.reverse = textTok post.reverse ++ [] := by simp
  rw [e, parseGo_textTok, parseGo_done]
  unfold textNode
  split <;> split <;> split <;> simp

theorem execList_nil (d : tpl) : execList d [] = ([], none) := by
  rw [execList]

theorem execList_cons (d : tpl) (nd : TNode) (more : List TNode) :
    execList d (nd :: more) =
      match execNode d nd with
      | (out, some e) => (out, some e)
      | (out, none) => (out ++ (execList d more).1, (execList d more).2) := by
  rw [execList]

theorem execList_text_cons (d : tpl) (s : Str) (more : List TNode) :
    execList d (.text s :: more) = (s ++ (execList d more).1, (execList d more).2) := by
  rw [execList_cons, execNode]

theorem execList_textNode (d : tpl) (s : Str) (more : List TNode) :
    execList d (textNode s ++ more) = (s ++ (execList d more).1, (execList d more).2) := by
  unfold textNode
  split
  · rename_i e; subst e; simp
  · simp [execList_text_cons]

theorem execNode_cond (d : tpl) (n : Str) (th el : List TNode) :
    execNode d (.cond n th el) =
      match evalField d n with
      | .ok v => if v.truth then execList d th else execList d el
      | .error e => ([], some e) := by
  rw [execNode]

/-- What `pre{{ if .UseCustomDomain }}x{{ end }}post` renders to. -/
theorem Execute_customDomain (name : Str) (b : Bool) (pre x post : Str) :
    Execute (textNode pre ++ (TNode.cond "UseCustomDomain".toList (textNode x) [] ::
        textNode post)) ⟨name, b⟩
      = (pre ++ (if b then x else []) ++ post, none) := by
  unfold Execute
  have hev : evalField ⟨name, b⟩ "UseCustomDomain".toList = .ok (.bool b) := rfl
  have hx : execList ⟨name, b⟩ (textNode x) = (x, none) := by
    have := execList_textNode ⟨name, b⟩ x []
    simpa [execList_nil] using this
  have hpost : execList ⟨name, b⟩ (textNode post) = (post, none) := by
    have := execList_textNode ⟨name, b⟩ post []
    simpa [execList_nil] using this
  rw [execList_textNode, execList_cons, execNode_cond, hev]
  cases b with
  | true => simp [Value.truth, hx, hpost]
  | false => simp [Value.truth, execList_nil, hpost]

theorem evalField_error (d : tpl) (n : Str) (e : ExecError) (h : evalField d n = .error e) :
    e = .noField n ∧ n ≠ "WorkerName".toList ∧ n ≠ "UseCustomDomain".toList := by
  unfold evalField at h
  split at h
  · simp at h
  · split at h
    · simp at h
    · rename_i h1 h2
      simp only [Except.error.injEq] at h
      exact ⟨h.symm, h1, h2⟩

mutual
/-- An error of executing a node comes from a field the data does not
have. -/
theorem execNode_error (d : tpl) (nd : TNode) (out : Str) (e : ExecError)
    (h : execNode d nd = (out, some e)) :
    ∃ n, e = .noField n ∧ n ≠ "WorkerName".toList ∧ n ≠ "UseCustomDomain".toList := by
  cases nd with
  | text s => simp [execNode] at h
  | field n =>
    rw [execNode] at h
    cases hv : evalField d n with
    | ok v => rw [hv] at h; simp at h
    | error e1 =>
      rw [hv] at h
      simp only [Prod.mk.injEq, Option.some.injEq] at h
      exact ⟨n, h.2 ▸ evalField_error d n e1 hv⟩
  | cond n th el =>
    rw [execNode] at h
    cases hv : evalField d n with
    | ok v =>
      rw [hv] at h
      simp only at h
      split at h
      · exact execList_error d th out e h
      · exact execList_error d el out e h
    | error e1 =>
      rw [hv] at h
      simp only [Prod.mk.injEq, Option.some.injEq] at h
      exact ⟨n, h.2 ▸ evalField_error d n e1 hv⟩
/-- An error of executing a list of nodes comes from a field the data does
not have. -/
theorem execList_error (d : tpl) (l : List TNode) (out : Str) (e : ExecError)
    (h : execList d l = (out, some e)) :
    ∃ n, e = .noField n ∧ n ≠ "WorkerName".toList ∧ n ≠ "UseCustomDomain".toList := by
  cases l with
  | nil => simp [execList] at h
  | cons nd more =>
    rw [execList] at h
    cases hn : execNode d nd with
    | mk o1 e1 =>
      cases e1 with
      | some e2 =>
        rw [hn] at h
        simp only [Prod.mk.injEq, Option.some.injEq] at h
        exact execNode_error d nd o1 e (h.2 ▸ hn)
      | none =>
        rw [hn] at h
        simp only [Prod.mk.injEq] at h
        exact execList_error d more (execList d more).1 e (by rw [← h.2])
end

/-! ## Lemmas about the program -/

/-- The result of `filepath.Abs` is a cleaned absolute path, provided the
working directory is absolute. -/
theorem Abs_absOf (cwd : Option Str) (p q : Str) (hcwd : ∀ wd, cwd = some wd → IsAbs wd = true)
    (h : Abs cwd p = .ok q) : ∃ segs, PlainSegs segs ∧ q = absOf segs := by
  unfold Abs at h
  split at h
  · rename_i hp
    simp only [Except.ok.injEq] at h
    exact ⟨cleanSegs p, PlainSegs_cleanSegs p hp, by rw [← h, Clean_of_IsAbs p hp]⟩
  · cases cwd with
    | none => simp at h
    | some wd =>
      simp only [Except.ok.injEq] at h
      have hwd := hcwd wd rfl
      have hne : wd ≠ [] := by
        intro e; subst e; simp [IsAbs] at hwd
      have hj : Join [wd, p] = Clean (wd ++ sep :: p) := by
        simp [Join, hne, joinSep]
      have habs : IsAbs (wd ++ sep :: p) = true := by
        cases wd with
        | nil => exact absurd rfl hne
        | cons c cs => simpa [IsAbs] using hwd
      exact ⟨_, PlainSegs_cleanSegs _ habs, by rw [← h, hj, Clean_of_IsAbs _ habs]⟩

/-- Joining onto an absolute path gives a cleaned absolute path. -/
theorem Join_absolute (d t : Str) (hd : IsAbs d = true) :
    ∃ segs, PlainSegs segs ∧ Join [d, t] = absOf segs := by
  have hne : d ≠ [] := by
    intro e; subst e; simp [IsAbs] at hd
  have hj : Join [d, t] = Clean (d ++ sep :: t) := by
    simp [Join, hne, joinSep]
  have habs : IsAbs (d ++ sep :: t) = true := by
    cases d with
    | nil => exact absurd rfl hne
    | cons c cs => simpa [IsAbs] using hd
  exact ⟨_, PlainSegs_cleanSegs _ habs, by rw [hj, Clean_of_IsAbs _ habs]⟩

/-- What `templateFile` does to the system: nothing, or one `WriteFile` at
the destination. -/
theorem templateFile_sys (E : Engine) (sys : Sys) (src dst : Str) (data : tpl) :
    (templateFile E sys src dst data).1 = sys ∨
    ∃ out, (templateFile E sys src dst data).1 =
      ⟨(WriteFile sys.fs dst out).1,
        ⟨sys.fs, .writeFile dst out, (WriteFile sys.fs dst out).2⟩ :: sys.trace⟩ := by
  unfold templateFile
  cases ReadFile sys.fs src with
  | error e => exact Or.inl rfl
  | ok content =>
    simp only
    cases render E (Base src) content data with
    | parseError => exact Or.inl rfl
    | done out err =>
      cases err with
      | some e => exact Or.inl rfl
      | none => exact Or.inr ⟨out, rfl⟩

/-- A property of the system that every call of the loop body keeps holds at
the end of the loop. -/
theorem mainLoop_keeps (E : Engine) (P : Sys → Prop) (S D : Str) (data : tpl)
    (hdir : ∀ sys srcPath, P sys → P (mkdir sys (Join [D, TrimPrefix srcPath S])).1)
    (hfile : ∀ sys srcPath, P sys →
      P (templateFile E (mkdir sys (Dir (Join [D, TrimPrefix srcPath S]))).1 srcPath
        (Join [D, TrimPrefix srcPath S]) data).1) :
    ∀ (files : List Str) (sys : Sys), P sys → P (mainLoop E S D data files sys).sys := by
  intro files
  induction files with
  | nil => intro sys h; exact h
  | cons srcPath files ih =>
    intro sys h
    unfold mainLoop
    simp only
    split
    · exact ih _ (hdir sys srcPath h)
    · have h2 := hfile sys srcPath h
      split
      · rename_i sys2 heq
        rw [heq] at h2
        exact ih _ h2
      · rename_i sys2 e heq
        rw [heq] at h2; exact h2
      · rename_i sys2 heq
        rw [heq] at h2; exact h2

theorem WriteFile_ok (fs : Node) (p c : Str) (h : (WriteFile fs p c).2 = none) :
    ∃ fs1, writeFileSegs fs (pathSegs p) c = .ok fs1 := by
  unfold WriteFile at h
  cases hw : writeFileSegs fs (pathSegs p) c with
  | ok fs1 => exact ⟨fs1, rfl⟩
  | error e => rw [hw] at h; simp at h

/-- A successful `WriteFile` at a cleaned absolute path found the directory of
the path and all its ancestors. -/
theorem dirs_of_WriteFile (fs : Node) (segs : List Str) (c : Str) (hs : PlainSegs segs)
    (h : (WriteFile fs (absOf segs) c).2 = none) :
    ∀ a b, pathSegs (Dir (absOf segs)) = a ++ b → ∃ r es, lookup fs a = some (.dir r es) := by
  obtain ⟨fs1, hw⟩ := WriteFile_ok fs _ c h
  rw [pathSegs_absOf segs hs] at hw
  intro a b hab
  rcases List.eq_nil_or_concat segs with e | ⟨x, l, e⟩
  · subst e; simp [writeFileSegs_nil] at hw
  · rw [List.concat_eq_append] at e
    subst e
    have hx : PlainSegs x := fun s h1 => hs s (by simp [h1])
    rw [Dir_absOf x l hs, pathSegs_absOf x hx] at hab
    subst hab
    have e2 : a ++ b ++ [l] = a ++ (b ++ [l]) := by simp
    rw [e2] at hw
    exact dirs_of_writeFileSegs a fs fs1 (b ++ [l]) c (by simp) hw

theorem Guarded_mainLoop (E : Engine) (S D : Str) (data : tpl) (hD : IsAbs D = true)
    (files : List Str) (sys : Sys) (h : Guarded sys.trace) :
    Guarded (mainLoop E S D data files sys).sys.trace := by
  refine mainLoop_keeps E (fun s => Guarded s.trace) S D data ?_ ?_ files sys h
  · intro sys srcPath hg
    exact ⟨fun p c hc => by simp [mkdir] at hc, hg⟩
  · intro sys srcPath hg
    have hg1 : Guarded (mkdir sys (Dir (Join [D, TrimPrefix srcPath S]))).1.trace :=
      ⟨fun p c hc => by simp [mkdir] at hc, hg⟩
    rcases templateFile_sys E (mkdir sys (Dir (Join [D, TrimPrefix srcPath S]))).1 srcPath
      (Join [D, TrimPrefix srcPath S]) data with e | ⟨out, e⟩
    · simp only [e]; exact hg1
    · simp only [e]
      refine ⟨?_, hg1⟩
      intro p c hc
      simp only [Call.writeFile.injEq] at hc
      obtain ⟨hp, hcout⟩ := hc
      subst hp
      refine ⟨⟨_, _, rfl, rfl, rfl⟩, ?_⟩
      intro herr
      obtain ⟨segs, hsegs, hj⟩ := Join_absolute D (TrimPrefix srcPath S) hD
      simp only at herr
      rw [hj] at herr ⊢
      exact dirs_of_WriteFile _ segs out hsegs herr

/-! ### The loop over the listed paths -/

theorem rendering_some (E : Engine) (name : Str) (data : tpl) (c out : Str)
    (h : rendering E name data c = some out) : render E name c data = .done out none := by
  unfold rendering at h
  cases hp : render E name c data with
  | parseError => rw [hp] at h; simp at h
  | done o e =>
    rw [hp] at h
    cases e with
    | some x => simp at h
    | none =>
      simp only [Option.some.injEq] at h
      rw [h]

/-- `templateFile` on a file whose content renders: one `WriteFile` of the
rendering at the destination. -/
theorem templateFile_of_rendering (E : Engine) (sys : Sys) (p dst : Str) (data : tpl)
    (c out : Str) (hr : ReadFile sys.fs p = .ok c)
    (hrend : rendering E (Base p) data c = some out) :
    templateFile E sys p dst data
      = (⟨(WriteFile sys.fs dst out).1,
          ⟨sys.fs, .writeFile dst out, (WriteFile sys.fs dst out).2⟩ :: sys.trace⟩,
         .ret ((WriteFile sys.fs dst out).2.map .write)) := by
  have hp := rendering_some E (Base p) data c out hrend
  unfold templateFile
  rw [hr]
  simp only
  rw [hp]

theorem writesOf_cons (st : Step) (tr : List Step) :
    writesOf (st :: tr) = writesOf tr ++ (writeOf st).toList := by
  unfold writesOf
  rw [List.reverse_cons, List.filterMap_append]
  cases h : writeOf st <;> simp [List.filterMap, h]

theorem expectedWrites_cons_dir (E : Engine) (fs : Node) (data : tpl) (src dst p : Str)
    (files : List Str) (h : (isDirectory fs p).1 = true) :
    expectedWrites E fs data src dst (p :: files) = expectedWrites E fs data src dst files := by
  simp [expectedWrites, List.filter_cons, h]

theorem expectedWrites_cons_file (E : Engine) (fs : Node) (data : tpl) (src dst p : Str)
    (files : List Str) (h : (isDirectory fs p).1 = false) :
    expectedWrites E fs data src dst (p :: files)
      = (Join [dst, TrimPrefix p src], renderingAt E fs data p)
          :: expectedWrites E fs data src dst files := by
  simp [expectedWrites, List.filter_cons, h]

/-- The loop leaves a regular file as it is when none of the listed paths
has it as destination. -/
theorem mainLoop_keeps_file (E : Engine) (S D : Str) (data : tpl) (x : List Str) (cx : Str) :
    ∀ (files : List Str) (sys : Sys), lookup sys.fs x = some (.file cx) →
      (∀ p ∈ files, pathSegs (Join [D, TrimPrefix p S]) ≠ x) →
      lookup (mainLoop E S D data files sys).sys.fs x = some (.file cx) := by
  intro files
  induction files with
  | nil => intro sys h _; exact h
  | cons p files ih =>
    intro sys h hne
    have hne' : ∀ q ∈ files, pathSegs (Join [D, TrimPrefix q S]) ≠ x :=
      fun q hq => hne q (List.mem_cons_of_mem _ hq)
    have hdirstep : lookup (mkdir sys (Join [D, TrimPrefix p S])).1.fs x = some (.file cx) :=
      lookup_file_MkdirAll sys.fs _ x cx h
    have hmk : lookup (mkdir sys (Dir (Join [D, TrimPrefix p S]))).1.fs x = some (.file cx) :=
      lookup_file_MkdirAll sys.fs _ x cx h
    have hfilestep : lookup (templateFile E (mkdir sys (Dir (Join [D, TrimPrefix p S]))).1 p
        (Join [D, TrimPrefix p S]) data).1.fs x = some (.file cx) := by
      rcases templateFile_sys E (mkdir sys (Dir (Join [D, TrimPrefix p S]))).1 p
        (Join [D, TrimPrefix p S]) data with e | ⟨out, e⟩
      · rw [e]; exact hmk
      · rw [e]
        exact lookup_file_WriteFile _ _ out x cx hmk (hne p (by simp))
    unfold mainLoop
    simp only
    split
    · exact ih _ hdirstep hne'
    · split
      · rename_i sys2 heq
        rw [heq] at hfilestep
        exact ih _ hfilestep hne'
      · rename_i sys2 e heq
        rw [heq] at hfilestep; exact hfilestep
      · rename_i sys2 heq
        rw [heq] at hfilestep; exact hfilestep

/-- A listed path that is a directory, or a file that can be read, is there. -/
theorem kindAt_of_listed (fs : Node) (p : Str)
    (h : (isDirectory fs p).1 = true ∨ ∃ c, ReadFile fs p = .ok c) :
    ∃ k, kindAt fs (pathSegs p) = some k := by
  rcases h with h | ⟨c, h⟩
  · unfold isDirectory Lstat at h
    cases hl : lookup fs (pathSegs p) with
    | none => rw [hl] at h; simp at h
    | some nd => exact ⟨nd.kind, by simp [kindAt, hl]⟩
  · rw [ReadFile_ok_iff] at h
    exact ⟨some c, by simp [kindAt, h, Node.kind]⟩

theorem sameRendering_refl (E : Engine) (name : Str) (data : tpl) (k : Option Str) :
    sameRendering E name data k k := by
  cases k <;> simp [sameRendering]

theorem sameRendering_isNone (E : Engine) (name : Str) (data : tpl) (a b : Option Str)
    (h : sameRendering E name data a b) : a.isNone = b.isNone := by
  cases a <;> cases b <;> simp_all [sameRendering]

theorem renderingAt_of_ReadFile (E : Engine) (fs : Node) (data : tpl) (p c : Str)
    (h : ReadFile fs p = .ok c) : renderingAt E fs data p = rendering E (Base p) data c := by
  simp [renderingAt, contentAt, h]

/-- The loop of `main` over listed paths, when a listed file that is the
destination of a file listed before it is thereby given content that renders
as its own content does: if every listed file renders and no call fails, the
loop ends normally and writes, for each listed path that is not a directory
and in order, the rendering of the content the source file had at the start;
and when no two listed paths have the same destination, each of these files
holds that rendering at the end. -/
theorem mainLoop_writes_renderings (E : Engine) (fs : Node) (S D : Str) (data : tpl) :
    ∀ (files : List Str) (sys : Sys),
      (∀ q ∈ files, ∃ k k1, kindAt fs (pathSegs q) = some k ∧
        kindAt sys.fs (pathSegs q) = some k1 ∧ sameRendering E (Base q) data k1 k) →
      files.Pairwise (fun p q => (isDirectory fs p).1 = false → (isDirectory fs q).1 = false →
        pathSegs q = pathSegs (Join [D, TrimPrefix p S]) →
        ∀ out, renderingAt E fs data p = some out →
          rendering E (Base q) data out = renderingAt E fs data q) →
      (∀ p ∈ files, (isDirectory fs p).1 = false →
        ∃ c out, ReadFile fs p = .ok c ∧ rendering E (Base p) data c = some out) →
      (∀ st ∈ (mainLoop E S D data files sys).sys.trace, st.err = none) →
      (mainLoop E S D data files sys).exit = .ok ∧
      (writesOf (mainLoop E S D data files sys).sys.trace).map (fun w => (w.1, some w.2))
        = (writesOf sys.trace).map (fun w => (w.1, some w.2))
            ++ expectedWrites E fs data S D files ∧
      (files.Pairwise (fun p q => pathSegs (Join [D, TrimPrefix q S])
          ≠ pathSegs (Join [D, TrimPrefix p S])) →
        ∀ p ∈ files, ∀ c out, ReadFile fs p = .ok c →
          rendering E (Base p) data c = some out →
          ReadFile (mainLoop E S D data files sys).sys.fs (Join [D, TrimPrefix p S])
            = .ok out) := by
  intro files
  induction files with
  | nil =>
    intro sys _ _ _ _
    simp [mainLoop, expectedWrites]
  | cons p files ih =>
    intro sys hinv hover hvalid hcalls
    obtain ⟨hoverp, hover'⟩ := List.pairwise_cons.1 hover
    obtain ⟨k, k1, hk, hk1, hsame⟩ := hinv p (by simp)
    have hisdir : (isDirectory sys.fs p).1 = (isDirectory fs p).1 := by
      rw [isDirectory_of_kindAt _ _ _ hk, isDirectory_of_kindAt _ _ _ hk1]
      exact sameRendering_isNone E _ data _ _ hsame
    have hvalid' : ∀ q ∈ files, (isDirectory fs q).1 = false →
        ∃ c out, ReadFile fs q = .ok c ∧ rendering E (Base q) data c = some out :=
      fun q hq => hvalid q (List.mem_cons_of_mem _ hq)
    -- creating directories keeps what is seen at the listed paths
    have hmkdir : ∀ x, ∀ q ∈ p :: files, ∃ k k1, kindAt fs (pathSegs q) = some k ∧
        kindAt (mkdir sys x).1.fs (pathSegs q) = some k1 ∧
        sameRendering E (Base q) data k1 k := by
      intro x q hq
      obtain ⟨kq, kq1, hkq, hkq1, hs⟩ := hinv q hq
      exact ⟨kq, kq1, hkq, kindAt_MkdirAll _ _ _ _ hkq1, hs⟩
    cases hdir : (isDirectory fs p).1 with
    | true =>
      have hstep : mainLoop E S D data (p :: files) sys
          = mainLoop E S D data files (mkdir sys (Join [D, TrimPrefix p S])).1 := by
        rw [mainLoop]
        simp only [hisdir, hdir, if_true]
      rw [hstep] at hcalls ⊢
      obtain ⟨hexit, hw, hfin⟩ := ih _ (fun q hq => hmkdir _ q (List.mem_cons_of_mem _ hq))
        hover' hvalid' hcalls
      refine ⟨hexit, ?_, ?_⟩
      · rw [hw, expectedWrites_cons_dir _ _ _ _ _ _ _ hdir]
        have : writesOf (mkdir sys (Join [D, TrimPrefix p S])).1.trace = writesOf sys.trace := by
          show writesOf (_ :: sys.trace) = _
          rw [writesOf_cons]
          simp [writeOf]
        rw [this]
      · intro hnd q hq c out hread hrend
        rcases List.mem_cons.1 hq with e | hq'
        · subst e
          have hfile := (ReadFile_ok_iff fs q c).1 hread
          simp [isDirectory, Lstat, hfile, Node.isDir] at hdir
        · exact hfin (List.pairwise_cons.1 hnd).2 q hq' c out hread hrend
    | false =>
      obtain ⟨c, out, hread, hrend⟩ := hvalid p (by simp) hdir
      have hkc : k = some c := by
        have := (ReadFile_iff_kindAt fs p c).1 hread
        rw [hk] at this
        exact Option.some.inj this
      subst hkc
      -- what the file holds when it is read renders as its content at the start
      obtain ⟨c1, hc1, hrend1⟩ : ∃ c1, k1 = some c1 ∧ rendering E (Base p) data c1 = some out := by
        cases k1 with
        | none => simp [sameRendering] at hsame
        | some c1 => exact ⟨c1, rfl, by simpa [sameRendering, hrend] using hsame⟩
      subst hc1
      have hread1 : ReadFile (mkdir sys (Dir (Join [D, TrimPrefix p S]))).1.fs p = .ok c1 := by
        rw [ReadFile_iff_kindAt]
        exact kindAt_MkdirAll _ _ _ _ hk1
      have htf := templateFile_of_rendering E (mkdir sys (Dir (Join [D, TrimPrefix p S]))).1 p
        (Join [D, TrimPrefix p S]) data c1 out hread1 hrend1
      have hnd : (isDirectory sys.fs p).1 = false := by rw [hisdir, hdir]
      cases herr : (WriteFile (mkdir sys (Dir (Join [D, TrimPrefix p S]))).1.fs
          (Join [D, TrimPrefix p S]) out).2 with
      | some e =>
        exfalso
        have hstep : mainLoop E S D data (p :: files) sys
            = ⟨(templateFile E (mkdir sys (Dir (Join [D, TrimPrefix p S]))).1 p
                (Join [D, TrimPrefix p S]) data).1, .fatal .templateFile⟩ := by
          rw [mainLoop]
          simp only [hnd, Bool.false_eq_true, if_false]
          rw [htf, herr]
          rfl
        rw [hstep, htf] at hcalls
        have := hcalls _ (List.mem_cons_self _ _)
        simp [herr] at this
      | none =>
        have hstep : mainLoop E S D data (p :: files) sys
            = mainLoop E S D data files
                (templateFile E (mkdir sys (Dir (Join [D, TrimPrefix p S]))).1 p
                  (Join [D, TrimPrefix p S]) data).1 := by
          rw [mainLoop]
          simp only [hnd, Bool.false_eq_true, if_false]
          rw [htf, herr]
          rfl
        rw [hstep] at hcalls ⊢
        have hwritten : kindAt (WriteFile (mkdir sys (Dir (Join [D, TrimPrefix p S]))).1.fs
            (Join [D, TrimPrefix p S]) out).1 (pathSegs (Join [D, TrimPrefix p S]))
            = some (some out) :=
          (ReadFile_iff_kindAt _ _ _).1 (ReadFile_WriteFile _ _ out herr)
        have hinv2 : ∀ q ∈ files, ∃ k k1, kindAt fs (pathSegs q) = some k ∧
            kindAt (templateFile E (mkdir sys (Dir (Join [D, TrimPrefix p S]))).1 p
              (Join [D, TrimPrefix p S]) data).1.fs (pathSegs q) = some k1 ∧
            sameRendering E (Base q) data k1 k := by
          intro q hq
          obtain ⟨kq, kq1, hkq, hkq1, hs⟩ := hmkdir (Dir (Join [D, TrimPrefix p S])) q
            (List.mem_cons_of_mem _ hq)
          rw [htf]
          show ∃ k k1, _ ∧ kindAt (WriteFile _ (Join [D, TrimPrefix p S]) out).1 (pathSegs q)
            = some k1 ∧ _
          by_cases hx : pathSegs q = pathSegs (Join [D, TrimPrefix p S])
          · -- the file just written is a listed file that is still to be read
            have hnotdir := kindAt_of_WriteFile _ _ out herr
            rw [← hx, hkq1] at hnotdir
            cases kq1 with
            | none => exact absurd rfl hnotdir
            | some cq1 =>
              cases kq with
              | none => simp [sameRendering] at hs
              | some cq =>
                refine ⟨some cq, some out, hkq, by rw [hx]; exact hwritten, ?_⟩
                have hqfile : (isDirectory fs q).1 = false := by
                  rw [isDirectory_of_kindAt _ _ _ hkq]; rfl
                have hqread : ReadFile fs q = .ok cq := (ReadFile_iff_kindAt fs q cq).2 hkq
                have := hoverp q hq hdir hqfile hx out
                  (by rw [renderingAt_of_ReadFile E fs data p c hread, hrend])
                rw [renderingAt_of_ReadFile E fs data q cq hqread] at this
                exact this
          · exact ⟨kq, kq1, hkq, kindAt_WriteFile _ _ _ _ _ hx hkq1, hs⟩
        obtain ⟨hexit, hw, hfin⟩ := ih _ hinv2 hover' hvalid' hcalls
        refine ⟨hexit, ?_, ?_⟩
        · rw [hw, expectedWrites_cons_file _ _ _ _ _ _ _ hdir, htf,
            renderingAt_of_ReadFile E fs data p c hread, hrend]
          have : writesOf (⟨(mkdir sys (Dir (Join [D, TrimPrefix p S]))).1.fs,
              .writeFile (Join [D, TrimPrefix p S]) out,
              (WriteFile (mkdir sys (Dir (Join [D, TrimPrefix p S]))).1.fs
                (Join [D, TrimPrefix p S]) out).2⟩
                :: (mkdir sys (Dir (Join [D, TrimPrefix p S]))).1.trace)
              = writesOf sys.trace ++ [(Join [D, TrimPrefix p S], out)] := by
            rw [writesOf_cons]
            show writesOf (_ :: sys.trace) ++ _ = _
            rw [writesOf_cons]
            simp [writeOf]
          rw [this]
          simp
        · intro hndp q hq c2 out2 hread2 hrend2
          rcases List.mem_cons.1 hq with e | hq'
          · subst e
            rw [hread] at hread2
            simp only [Except.ok.injEq] at hread2
            subst hread2
            rw [hrend] at hrend2
            simp only [Option.some.injEq] at hrend2
            subst hrend2
            rw [ReadFile_ok_iff]
            refine mainLoop_keeps_file E _ _ _ _ out files _ ?_ (List.pairwise_cons.1 hndp).1
            rw [htf]
            have := ReadFile_WriteFile (mkdir sys (Dir (Join [D, TrimPrefix q S]))).1.fs
              (Join [D, TrimPrefix q S]) out herr
            rw [ReadFile_ok_iff] at this
            exact this
          · exact hfin (List.pairwise_cons.1 hndp).2 q hq' c2 out2 hread2 hrend2

/-- The destination of a path below the source root `absOf s`, for the
destination root `absOf d`. -/
theorem dstPath_absOf (s d r : List Str) (hd : PlainSegs d) (hr : PlainSegs r) :
    Join [absOf d, TrimPrefix (absOf (s ++ r)) (absOf s)] = absOf (d ++ r) := by
  by_cases hs : s = []
  · subst hs
    have ht : TrimPrefix (absOf ([] ++ r)) (absOf []) = joinSep r := by
      simp [TrimPrefix, HasPrefix, absOf, joinSep]
    rw [ht]
    cases r with
    | nil =>
      have : Join [absOf d, joinSep []] = Join [absOf d, relOf []] := rfl
      rw [this, Join_absOf_relOf d [] hd hr]
    | cons a as =>
      have hsplit : splitSep (joinSep (a :: as)) = a :: as :=
        splitSep_joinSep (a :: as) (by simp) (fun x hx => (hr x hx).2.1)
      rw [Join_absOf d _ hd (by rw [hsplit]; intro x hx; exact Or.inr (hr x hx))]
      congr 2
      unfold pathSegs
      rw [hsplit, List.filter_eq_self]
      intro x hx
      simpa using (hr x hx).1
  · rw [absOf_append_relOf s r hs, TrimPrefix_append, Join_absOf_relOf d r hd hr]

/-- Listed paths below a source root have destinations that differ, and the
destination of one is another only as a path. -/
theorem dst_of_listed (s d : List Str) (hs : PlainSegs s) (hd : PlainSegs d) (files : List Str)
    (hshape : ∀ p ∈ files, ∃ r, PlainSegs r ∧ p = absOf (s ++ r)) (hnd : files.Nodup) :
    files.Pairwise (fun p q => pathSegs (Join [absOf d, TrimPrefix q (absOf s)])
        ≠ pathSegs (Join [absOf d, TrimPrefix p (absOf s)])) ∧
    (∀ p ∈ files, ∀ q ∈ files, pathSegs q = pathSegs (Join [absOf d, TrimPrefix p (absOf s)]) →
      Join [absOf d, TrimPrefix p (absOf s)] = q) := by
  constructor
  · refine List.Pairwise.imp_of_mem ?_ hnd
    intro p q hp hq hpq
    obtain ⟨r, hr, ep⟩ := hshape p hp
    obtain ⟨r2, hr2, eq⟩ := hshape q hq
    have hrr : r ≠ r2 := fun e => hpq (by rw [ep, eq, e])
    rw [ep, eq, dstPath_absOf s d r hd hr, dstPath_absOf s d r2 hd hr2,
      pathSegs_absOf _ (PlainSegs_append hd hr), pathSegs_absOf _ (PlainSegs_append hd hr2)]
    intro e
    exact hrr (List.append_cancel_left e).symm
  · intro p hp q hq h
    obtain ⟨r, hr, ep⟩ := hshape p hp
    obtain ⟨r2, hr2, eq⟩ := hshape q hq
    rw [ep, dstPath_absOf s d r hd hr] at h ⊢
    rw [eq, pathSegs_absOf _ (PlainSegs_append hs hr2),
      pathSegs_absOf _ (PlainSegs_append hd hr)] at h
    rw [eq, h]

/-- The roots `main` computes are cleaned absolute paths, provided the working
directory is absolute. -/
theorem mainRoots_absOf (E : Engine) (cwd : Option Str) (f : Flags) (roots : Roots)
    (hcwd : ∀ wd, cwd = some wd → IsAbs wd = true) (hr : mainRoots E cwd f = .ok roots) :
    ∃ s d, PlainSegs s ∧ PlainSegs d ∧ roots.srcTplPath = absOf s ∧
      roots.dstRootPath = absOf d := by
  unfold mainRoots at hr
  cases h1 : Abs cwd (templateDirOf f) with
  | error e => rw [h1] at hr; simp at hr
  | ok src =>
    rw [h1] at hr
    simp only at hr
    cases h2 : templateString E (Base src) (templateDataOf f) with
    | panic => rw [h2] at hr; simp at hr
    | ret name =>
      rw [h2] at hr
      simp only at hr
      cases h3 : Abs cwd (Join ["./workers".toList, name]) with
      | error e => rw [h3] at hr; simp at hr
      | ok dst =>
        rw [h3] at hr
        simp only [Except.ok.injEq] at hr
        obtain ⟨s, hs, es⟩ := Abs_absOf cwd _ src hcwd h1
        obtain ⟨d, hd, ed⟩ := Abs_absOf cwd _ dst hcwd h3
        exact ⟨s, d, hs, hd, by rw [← hr, es], by rw [← hr, ed]⟩

/-- `main`, once the roots are computed and the files listed, is the loop
started on the initial file system. -/
theorem main_eq_mainLoop (E : Engine) (cwd : Option Str) (fs : Node) (f : Flags)
    (roots : Roots) (files : List Str) (hr : mainRoots E cwd f = .ok roots)
    (hl : listFiles fs roots.srcTplPath = .ok files) :
    main E cwd fs f
      = mainLoop E roots.srcTplPath roots.dstRootPath (templateDataOf f) files ⟨fs, []⟩ := by
  unfold main
  rw [hr]
  simp only
  rw [hl]

theorem Guarded_get (tr : List Step) (h : Guarded tr) :
    ∀ (i : Nat) (st : Step) (p c : Str), tr[i]? = some st → st.call = .writeFile p c →
      (∃ st0, tr[i + 1]? = some st0 ∧ st0.call = .mkdirAll (Dir p) ∧
        st.before = (MkdirAll st0.before (Dir p)).1) ∧
      (st.err = none → ∀ a b, pathSegs (Dir p) = a ++ b →
        ∃ r es, lookup st.before a = some (.dir r es)) := by
  induction tr with
  | nil => intro i st p c hi; simp at hi
  | cons s older ih =>
    intro i st p c hi hc
    cases i with
    | zero =>
      simp only [List.getElem?_cons_zero, Option.some.injEq] at hi
      subst hi
      obtain ⟨⟨st0, rest, e, h1, h2⟩, h3⟩ := h.1 p c hc
      subst e
      exact ⟨⟨st0, by simp, h1, h2⟩, h3⟩
    | succ j =>
      simp only [List.getElem?_cons_succ] at hi
      obtain ⟨⟨st0, h0, h1, h2⟩, h3⟩ := ih h.2 j st p c hi hc
      exact ⟨⟨st0, by simpa using h0, h1, h2⟩, h3⟩

theorem templateString_workerName (E : Engine) (d : tpl) :
    templateString E "\x7b\x7b .WorkerName \x7d\x7d".toList d = .ret d.WorkerName := by
  have hp : parse "\x7b\x7b .WorkerName \x7d\x7d".toList = .ok [.field "WorkerName".toList] := by
    rfl
  have he : evalField d "WorkerName".toList = .ok (.str d.WorkerName) := by
    rfl
  unfold templateString render
  rw [hp]
  show Ret.ret (execList d [.field "WorkerName".toList]).1 = _
  simp only [execList, execNode]
  rw [he]
  simp [Value.print]
/-! ### What a run that writes the expected renderings tells -/

/-- The loop only adds to the files written so far. -/
theorem mainLoop_writes_extend (E : Engine) (S D : Str) (data : tpl) (files : List Str)
    (sys : Sys) :
    ∃ W, writesOf (mainLoop E S D data files sys).sys.trace = writesOf sys.trace ++ W := by
  refine mainLoop_keeps E (fun s => ∃ W, writesOf s.trace = writesOf sys.trace ++ W) S D data
    ?_ ?_ files sys ⟨[], by simp⟩
  · intro s srcPath ⟨W, hW⟩
    refine ⟨W, ?_⟩
    show writesOf (_ :: s.trace) = _
    rw [writesOf_cons, hW]
    simp [writeOf]
  · intro s srcPath ⟨W, hW⟩
    have hmk : writesOf (mkdir s (Dir (Join [D, TrimPrefix srcPath S]))).1.trace
        = writesOf sys.trace ++ W := by
      show writesOf (_ :: s.trace) = _
      rw [writesOf_cons, hW]
      simp [writeOf]
    rcases templateFile_sys E (mkdir s (Dir (Join [D, TrimPrefix srcPath S]))).1 srcPath
      (Join [D, TrimPrefix srcPath S]) data with e | ⟨out, e⟩
    · rw [e]; exact ⟨W, hmk⟩
    · rw [e]
      refine ⟨W ++ [(Join [D, TrimPrefix srcPath S], out)], ?_⟩
      show writesOf (_ :: (mkdir s (Dir (Join [D, TrimPrefix srcPath S]))).1.trace) = _
      rw [writesOf_cons, hmk]
      simp [writeOf]

theorem kindsAgree_mkdir (fs : Node) (sys : Sys) (x q : Str) (h : kindsAgree fs sys.fs q) :
    kindsAgree fs (mkdir sys x).1.fs q := by
  obtain ⟨k, k1, hk, hk1, e⟩ := h
  exact ⟨k, k1, hk, kindAt_MkdirAll _ _ _ _ hk1, e⟩

theorem kindsAgree_WriteFile (fs cur : Node) (x out q : Str) (h : kindsAgree fs cur q)
    (herr : (WriteFile cur x out).2 = none) : kindsAgree fs (WriteFile cur x out).1 q := by
  obtain ⟨k, k1, hk, hk1, e⟩ := h
  by_cases hx : pathSegs q = pathSegs x
  · have hnot := kindAt_of_WriteFile cur x out herr
    rw [← hx, hk1] at hnot
    refine ⟨k, some out, hk, ?_, ?_⟩
    · rw [hx]
      exact (ReadFile_iff_kindAt _ _ _).1 (ReadFile_WriteFile cur x out herr)
    · cases k1 with
      | none => exact absurd rfl hnot
      | some c => simpa using e
  · exact ⟨k, k1, hk, kindAt_WriteFile _ _ _ _ _ hx hk1, e⟩

theorem isDirectory_of_kindsAgree (fs cur : Node) (q : Str) (h : kindsAgree fs cur q) :
    (isDirectory cur q).1 = (isDirectory fs q).1 := by
  obtain ⟨k, k1, hk, hk1, e⟩ := h
  rw [isDirectory_of_kindAt _ _ _ hk, isDirectory_of_kindAt _ _ _ hk1]
  exact e

/-- The first step of a loop that ends normally and writes what is
expected: a directory is created, or the file, as it is when it
is read, renders to what its content at the start renders to, and that is
written; and the rest of the loop writes what is expected of it. -/
theorem mainLoop_head (E : Engine) (fs : Node) (S D : Str) (data : tpl) (p : Str)
    (rest : List Str) (sys : Sys) (hk : kindsAgree fs sys.fs p)
    (hexit : (mainLoop E S D data (p :: rest) sys).exit = .ok)
    (hw : (writesOf (mainLoop E S D data (p :: rest) sys).sys.trace).map
        (fun w => (w.1, some w.2))
      = (writesOf sys.trace).map (fun w => (w.1, some w.2))
          ++ expectedWrites E fs data S D (p :: rest)) :
    ∃ sys2, mainLoop E S D data (p :: rest) sys = mainLoop E S D data rest sys2 ∧
      (writesOf (mainLoop E S D data rest sys2).sys.trace).map (fun w => (w.1, some w.2))
        = (writesOf sys2.trace).map (fun w => (w.1, some w.2))
            ++ expectedWrites E fs data S D rest ∧
      ((isDirectory fs p).1 = true → sys2 = (mkdir sys (Join [D, TrimPrefix p S])).1) ∧
      ((isDirectory fs p).1 = false → ∃ c1 out, ReadFile sys.fs p = .ok c1 ∧
        rendering E (Base p) data c1 = some out ∧ renderingAt E fs data p = some out ∧
        (WriteFile (mkdir sys (Dir (Join [D, TrimPrefix p S]))).1.fs
          (Join [D, TrimPrefix p S]) out).2 = none ∧
        sys2.fs = (WriteFile (mkdir sys (Dir (Join [D, TrimPrefix p S]))).1.fs
          (Join [D, TrimPrefix p S]) out).1) := by
  have hisdir := isDirectory_of_kindsAgree fs sys.fs p hk
  cases hdir : (isDirectory fs p).1 with
  | true =>
    have hstep : mainLoop E S D data (p :: rest) sys
        = mainLoop E S D data rest (mkdir sys (Join [D, TrimPrefix p S])).1 := by
      rw [mainLoop]
      simp only [hisdir, hdir, if_true]
    refine ⟨_, hstep, ?_, fun _ => rfl, fun h => by simp at h⟩
    rw [hstep, expectedWrites_cons_dir _ _ _ _ _ _ _ hdir] at hw
    rw [hw]
    have : writesOf (mkdir sys (Join [D, TrimPrefix p S])).1.trace = writesOf sys.trace := by
      show writesOf (_ :: sys.trace) = _
      rw [writesOf_cons]
      simp [writeOf]
    rw [this]
  | false =>
    have hnd : (isDirectory sys.fs p).1 = false := by rw [hisdir, hdir]
    obtain ⟨k, k1, hkk, hkk1, he⟩ := hk
    have hmkread : ∀ c, ReadFile (mkdir sys (Dir (Join [D, TrimPrefix p S]))).1.fs p = .ok c →
        ReadFile sys.fs p = .ok c := by
      intro c hc
      rw [ReadFile_iff_kindAt] at hc ⊢
      have := kindAt_MkdirAll sys.fs (Dir (Join [D, TrimPrefix p S])) _ _ hkk1
      have e2 : (mkdir sys (Dir (Join [D, TrimPrefix p S]))).1.fs
          = (MkdirAll sys.fs (Dir (Join [D, TrimPrefix p S]))).1 := rfl
      rw [e2, this] at hc
      rw [hkk1, hc]
    -- what `templateFile` did
    cases hr : ReadFile (mkdir sys (Dir (Join [D, TrimPrefix p S]))).1.fs p with
    | error e =>
      exfalso
      have : (mainLoop E S D data (p :: rest) sys).exit = .panic := by
        rw [mainLoop]
        simp only [hnd, Bool.false_eq_true, if_false, templateFile, hr]
      rw [this] at hexit
      exact absurd hexit (by decide)
    | ok c1 =>
      cases hrend : render E (Base p) c1 data with
      | parseError =>
        exfalso
        have : (mainLoop E S D data (p :: rest) sys).exit = .panic := by
          rw [mainLoop]
          simp only [hnd, Bool.false_eq_true, if_false, templateFile, hr, hrend]
        rw [this] at hexit
        exact absurd hexit (by decide)
      | done out err =>
        cases err with
        | some e =>
          exfalso
          have : (mainLoop E S D data (p :: rest) sys).exit = .fatal .templateFile := by
            rw [mainLoop]
            simp only [hnd, Bool.false_eq_true, if_false, templateFile, hr, hrend]
          rw [this] at hexit
          exact absurd hexit (by decide)
        | none =>
          have hren : rendering E (Base p) data c1 = some out := by
            simp [rendering, hrend]
          have htf := templateFile_of_rendering E (mkdir sys (Dir (Join [D, TrimPrefix p S]))).1
            p (Join [D, TrimPrefix p S]) data c1 out hr hren
          cases herr : (WriteFile (mkdir sys (Dir (Join [D, TrimPrefix p S]))).1.fs
              (Join [D, TrimPrefix p S]) out).2 with
          | some e =>
            exfalso
            have hstep : mainLoop E S D data (p :: rest) sys
                = ⟨(templateFile E (mkdir sys (Dir (Join [D, TrimPrefix p S]))).1 p
                    (Join [D, TrimPrefix p S]) data).1, .fatal .templateFile⟩ := by
              rw [mainLoop]
              simp only [hnd, Bool.false_eq_true, if_false]
              rw [htf, herr]
              rfl
            rw [hstep] at hexit
            simp at hexit
          | none =>
            have hstep : mainLoop E S D data (p :: rest) sys
                = mainLoop E S D data rest
                    (templateFile E (mkdir sys (Dir (Join [D, TrimPrefix p S]))).1 p
                      (Join [D, TrimPrefix p S]) data).1 := by
              rw [mainLoop]
              simp only [hnd, Bool.false_eq_true, if_false]
              rw [htf, herr]
              rfl
            have hsys2 : writesOf (templateFile E (mkdir sys (Dir (Join [D, TrimPrefix p S]))).1
                p (Join [D, TrimPrefix p S]) data).1.trace
                = writesOf sys.trace ++ [(Join [D, TrimPrefix p S], out)] := by
              rw [htf]
              show writesOf (_ :: (mkdir sys (Dir (Join [D, TrimPrefix p S]))).1.trace) = _
              rw [writesOf_cons]
              show writesOf (_ :: sys.trace) ++ _ = _
              rw [writesOf_cons]
              simp [writeOf]
            obtain ⟨W, hW⟩ := mainLoop_writes_extend E S D data rest
              (templateFile E (mkdir sys (Dir (Join [D, TrimPrefix p S]))).1 p
                (Join [D, TrimPrefix p S]) data).1
            rw [hstep, hW, hsys2, expectedWrites_cons_file _ _ _ _ _ _ _ hdir] at hw
            simp only [List.map_append, List.append_assoc, List.map_cons, List.map_nil,
              List.singleton_append] at hw
            have hw2 := List.append_cancel_left hw
            simp only [List.cons.injEq, Prod.mk.injEq, true_and] at hw2
            refine ⟨_, hstep, ?_, fun h => by simp at h, fun _ =>
              ⟨c1, out, hmkread c1 hr, hren, hw2.1.symm, herr, by rw [htf]⟩⟩
            rw [hW, hsys2]
            simp only [List.map_append, List.append_assoc, List.map_cons, List.map_nil,
              List.singleton_append]
            rw [hw2.2]

/-- After the first step of such a loop the listed paths still show the kind
of object they showed at the start. -/
theorem kindsAgree_head (E : Engine) (fs : Node) (S D : Str) (data : tpl) (p : Str)
    (sys sys2 : Sys)
    (hdir : (isDirectory fs p).1 = true → sys2 = (mkdir sys (Join [D, TrimPrefix p S])).1)
    (hfile : (isDirectory fs p).1 = false → ∃ c1 out, ReadFile sys.fs p = .ok c1 ∧
      rendering E (Base p) data c1 = some out ∧ renderingAt E fs data p = some out ∧
      (WriteFile (mkdir sys (Dir (Join [D, TrimPrefix p S]))).1.fs
        (Join [D, TrimPrefix p S]) out).2 = none ∧
      sys2.fs = (WriteFile (mkdir sys (Dir (Join [D, TrimPrefix p S]))).1.fs
        (Join [D, TrimPrefix p S]) out).1)
    (q : Str) (h : kindsAgree fs sys.fs q) : kindsAgree fs sys2.fs q := by
  cases hd : (isDirectory fs p).1 with
  | true =>
    rw [hdir hd]
    exact kindsAgree_mkdir fs sys _ q h
  | false =>
    obtain ⟨c1, out, -, -, -, herr, e⟩ := hfile hd
    rw [e]
    exact kindsAgree_WriteFile fs _ _ out q (kindsAgree_mkdir fs sys _ q h) herr

/-- In a loop that ends normally and writes what is expected, a listed file
that no step before its turn writes to renders, as it is, to what its content
at the start renders to. -/
theorem mainLoop_reads (E : Engine) (fs : Node) (S D : Str) (data : tpl) (q : Str)
    (l2 : List Str) :
    ∀ (l1 : List Str) (sys : Sys) (c1 : Str),
      (∀ x ∈ l1 ++ q :: l2, kindsAgree fs sys.fs x) →
      (∀ p ∈ l1, pathSegs q ≠ pathSegs (Join [D, TrimPrefix p S])) →
      kindAt sys.fs (pathSegs q) = some (some c1) →
      (mainLoop E S D data (l1 ++ q :: l2) sys).exit = .ok →
      (writesOf (mainLoop E S D data (l1 ++ q :: l2) sys).sys.trace).map
          (fun w => (w.1, some w.2))
        = (writesOf sys.trace).map (fun w => (w.1, some w.2))
            ++ expectedWrites E fs data S D (l1 ++ q :: l2) →
      rendering E (Base q) data c1 = renderingAt E fs data q := by
  intro l1
  induction l1 with
  | nil =>
    intro sys c1 hk _ hc hexit hw
    simp only [List.nil_append] at hk hexit hw
    obtain ⟨sys2, -, -, -, hfile⟩ := mainLoop_head E fs S D data q l2 sys (hk q (by simp))
      hexit hw
    have hq : (isDirectory fs q).1 = false := by
      rw [← isDirectory_of_kindsAgree fs sys.fs q (hk q (by simp)),
        isDirectory_of_kindAt _ _ _ hc]
      rfl
    obtain ⟨c, out, hread, hren, hat, -, -⟩ := hfile hq
    rw [ReadFile_iff_kindAt, hc] at hread
    simp only [Option.some.injEq] at hread
    subst hread
    rw [hren, hat]
  | cons p l1 ih =>
    intro sys c1 hk hne hc hexit hw
    simp only [List.cons_append] at hk hexit hw
    obtain ⟨sys2, hstep, hw2, hdir, hfile⟩ := mainLoop_head E fs S D data p (l1 ++ q :: l2) sys
      (hk p (by simp)) hexit hw
    have hk2 : ∀ x ∈ l1 ++ q :: l2, kindsAgree fs sys2.fs x :=
      fun x hx => kindsAgree_head E fs S D data p sys sys2 hdir hfile x
        (hk x (List.mem_cons_of_mem _ hx))
    have hc2 : kindAt sys2.fs (pathSegs q) = some (some c1) := by
      cases hd : (isDirectory fs p).1 with
      | true =>
        rw [hdir hd]
        exact kindAt_MkdirAll _ _ _ _ hc
      | false =>
        obtain ⟨c, out, -, -, -, herr, e⟩ := hfile hd
        rw [e]
        exact kindAt_WriteFile _ _ _ _ _ (hne p (by simp)) (kindAt_MkdirAll _ _ _ _ hc)
    rw [hstep] at hexit
    exact ih sys2 c1 hk2 (fun x hx => hne x (List.mem_cons_of_mem _ hx)) hc2 hexit hw2

/-- A loop that ends normally and writes what is expected spoilt no listed
file: when the destination of a listed file is a listed file that comes later,
the rendering written there renders to what the content of that file at the
start renders to. -/
theorem mainLoop_kept (E : Engine) (fs : Node) (S D : Str) (data : tpl) :
    ∀ (files : List Str) (sys : Sys),
      (∀ x ∈ files, kindsAgree fs sys.fs x) →
      files.Pairwise (fun p q => pathSegs (Join [D, TrimPrefix q S])
        ≠ pathSegs (Join [D, TrimPrefix p S])) →
      (mainLoop E S D data files sys).exit = .ok →
      (writesOf (mainLoop E S D data files sys).sys.trace).map (fun w => (w.1, some w.2))
        = (writesOf sys.trace).map (fun w => (w.1, some w.2))
            ++ expectedWrites E fs data S D files →
      files.Pairwise (fun p q => (isDirectory fs p).1 = false → (isDirectory fs q).1 = false →
        pathSegs q = pathSegs (Join [D, TrimPrefix p S]) →
        (renderingAt E fs data p).bind (rendering E (Base q) data)
          = renderingAt E fs data q) := by
  intro files
  induction files with
  | nil => intro sys _ _ _ _; exact List.Pairwise.nil
  | cons p rest ih =>
    intro sys hk hinj hexit hw
    obtain ⟨hinjp, hinj'⟩ := List.pairwise_cons.1 hinj
    obtain ⟨sys2, hstep, hw2, hdir, hfile⟩ := mainLoop_head E fs S D data p rest sys
      (hk p (by simp)) hexit hw
    have hk2 : ∀ x ∈ rest, kindsAgree fs sys2.fs x :=
      fun x hx => kindsAgree_head E fs S D data p sys sys2 hdir hfile x
        (hk x (List.mem_cons_of_mem _ hx))
    rw [hstep] at hexit
    refine List.pairwise_cons.2 ⟨?_, ih sys2 hk2 hinj' hexit hw2⟩
    intro q hq hp _ hx
    obtain ⟨c, out, -, -, hat, herr, e⟩ := hfile hp
    rw [hat]
    simp only [Option.some_bind]
    obtain ⟨l1, l2, hsplit⟩ := List.append_of_mem hq
    subst hsplit
    have hc2 : kindAt sys2.fs (pathSegs q) = some (some out) := by
      rw [e, hx]
      exact (ReadFile_iff_kindAt _ _ _).1 (ReadFile_WriteFile _ _ out herr)
    refine mainLoop_reads E fs S D data q l2 l1 sys2 out hk2 ?_ hc2 hexit hw2
    intro x hx1
    rw [hx]
    exact fun h => hinjp x (by simp [hx1]) h.symm

/-! ## The claims -/

/-! ### C1 -/

/-- C1, as stated, fails when the destination lies inside the source tree:
in `/w` with `-template=./workers` the source root is `/w/workers` and the
destination root `/w/workers/workers`.  Every file renders and every call
succeeds, and the claim expects the rendering `B` of `/w/workers/workers/a`
at `/w/workers/workers/workers/a`.  But that source file is the destination
of `/w/workers/a`, listed before it: it is overwritten with the rendering
`Afoo` before it is read, and `Afoo`, which renders to `Afoo` and not to `B`,
is what is written at its destination. -/
theorem nested_destination_counterexample :
    (WellNamed nestedFs ∧ ascending nestedFs = true) ∧
    listFiles nestedFs "/w/workers".toList
      = .ok ["/w/workers".toList, "/w/workers/a".toList, "/w/workers/workers".toList,
          "/w/workers/workers/a".toList] ∧
    Join ["/w/workers/workers".toList, TrimPrefix "/w/workers/a".toList "/w/workers".toList]
      = "/w/workers/workers/a".toList ∧
    ∀ E : Engine,
      mainRoots E (some "/w".toList) nestedFlags
        = .ok ⟨"/w/workers".toList, "/w/workers/workers".toList⟩ ∧
      (main E (some "/w".toList) nestedFs nestedFlags).exit = .ok ∧
      (∀ st ∈ (main E (some "/w".toList) nestedFs nestedFlags).sys.trace, st.err = none) ∧
      expectedWrites E nestedFs (templateDataOf nestedFlags) "/w/workers".toList
          "/w/workers/workers".toList
          ["/w/workers".toList, "/w/workers/a".toList, "/w/workers/workers".toList,
            "/w/workers/workers/a".toList]
        = [("/w/workers/workers/a".toList, some "Afoo".toList),
           ("/w/workers/workers/workers/a".toList, some "B".toList)] ∧
      writesOf (main E (some "/w".toList) nestedFs nestedFlags).sys.trace
        = [("/w/workers/workers/a".toList, "Afoo".toList),
           ("/w/workers/workers/workers/a".toList, "Afoo".toList)] ∧
      ReadFile (main E (some "/w".toList) nestedFs nestedFlags).sys.fs
        "/w/workers/workers/workers/a".toList = .ok "Afoo".toList ∧
      rendering E (Base "/w/workers/workers/a".toList) (templateDataOf nestedFlags)
        "Afoo".toList = some "Afoo".toList :=
  ⟨⟨by decide, by decide⟩, by rfl, by decide, fun _ =>
    ⟨rfl, rfl, of_decide_eq_true rfl, of_decide_eq_true rfl, of_decide_eq_true rfl, rfl, rfl⟩⟩

/-- C1 fails as well when the source lies inside the destination: in `/w`
with `-template=./workers/x/x` the source root is `/w/workers/x/x` and the
destination root `/w/workers/x`.  The destination of `/w/workers/x/x/x/z` is
the source file `/w/workers/x/x/z`, which is listed later: it holds `Z` at the
start and `Qfoo` when it is read, so `Qfoo` is written at `/w/workers/x/z`
where the claim expects `Z`. -/
theorem nested_source_example :
    (WellNamed insideFs ∧ ascending insideFs = true) ∧
    listFiles insideFs "/w/workers/x/x".toList
      = .ok ["/w/workers/x/x".toList, "/w/workers/x/x/x".toList, "/w/workers/x/x/x/z".toList,
          "/w/workers/x/x/z".toList] ∧
    ∀ E : Engine,
      mainRoots E (some "/w".toList) insideFlags
        = .ok ⟨"/w/workers/x/x".toList, "/w/workers/x".toList⟩ ∧
      (main E (some "/w".toList) insideFs insideFlags).exit = .ok ∧
      (∀ st ∈ (main E (some "/w".toList) insideFs insideFlags).sys.trace, st.err = none) ∧
      expectedWrites E insideFs (templateDataOf insideFlags) "/w/workers/x/x".toList
          "/w/workers/x".toList
          ["/w/workers/x/x".toList, "/w/workers/x/x/x".toList, "/w/workers/x/x/x/z".toList,
            "/w/workers/x/x/z".toList]
        = [("/w/workers/x/x/z".toList, some "Qfoo".toList),
           ("/w/workers/x/z".toList, some "Z".toList)] ∧
      writesOf (main E (some "/w".toList) insideFs insideFlags).sys.trace
        = [("/w/workers/x/x/z".toList, "Qfoo".toList),
           ("/w/workers/x/z".toList, "Qfoo".toList)] :=
  ⟨⟨by decide, by decide⟩, by rfl, fun _ =>
    ⟨rfl, rfl, of_decide_eq_true rfl, of_decide_eq_true rfl, of_decide_eq_true rfl⟩⟩

/-- Nested roots do no harm by themselves.  A template rendered in place
(`-template=./workers/x` in `/w`: both roots are `/w/workers/x`) has every file
replaced by its rendering; and in `sameFs`, where the destination lies inside
the source as in the counterexample, the file that is overwritten before it is
read is given content that renders as its own, and what is written is what
the claim expects. -/
theorem in_place_example :
    (WellNamed inPlaceFs ∧ ascending inPlaceFs = true) ∧
    listFiles inPlaceFs "/w/workers/x".toList
      = .ok ["/w/workers/x".toList, "/w/workers/x/a".toList, "/w/workers/x/b".toList,
          "/w/workers/x/b/c".toList] ∧
    (WellNamed sameFs ∧ ascending sameFs = true) ∧
    listFiles sameFs "/w/workers".toList
      = .ok ["/w/workers".toList, "/w/workers/a".toList, "/w/workers/workers".toList,
          "/w/workers/workers/a".toList] ∧
    ∀ E : Engine,
      (mainRoots E (some "/w".toList) inPlaceFlags
          = .ok ⟨"/w/workers/x".toList, "/w/workers/x".toList⟩ ∧
        (main E (some "/w".toList) inPlaceFs inPlaceFlags).exit = .ok ∧
        (∀ st ∈ (main E (some "/w".toList) inPlaceFs inPlaceFlags).sys.trace, st.err = none) ∧
        writesOf (main E (some "/w".toList) inPlaceFs inPlaceFlags).sys.trace
          = [("/w/workers/x/a".toList, "Afoo".toList),
             ("/w/workers/x/b/c".toList, "Cfalse".toList)] ∧
        expectedWrites E inPlaceFs (templateDataOf inPlaceFlags) "/w/workers/x".toList
            "/w/workers/x".toList
            ["/w/workers/x".toList, "/w/workers/x/a".toList, "/w/workers/x/b".toList,
              "/w/workers/x/b/c".toList]
          = [("/w/workers/x/a".toList, some "Afoo".toList),
             ("/w/workers/x/b/c".toList, some "Cfalse".toList)]) ∧
      (mainRoots E (some "/w".toList) nestedFlags
          = .ok ⟨"/w/workers".toList, "/w/workers/workers".toList⟩ ∧
        (main E (some "/w".toList) sameFs nestedFlags).exit = .ok ∧
        (∀ st ∈ (main E (some "/w".toList) sameFs nestedFlags).sys.trace, st.err = none) ∧
        writesOf (main E (some "/w".toList) sameFs nestedFlags).sys.trace
          = [("/w/workers/workers/a".toList, "A".toList),
             ("/w/workers/workers/workers/a".toList, "A".toList)] ∧
        expectedWrites E sameFs (templateDataOf nestedFlags) "/w/workers".toList
            "/w/workers/workers".toList
            ["/w/workers".toList, "/w/workers/a".toList, "/w/workers/workers".toList,
              "/w/workers/workers/a".toList]
          = [("/w/workers/workers/a".toList, some "A".toList),
             ("/w/workers/workers/workers/a".toList, some "A".toList)]) :=
  ⟨⟨by decide, by decide⟩, by rfl, ⟨by decide, by decide⟩, by rfl, fun _ =>
    ⟨⟨rfl, rfl, of_decide_eq_true rfl, of_decide_eq_true rfl, of_decide_eq_true rfl⟩,
      ⟨rfl, rfl, of_decide_eq_true rfl, of_decide_eq_true rfl, of_decide_eq_true rfl⟩⟩⟩

/-- C1 (amended): let `main` start in an absolute working directory on a file
system with proper, distinct entry names.  Let every listed path that is not a
directory be a file whose content parses and renders, let no call that changes
the file system fail, and let no listed file be spoilt before it is read:
whenever the destination of a listed file `p` is itself a listed file `q`
that comes after `p`, the rendering of `p`, which is written over `q`, renders
as `q` to what the content of `q` renders to.  Then `main` ends normally and
the files it writes are, in the order of the listing, exactly the destination
paths `Join(dstRoot, TrimPrefix(p, srcRoot))` of the listed paths `p` that
are not directories, each with the rendering of the content `p` had at the
start under the data of the flags; nothing else is written, and at the end
each of these files holds that rendering. -/
theorem main_writes_renderings (E : Engine) (cwd : Option Str) (fs : Node) (f : Flags)
    (roots : Roots) (files : List Str)
    (hcwd : ∀ wd, cwd = some wd → IsAbs wd = true)
    (hnames : WellNamed fs) (hdist : distinctNames fs = true)
    (hroots : mainRoots E cwd f = .ok roots)
    (hlist : listFiles fs roots.srcTplPath = .ok files)
    (hkept : files.Pairwise (fun p q =>
      (isDirectory fs p).1 = false → (isDirectory fs q).1 = false →
      Join [roots.dstRootPath, TrimPrefix p roots.srcTplPath] = q →
      (renderingAt E fs (templateDataOf f) p).bind (rendering E (Base q) (templateDataOf f))
        = renderingAt E fs (templateDataOf f) q))
    (hvalid : ∀ p ∈ files, (isDirectory fs p).1 = false →
      ∃ c out, ReadFile fs p = .ok c ∧ rendering E (Base p) (templateDataOf f) c = some out)
    (hcalls : ∀ st ∈ (main E cwd fs f).sys.trace, st.err = none) :
    (main E cwd fs f).exit = .ok ∧
    (writesOf (main E cwd fs f).sys.trace).map (fun w => (w.1, some w.2))
      = expectedWrites E fs (templateDataOf f) roots.srcTplPath roots.dstRootPath files ∧
    (∀ p ∈ files, ∀ c out, ReadFile fs p = .ok c →
      rendering E (Base p) (templateDataOf f) c = some out →
      ReadFile (main E cwd fs f).sys.fs
        (Join [roots.dstRootPath, TrimPrefix p roots.srcTplPath]) = .ok out) := by
  obtain ⟨s, d, hs, hd, es, ed⟩ := mainRoots_absOf E cwd f roots hcwd hroots
  rw [main_eq_mainLoop E cwd fs f roots files hroots hlist] at hcalls ⊢
  rw [es, ed] at hkept hcalls ⊢
  rw [es] at hlist
  obtain ⟨hf2, hsame⟩ := dst_of_listed s d hs hd files
    (listFiles_shape fs s hs hnames files hlist)
    (listFiles_nodup fs s hs hnames hdist files hlist)
  have hinv : ∀ q ∈ files, ∃ k k1, kindAt fs (pathSegs q) = some k ∧
      kindAt fs (pathSegs q) = some k1 ∧ sameRendering E (Base q) (templateDataOf f) k1 k := by
    intro q hq
    have hthere : ∃ k, kindAt fs (pathSegs q) = some k := by
      cases hdq : (isDirectory fs q).1 with
      | true => exact kindAt_of_listed fs q (Or.inl hdq)
      | false =>
        obtain ⟨c, out, hr, -⟩ := hvalid q hq hdq
        exact kindAt_of_listed fs q (Or.inr ⟨c, hr⟩)
    obtain ⟨k, hk⟩ := hthere
    exact ⟨k, k, hk, hk, sameRendering_refl E _ _ k⟩
  have hkept2 : files.Pairwise (fun p q =>
      (isDirectory fs p).1 = false → (isDirectory fs q).1 = false →
      pathSegs q = pathSegs (Join [absOf d, TrimPrefix p (absOf s)]) →
      ∀ out, renderingAt E fs (templateDataOf f) p = some out →
        rendering E (Base q) (templateDataOf f) out = renderingAt E fs (templateDataOf f) q) := by
    refine List.Pairwise.imp_of_mem ?_ hkept
    intro p q hp hq h h1 h2 hx out hout
    have := h h1 h2 (hsame p hp q hq hx)
    rw [hout] at this
    exact this
  obtain ⟨hexit, hw, hfin⟩ := mainLoop_writes_renderings E fs (absOf s) (absOf d) (templateDataOf f) files
    ⟨fs, []⟩ hinv hkept2 hvalid hcalls
  refine ⟨hexit, ?_, hfin hf2⟩
  simpa [writesOf] using hw

/-- The condition of the amended C1 cannot be dropped: whenever `main` ends
normally and has written, in the order of the listing, the rendering of the
content each listed file had at the start, no listed file was spoilt before it
was read. -/
theorem spoilt_file_breaks_claim (E : Engine) (cwd : Option Str) (fs : Node) (f : Flags)
    (roots : Roots) (files : List Str)
    (hcwd : ∀ wd, cwd = some wd → IsAbs wd = true)
    (hnames : WellNamed fs) (hdist : distinctNames fs = true)
    (hroots : mainRoots E cwd f = .ok roots)
    (hlist : listFiles fs roots.srcTplPath = .ok files)
    (hexit : (main E cwd fs f).exit = .ok)
    (hwrites : (writesOf (main E cwd fs f).sys.trace).map (fun w => (w.1, some w.2))
      = expectedWrites E fs (templateDataOf f) roots.srcTplPath roots.dstRootPath files) :
    files.Pairwise (fun p q =>
      (isDirectory fs p).1 = false → (isDirectory fs q).1 = false →
      Join [roots.dstRootPath, TrimPrefix p roots.srcTplPath] = q →
      (renderingAt E fs (templateDataOf f) p).bind (rendering E (Base q) (templateDataOf f))
        = renderingAt E fs (templateDataOf f) q) := by
  obtain ⟨s, d, hs, hd, es, ed⟩ := mainRoots_absOf E cwd f roots hcwd hroots
  rw [main_eq_mainLoop E cwd fs f roots files hroots hlist] at hexit hwrites
  rw [es, ed] at hexit hwrites ⊢
  rw [es] at hlist
  cases hl : lookup fs (pathSegs (absOf s)) with
  | none =>
    rw [listFiles_of_missing fs _ hl] at hlist
    simp only [Except.ok.injEq] at hlist
    subst hlist
    exact List.pairwise_singleton _ _
  | some nd =>
    have hshape := listFiles_shape fs s hs hnames files hlist
    obtain ⟨hinj, -⟩ := dst_of_listed s d hs hd files hshape
      (listFiles_nodup fs s hs hnames hdist files hlist)
    rw [listFiles_of_lookup fs _ nd hl] at hlist
    simp only [Except.ok.injEq] at hlist
    rw [pathSegs_absOf s hs] at hl
    have hthere : ∀ x ∈ files, kindsAgree fs fs x := by
      intro x hx
      rw [← hlist] at hx
      obtain ⟨r, hr, e, hsome⟩ := listing_sound s hs nd (WellNamed_lookup s fs nd hnames hl)
        (distinctNames_lookup s fs nd hdist hl) x hx
      have hlook : (lookup fs (pathSegs x)).isSome = true := by
        rw [e, pathSegs_absOf _ (PlainSegs_append hs hr), lookup_append, hl]
        exact hsome
      cases hx2 : lookup fs (pathSegs x) with
      | none => rw [hx2] at hlook; simp at hlook
      | some y => exact ⟨y.kind, y.kind, by simp [kindAt, hx2], by simp [kindAt, hx2], rfl⟩
    have h := mainLoop_kept E fs (absOf s) (absOf d) (templateDataOf f) files ⟨fs, []⟩ hthere
      hinj hexit (by simpa [writesOf] using hwrites)
    refine List.Pairwise.imp ?_ h
    intro p q hpq h1 h2 hx
    exact hpq h1 h2 (by rw [hx])

/-- C1 (amended), on the example of the specification: in `/w` with
`-name=foo -template=./.templates/greet`, exactly
`/w/workers/greet/hello.txt` is written, with content `Hi foo`.  And on a
template that holds its destination: in `/w` with `-name=foo -template=/w`,
where `/w` holds the file `a`, exactly `/w/workers/w/a` is written, with
content `Afoo`. -/
theorem main_writes_renderings_witness :
    (WellNamed greetFs ∧ distinctNames greetFs = true ∧
      listFiles greetFs "/w/.templates/greet".toList
        = .ok ["/w/.templates/greet".toList, "/w/.templates/greet/hello.txt".toList]) ∧
    (WellNamed aboveFs ∧ distinctNames aboveFs = true ∧
      listFiles aboveFs "/w".toList = .ok ["/w".toList, "/w/a".toList]) ∧
    ∀ E : Engine,
      (mainRoots E (some "/w".toList) greetFlags
          = .ok ⟨"/w/.templates/greet".toList, "/w/workers/greet".toList⟩ ∧
        (∀ st ∈ (main E (some "/w".toList) greetFs greetFlags).sys.trace, st.err = none) ∧
        (main E (some "/w".toList) greetFs greetFlags).exit = .ok ∧
        (writesOf (main E (some "/w".toList) greetFs greetFlags).sys.trace).map
            (fun w => (w.1, some w.2))
          = [("/w/workers/greet/hello.txt".toList, some "Hi foo".toList)] ∧
        ReadFile (main E (some "/w".toList) greetFs greetFlags).sys.fs
          "/w/workers/greet/hello.txt".toList = .ok "Hi foo".toList) ∧
      (mainRoots E (some "/w".toList) aboveFlags
          = .ok ⟨"/w".toList, "/w/workers/w".toList⟩ ∧
        (∀ st ∈ (main E (some "/w".toList) aboveFs aboveFlags).sys.trace, st.err = none) ∧
        (main E (some "/w".toList) aboveFs aboveFlags).exit = .ok ∧
        (writesOf (main E (some "/w".toList) aboveFs aboveFlags).sys.trace).map
            (fun w => (w.1, some w.2))
          = [("/w/workers/w/a".toList, some "Afoo".toList)] ∧
        ReadFile (main E (some "/w".toList) aboveFs aboveFlags).sys.fs
          "/w/workers/w/a".toList = .ok "Afoo".toList) :=
  ⟨⟨by decide, by decide, rfl⟩, ⟨by decide, by decide, rfl⟩, fun E =>
    have h := main_writes_renderings E (some "/w".toList) greetFs greetFlags
      ⟨"/w/.templates/greet".toList, "/w/workers/greet".toList⟩
      ["/w/.templates/greet".toList, "/w/.templates/greet/hello.txt".toList]
      (by intro wd h; cases h; rfl) (by decide) (by decide) rfl rfl
      (of_decide_eq_true rfl)
      (by
        intro p hp hnd
        rcases List.mem_cons.1 hp with h | h
        · subst h; exact absurd hnd (by decide)
        · rw [List.mem_singleton] at h
          subst h
          exact ⟨_, _, rfl, rfl⟩)
      (of_decide_eq_true rfl)
    have h2 := main_writes_renderings E (some "/w".toList) aboveFs aboveFlags
      ⟨"/w".toList, "/w/workers/w".toList⟩ ["/w".toList, "/w/a".toList]
      (by intro wd h; cases h; rfl) (by decide) (by decide) rfl rfl
      (of_decide_eq_true rfl)
      (by
        intro p hp hnd
        rcases List.mem_cons.1 hp with h | h
        · subst h; exact absurd hnd (by decide)
        · rw [List.mem_singleton] at h
          subst h
          exact ⟨_, _, rfl, rfl⟩)
      (of_decide_eq_true rfl)
    ⟨⟨rfl, of_decide_eq_true rfl, h.1, h.2.1,
        h.2.2 "/w/.templates/greet/hello.txt".toList (by simp)
          "Hi \x7b\x7b .WorkerName \x7d\x7d".toList "Hi foo".toList rfl rfl⟩,
      ⟨rfl, of_decide_eq_true rfl, h2.1, h2.2.1,
        h2.2.2 "/w/a".toList (by simp)
          "A\x7b\x7b .WorkerName \x7d\x7d".toList "Afoo".toList rfl rfl⟩⟩⟩

/-! ### C2 -/

/-- C2, as stated, fails when the destination root is `/`: run in `/` with
`-name=..`, `main` computes the destination root `/`, and the entry
`<srcRoot>/a` is mapped to `/a`, which is not `/` followed by `/a`. -/
theorem dstPath_at_root_counterexample :
    (∀ E : Engine, mainRoots E (some "/".toList) ⟨"..".toList, false, []⟩
      = .ok ⟨"/.templates/\x7b\x7b .WorkerName \x7d\x7d".toList, "/".toList⟩) ∧
    Join ["/".toList, TrimPrefix ("/.templates/\x7b\x7b .WorkerName \x7d\x7d".toList ++ "/a".toList)
      "/.templates/\x7b\x7b .WorkerName \x7d\x7d".toList] = "/a".toList ∧
    "/a".toList ≠ "/".toList ++ "/a".toList := by
  exact ⟨fun _ => rfl, by decide, by decide⟩

/-- C2 (amended): for a cleaned absolute destination root `absOf d` and an
entry `srcRoot ++ rest` whose `rest` is empty or a chain of entry names, each
preceded by a separator, the destination path is the destination root followed
by `rest` unchanged, except that below the root `/` it is `rest` itself; the
root entry is mapped to the destination root, and the mapping is injective. -/
theorem dstPath_is_root_followed_by_rest (srcRoot : Str) (d r : List Str)
    (hd : PlainSegs d) (hr : PlainSegs r) :
    Join [absOf d, TrimPrefix (srcRoot ++ relOf r) srcRoot]
      = (if d = [] ∧ r ≠ [] then relOf r else absOf d ++ relOf r) ∧
    Join [absOf d, TrimPrefix srcRoot srcRoot] = absOf d ∧
    (∀ r2, PlainSegs r2 →
      Join [absOf d, TrimPrefix (srcRoot ++ relOf r) srcRoot]
        = Join [absOf d, TrimPrefix (srcRoot ++ relOf r2) srcRoot] →
      srcRoot ++ relOf r = srcRoot ++ relOf r2) := by
  refine ⟨?_, ?_, ?_⟩
  · rw [TrimPrefix_append, Join_absOf_relOf d r hd hr]
    split
    · rename_i h
      obtain ⟨h1, h2⟩ := h
      subst h1
      cases r with
      | nil => exact absurd rfl h2
      | cons x xs => rfl
    · rename_i h
      by_cases h1 : d = []
      · subst h1
        have h2 : r = [] := by
          by_contra h2
          exact h ⟨rfl, h2⟩
        subst h2
        rfl
      · exact absOf_append_relOf d r h1
  · have e := TrimPrefix_append srcRoot []
    rw [List.append_nil] at e
    rw [e]
    have := Join_absOf_relOf d [] hd (by intro s hs; simp at hs)
    simpa [relOf] using this
  · intro r2 hr2 h
    rw [TrimPrefix_append, TrimPrefix_append, Join_absOf_relOf d r hd hr,
      Join_absOf_relOf d r2 hd hr2] at h
    have h1 := congrArg pathSegs h
    rw [pathSegs_absOf _ (PlainSegs_append hd hr), pathSegs_absOf _ (PlainSegs_append hd hr2)] at h1
    rw [List.append_cancel_left h1]

/-- C2 (amended), on the example of the specification. -/
theorem dstPath_is_root_followed_by_rest_witness :
    PlainSegs ["w".toList, "workers".toList, "greet".toList] ∧
    PlainSegs ["hello.txt".toList] ∧
    Join ["/w/workers/greet".toList,
      TrimPrefix "/w/.templates/greet/hello.txt".toList "/w/.templates/greet".toList]
      = "/w/workers/greet/hello.txt".toList :=
  ⟨by decide, by decide,
    (dstPath_is_root_followed_by_rest "/w/.templates/greet".toList
      ["w".toList, "workers".toList, "greet".toList] ["hello.txt".toList]
      (by decide) (by decide)).1⟩

/-! ### C3 -/

/-- C3: `listFiles` never returns an error, because its walk function ignores
the error it is handed and returns `nil`.  For a root that does not exist
(`-template=./nope` run in `/w`) it returns the root alone; `main` then
creates `/w/workers` and ends in the panic of `template.Must`, not in the
`log.Fatalf` for a failed listing and not before a destination directory is
created.  For a root that cannot be read (`-template=./t`) it returns the
root alone as well, and `main` creates `/w/workers/t` and ends normally. -/
theorem listFiles_missing_root_no_error :
    (∀ fs path, ∃ files, listFiles fs path = .ok files) ∧
    listFiles bareFs "/w/nope".toList = .ok ["/w/nope".toList] ∧
    (∀ E : Engine, (main E (some "/w".toList) bareFs nopeFlags).exit = .panic) ∧
    (∀ E : Engine, callsOf (main E (some "/w".toList) bareFs nopeFlags).sys.trace
      = [(.mkdirAll "/w/workers".toList, none)]) ∧
    lookup bareFs ["w".toList, "workers".toList] = none ∧
    (∀ E : Engine, (lookup (main E (some "/w".toList) bareFs nopeFlags).sys.fs
      ["w".toList, "workers".toList]).map Node.isDir = some true) ∧
    listFiles unreadableRootFs "/w/t".toList = .ok ["/w/t".toList] ∧
    (∀ E : Engine, (main E (some "/w".toList) unreadableRootFs tFlags).exit = .ok) ∧
    (∀ E : Engine, callsOf (main E (some "/w".toList) unreadableRootFs tFlags).sys.trace
      = [(.mkdirAll "/w/workers/t".toList, none)]) := by
  refine ⟨?_, by rfl, fun _ => rfl, fun _ => of_decide_eq_true rfl, by rfl,
    fun _ => of_decide_eq_true rfl, by rfl, fun _ => rfl, fun _ => of_decide_eq_true rfl⟩
  intro fs path
  cases h : lookup fs (pathSegs path) with
  | none => exact ⟨_, listFiles_of_missing fs path h⟩
  | some nd => exact ⟨_, listFiles_of_lookup fs path nd h⟩

/-! ### C4 -/

/-- C4: `templateString` panics only when the template does not parse.  On
a placeholder the data does not define, `Execute` stops with an error that
`templateString` drops, and the text written before the placeholder is
returned: `x{{ .Missing }}y` renders to `x`, `{{ .Missing }}` to the empty
string, and with `-template=x{{ .Missing }}y` the destination root of `main`
is `/w/workers/x`.  Whatever the template, the buffer is returned whether or
not `Execute` returned an error. -/
theorem templateString_drops_execute_error :
    (∀ E t d tree, parse t = .ok tree → templateString E t d = .ret (Execute tree d).1) ∧
    (∀ E d, templateString E "x\x7b\x7b .Missing \x7d\x7dy".toList d = .ret "x".toList) ∧
    (∀ E d, templateString E "\x7b\x7b .Missing \x7d\x7d".toList d = .ret []) ∧
    (∀ E : Engine, mainRoots E (some "/w".toList)
        ⟨"n".toList, false, "x\x7b\x7b .Missing \x7d\x7dy".toList⟩
      = .ok ⟨"/w/x\x7b\x7b .Missing \x7d\x7dy".toList, "/w/workers/x".toList⟩) ∧
    (∀ E t d out err, render E [] t d = .done out err → templateString E t d = .ret out) := by
  refine ⟨?_, fun _ d => rfl, fun _ d => rfl, fun _ => rfl, ?_⟩
  · intro E t d tree h
    simp [templateString, render, h]
  · intro E t d out err h
    simp [templateString, h]

/-! ### C5 -/

/-- C5, as stated, fails for a placeholder in a branch that is not taken:
`{{ if .UseCustomDomain }}{{ .Missing }}{{ end }}` holds the placeholder
`{{ .Missing }}`, which the data cannot resolve, yet with
`UseCustomDomain = false` it is never evaluated: `templateFile` returns no
error and writes the (empty) file, and `main` ends normally. -/
theorem skipped_placeholder_counterexample :
    evalField (templateDataOf tFlags) "Missing".toList = .error (.noField "Missing".toList) ∧
    (∀ E : Engine, (templateFile E ⟨skippedFs, []⟩ "/w/t/f".toList "/w/t/g".toList
      (templateDataOf tFlags)).2 = .ret none) ∧
    (∀ E : Engine, callsOf (templateFile E ⟨skippedFs, []⟩ "/w/t/f".toList "/w/t/g".toList
      (templateDataOf tFlags)).1.trace = [(.writeFile "/w/t/g".toList [], none)]) ∧
    (∀ E : Engine, (main E (some "/w".toList) skippedFs tFlags).exit = .ok) ∧
    (∀ E : Engine, callsOf (main E (some "/w".toList) skippedFs tFlags).sys.trace =
      [(.mkdirAll "/w/workers/t".toList, none), (.mkdirAll "/w/workers/t".toList, none),
       (.writeFile "/w/workers/t/f".toList [], none)]) ∧
    (∀ E : Engine, ReadFile (main E (some "/w".toList) skippedFs tFlags).sys.fs
      "/w/workers/t/f".toList = .ok []) := by
  exact ⟨by rfl, fun _ => rfl, fun _ => of_decide_eq_true rfl, fun _ => rfl,
    fun _ => of_decide_eq_true rfl, fun _ => rfl⟩

/-- C5 (amended): when the content of the source file parses and its
execution is stopped by an error, which can only be a field the data does not
define, `templateFile` returns that error without calling `os.WriteFile`: the
file system and the trace of calls are as before, so nothing is created or
overwritten at the destination.  In the loop of `main` the entry ends the run
in `log.Fatalf` right after `mkdir` of the parent directory; the entries after
it are not processed. -/
theorem templateFile_execute_error_no_write (E : Engine) (sys : Sys) (src dst : Str)
    (data : tpl) (content : Str) (tree : List TNode) (out : Str) (e : ExecError)
    (hread : ReadFile sys.fs src = .ok content) (hparse : parse content = .ok tree)
    (hexec : Execute tree data = (out, some e)) :
    (∃ n, e = .noField n ∧ n ≠ "WorkerName".toList ∧ n ≠ "UseCustomDomain".toList) ∧
    templateFile E sys src dst data = (sys, .ret (some (.exec e))) ∧
    (∀ S D files, dst = Join [D, TrimPrefix src S] →
      mainLoop E S D data (src :: files) sys
        = ⟨⟨(MkdirAll sys.fs (Dir dst)).1,
            ⟨sys.fs, .mkdirAll (Dir dst), (MkdirAll sys.fs (Dir dst)).2⟩ :: sys.trace⟩,
           .fatal .templateFile⟩) := by
  have hrender : render E (Base src) content data = .done out (some e) := by
    unfold render
    rw [hparse]
    simp only
    rw [hexec]
  have hgen : ∀ s : Sys, ReadFile s.fs src = .ok content →
      templateFile E s src dst data = (s, .ret (some (.exec e))) := by
    intro s hr
    unfold templateFile
    rw [hr]
    simp only
    rw [hrender]
  refine ⟨execList_error data tree out e hexec, hgen sys hread, ?_⟩
  intro S D files hdst
  have hfile := (ReadFile_ok_iff sys.fs src content).1 hread
  have hnd : (isDirectory sys.fs src).1 = false := by
    simp [isDirectory, Lstat, hfile, Node.isDir]
  have hread1 : ReadFile (mkdir sys (Dir dst)).1.fs src = .ok content :=
    (ReadFile_ok_iff _ src content).2 (lookup_file_MkdirAll sys.fs (Dir dst) _ content hfile)
  rw [mainLoop]
  simp only [hnd, Bool.false_eq_true, if_false]
  rw [← hdst, hgen _ hread1]
  rfl

/-- C5 (amended), on `/w/t/f` holding `{{ .Missing }}`: `templateFile` returns
the error and the system is unchanged. -/
theorem templateFile_execute_error_no_write_witness :
    ReadFile missingFs "/w/t/f".toList = .ok "\x7b\x7b .Missing \x7d\x7d".toList ∧
    parse "\x7b\x7b .Missing \x7d\x7d".toList = .ok [.field "Missing".toList] ∧
    Execute [.field "Missing".toList] (templateDataOf tFlags)
      = ([], some (.noField "Missing".toList)) ∧
    ∀ E : Engine, templateFile E ⟨missingFs, []⟩ "/w/t/f".toList "/w/workers/t/f".toList
        (templateDataOf tFlags)
      = (⟨missingFs, []⟩, .ret (some (.exec (.noField "Missing".toList)))) :=
  ⟨rfl, rfl, rfl, fun E =>
    (templateFile_execute_error_no_write E ⟨missingFs, []⟩ "/w/t/f".toList
      "/w/workers/t/f".toList (templateDataOf tFlags) "\x7b\x7b .Missing \x7d\x7d".toList
      [.field "Missing".toList] [] (.noField "Missing".toList) rfl rfl rfl).2.1⟩

/-! ### C6 -/

/-- C6: the error of `mkdir` is dropped.  In `/w` with `-template=./t`, where
`/w/workers/t/a` is a regular file, `MkdirAll` of `/w/workers/t/a` fails, yet
the loop goes on to the next entry, writes `/w/workers/t/b`, and `main` ends
normally. -/
theorem mkdir_error_not_fatal :
    (WellNamed blockedFs ∧ ascending blockedFs = true) ∧
    (∀ E : Engine, (main E (some "/w".toList) blockedFs tFlags).exit = .ok) ∧
    (∀ E : Engine, callsOf (main E (some "/w".toList) blockedFs tFlags).sys.trace =
      [(.mkdirAll "/w/workers/t".toList, none),
       (.mkdirAll "/w/workers/t/a".toList, some .notDir),
       (.mkdirAll "/w/workers/t".toList, none),
       (.writeFile "/w/workers/t/b".toList "B".toList, none)]) ∧
    (∀ E : Engine, ReadFile (main E (some "/w".toList) blockedFs tFlags).sys.fs
      "/w/workers/t/b".toList = .ok "B".toList) ∧
    (∀ E S D data srcPath files sys, (isDirectory sys.fs srcPath).1 = true →
      mainLoop E S D data (srcPath :: files) sys
        = mainLoop E S D data files (mkdir sys (Join [D, TrimPrefix srcPath S])).1) := by
  refine ⟨⟨by decide, by decide⟩, fun _ => of_decide_eq_true rfl,
    fun _ => of_decide_eq_true rfl, fun _ => rfl, ?_⟩
  intro E S D data srcPath files sys h
  rw [mainLoop]
  simp [h]

/-! ### C7 -/

/-- C7: a directory that cannot be read is listed, but nothing below it is,
and no error is returned: for `/w/t` with the file `b` and the unreadable
directory `c` holding the file `y`, `listFiles` returns `/w/t`, `/w/t/b`,
`/w/t/c` and leaves out the existing `/w/t/c/y`.  When every directory at and
below the root can be read (on a file system with proper, distinct entry
names, such as the example of the specification), the sequence is as claimed: it starts with the root, holds every path
that resolves below the root, holds only such paths, holds none twice, and
lists nothing after a path that is that path or a directory above it.  The
sequence depends only on what the root path resolves to. -/
theorem listFiles_skips_unreadable_dir :
    (listFiles unreadableFs "/w/t".toList
        = .ok ["/w/t".toList, "/w/t/b".toList, "/w/t/c".toList] ∧
      ReadFile unreadableFs "/w/t/c/y".toList = .ok "Y".toList ∧
      WellNamed unreadableFs ∧ distinctNames unreadableFs = true ∧
      ascending unreadableFs = true ∧ allReadable unreadableFs = false) ∧
    (WellNamed greetFs ∧ distinctNames greetFs = true ∧ allReadable greetFs = true ∧
      listFiles greetFs "/w/.templates/greet".toList
        = .ok ["/w/.templates/greet".toList, "/w/.templates/greet/hello.txt".toList]) ∧
    (∀ (fs : Node) (s : List Str) (nd : Node), PlainSegs s → WellNamed fs →
      distinctNames fs = true → lookup fs s = some nd → allReadable nd = true →
      ∃ tail, listFiles fs (absOf s) = .ok (absOf s :: tail) ∧
        (∀ r x, lookup nd r = some x → absOf (s ++ r) ∈ absOf s :: tail) ∧
        (∀ p ∈ absOf s :: tail, ∃ r, p = absOf (s ++ r) ∧ (lookup nd r).isSome = true) ∧
        (absOf s :: tail).Nodup ∧
        (∀ l1 q l2, absOf s :: tail = l1 ++ q :: l2 →
          ∀ p ∈ l2, leads (pathSegs p) (pathSegs q) = false)) ∧
    (∀ fs1 fs2 path, lookup fs1 (pathSegs path) = lookup fs2 (pathSegs path) →
      listFiles fs1 path = listFiles fs2 path) := by
  refine ⟨⟨by rfl, by rfl, by decide, by decide, by decide, by decide⟩,
    ⟨by decide, by decide, by decide, by rfl⟩, ?_, ?_⟩
  · intro fs s nd hs hfs hdist hl hread
    have hn : WellNamed nd := WellNamed_lookup s fs nd hfs hl
    have hd : distinctNames nd = true := distinctNames_lookup s fs nd hdist hl
    obtain ⟨tail, ht⟩ := listing_head (absOf s) nd
    refine ⟨tail, ?_, ?_, ?_, ?_, ?_⟩
    · rw [listFiles_of_lookup fs (absOf s) nd (by rw [pathSegs_absOf s hs]; exact hl), ht]
    · intro r x hx
      rw [← ht]
      exact listing_complete s hs nd hn hread r x hx
    · intro p hp
      rw [← ht] at hp
      obtain ⟨r, -, e, h⟩ := listing_sound s hs nd hn hd p hp
      exact ⟨r, e, h⟩
    · rw [← ht]
      exact listing_nodup s hs nd hn hd
    · intro l1 q l2 h p hp
      rw [← ht] at h
      exact listing_preorder s hs nd hn hd l1 q l2 h p hp
  · intro fs1 fs2 path h
    cases h2 : lookup fs2 (pathSegs path) with
    | none =>
      rw [listFiles_of_missing fs1 path (h.trans h2), listFiles_of_missing fs2 path h2]
    | some nd =>
      rw [listFiles_of_lookup fs1 path nd (h.trans h2), listFiles_of_lookup fs2 path nd h2]

/-! ### C8 -/

/-- C8, as stated, fails when the rendered name is not a plain relative path:
in `/w` with `-name=..` and no `-template`, the last segment of the source
root renders to `..` and the destination root is `/w`, not `/w/workers/..`. -/
theorem dstRoot_dotdot_counterexample :
    (∀ E : Engine, mainRoots E (some "/w".toList) ⟨"..".toList, false, []⟩
      = .ok ⟨"/w/.templates/\x7b\x7b .WorkerName \x7d\x7d".toList, "/w".toList⟩) ∧
    (∀ E : Engine,
      templateString E (Base "/w/.templates/\x7b\x7b .WorkerName \x7d\x7d".toList)
        (templateDataOf ⟨"..".toList, false, []⟩) = .ret "..".toList) ∧
    "/w".toList ≠ "/w/workers/..".toList := by
  exact ⟨fun _ => rfl, fun _ => rfl, by decide⟩

/-- C8 (amended): in a cleaned absolute working directory `absOf cs`, when
the last segment of the absolute source root renders to a relative path
`joinSep bs` of entry names (no empty segment, no `.`, no `..`), the
destination root computed by `main` is `<cwd>/workers/<b>`; in particular with
`-template` unset and `-name` such a path it is `<cwd>/workers/<name>`, the
source root being `<cwd>/.templates/{{ .WorkerName }}`. -/
theorem dstRoot_is_cwd_workers_name (E : Engine) (cs bs : List Str) (hcs : PlainSegs cs)
    (hbs : PlainSegs bs) (hne : bs ≠ []) :
    (∀ f src, Abs (some (absOf cs)) (templateDirOf f) = .ok src →
      templateString E (Base src) (templateDataOf f) = .ret (joinSep bs) →
      mainRoots E (some (absOf cs)) f = .ok ⟨src, absOf (cs ++ "workers".toList :: bs)⟩) ∧
    (∀ f, f.template = [] → f.name = joinSep bs →
      mainRoots E (some (absOf cs)) f
        = .ok ⟨absOf (cs ++ [".templates".toList, "\x7b\x7b .WorkerName \x7d\x7d".toList]),
            absOf (cs ++ "workers".toList :: bs)⟩) ∧
    (cs ≠ [] →
      absOf (cs ++ "workers".toList :: bs) = absOf cs ++ "/workers/".toList ++ joinSep bs) ∧
    (cs = [] → absOf (cs ++ "workers".toList :: bs) = "/workers/".toList ++ joinSep bs) := by
  have hwb : PlainSegs ("workers".toList :: bs) := by
    intro s hs
    rcases List.mem_cons.1 hs with h | h
    · subst h; decide
    · exact hbs s h
  have hdst : Abs (some (absOf cs)) (Join ["./workers".toList, joinSep bs])
      = .ok (absOf (cs ++ "workers".toList :: bs)) := by
    rw [Join_workers bs hbs hne]
    exact Abs_rel cs _ hcs hwb (by simp) (IsAbs_joinSep_workers bs)
  have hgen : ∀ f src, Abs (some (absOf cs)) (templateDirOf f) = .ok src →
      templateString E (Base src) (templateDataOf f) = .ret (joinSep bs) →
      mainRoots E (some (absOf cs)) f = .ok ⟨src, absOf (cs ++ "workers".toList :: bs)⟩ := by
    intro f src hsrc hb
    unfold mainRoots
    rw [hsrc]
    simp only []
    rw [hb]
    simp only []
    rw [hdst]
  refine ⟨hgen, ?_, ?_, ?_⟩
  · intro f ht hn
    have hdir : templateDirOf f
        = joinSep [".templates".toList, "\x7b\x7b .WorkerName \x7d\x7d".toList] := by
      simp only [templateDirOf, ht, if_true]
      decide
    have hsrc : Abs (some (absOf cs)) (templateDirOf f)
        = .ok (absOf (cs ++ [".templates".toList, "\x7b\x7b .WorkerName \x7d\x7d".toList])) := by
      rw [hdir]
      exact Abs_rel cs _ hcs (by decide) (by simp) (by decide)
    refine hgen f _ hsrc ?_
    have e : cs ++ [".templates".toList, "\x7b\x7b .WorkerName \x7d\x7d".toList]
        = (cs ++ [".templates".toList]) ++ ["\x7b\x7b .WorkerName \x7d\x7d".toList] := by simp
    rw [e, Base_absOf _ _ (by decide), templateString_workerName]
    exact congrArg Ret.ret hn
  · intro hcs'
    have e : cs ++ "workers".toList :: bs = cs ++ ("workers".toList :: bs) := rfl
    rw [e, absOf_append_relOf cs _ hcs']
    simp [relOf, joinSep_cons_ne _ bs hne, sep]
  · intro hcs'
    subst hcs'
    simp [absOf, joinSep_cons_ne _ bs hne, sep]

/-- C8 (amended), with the default flags in `/w`: the destination root is
`/w/workers/hello-world`. -/
theorem dstRoot_is_cwd_workers_name_witness :
    PlainSegs ["w".toList] ∧ PlainSegs ["hello-world".toList] ∧
    ∀ E : Engine, mainRoots E (some "/w".toList) Flags.default
      = .ok ⟨"/w/.templates/\x7b\x7b .WorkerName \x7d\x7d".toList,
          "/w/workers/hello-world".toList⟩ :=
  ⟨by decide, by decide, fun E =>
    (dstRoot_is_cwd_workers_name E ["w".toList] ["hello-world".toList] (by decide) (by decide)
      (by decide)).2.1 Flags.default rfl rfl⟩

/-! ### C9 -/

/-- C9: in every run of `main` (started in an absolute working directory,
whatever the templates hold and whatever `text/template` makes of them), each
`os.WriteFile` at a path `p` is the call made right after
`os.MkdirAll(filepath.Dir(p))` (the trace lists the latest call first, so that
call sits at the next index) and starts from the file system that call left;
and when the write succeeds, `filepath.Dir(p)` and every ancestor of it is a
directory at that moment, so no file is written before the directories that
contain it exist. -/
theorem write_preceded_by_mkdir_of_parent (E : Engine) (cwd : Option Str) (fs : Node)
    (f : Flags) (hcwd : ∀ wd, cwd = some wd → IsAbs wd = true)
    (i : Nat) (st : Step) (p c : Str)
    (hst : (main E cwd fs f).sys.trace[i]? = some st) (hcall : st.call = .writeFile p c) :
    (∃ st0, (main E cwd fs f).sys.trace[i + 1]? = some st0 ∧ st0.call = .mkdirAll (Dir p) ∧
      st.before = (MkdirAll st0.before (Dir p)).1) ∧
    (st.err = none → ∀ a b, pathSegs (Dir p) = a ++ b →
      ∃ r es, lookup st.before a = some (.dir r es)) := by
  have hg : Guarded (main E cwd fs f).sys.trace := by
    cases hr : mainRoots E cwd f with
    | error x => simp only [main, hr]; exact trivial
    | ok roots =>
      cases hl : listFiles fs roots.srcTplPath with
      | error e => simp only [main, hr, hl]; exact trivial
      | ok files =>
        rw [main_eq_mainLoop E cwd fs f roots files hr hl]
        obtain ⟨s, d, -, -, -, hd⟩ := mainRoots_absOf E cwd f roots hcwd hr
        exact Guarded_mainLoop E _ _ _ (hd ▸ IsAbs_absOf d) files ⟨fs, []⟩ trivial
  exact Guarded_get _ hg i st p c hst hcall

/-- C9, on the example of the specification: the write of
`/w/workers/greet/hello.txt` found `/w/workers/greet` in place.  And on a
template outside the modelled fragment: `/w/t/a` holds `{{- .WorkerName }}`
and `/w/t/b/c` holds `x`; when the template package renders the former to the
name, both files are written, and the write of `/w/workers/t/b/c` found
`/w/workers/t/b` in place. -/
theorem write_preceded_by_mkdir_of_parent_witness :
    (∀ E : Engine, ∃ st, (main E (some "/w".toList) greetFs greetFlags).sys.trace[0]? = some st ∧
      st.call = .writeFile "/w/workers/greet/hello.txt".toList "Hi foo".toList ∧
      st.err = none ∧
      ∃ r es, lookup st.before ["w".toList, "workers".toList, "greet".toList]
        = some (.dir r es)) ∧
    parse "\x7b\x7b- .WorkerName \x7d\x7d".toList = .unsupported ∧
    writesOf (main (fun _ _ d => .done d.WorkerName none) (some "/w".toList) trimFs tFlags).sys.trace
      = [("/w/workers/t/a".toList, "foo".toList), ("/w/workers/t/b/c".toList, "x".toList)] ∧
    ∃ st, (main (fun _ _ d => .done d.WorkerName none) (some "/w".toList) trimFs
        tFlags).sys.trace[0]? = some st ∧
      st.call = .writeFile "/w/workers/t/b/c".toList "x".toList ∧
      st.err = none ∧
      ∃ r es, lookup st.before ["w".toList, "workers".toList, "t".toList, "b".toList]
        = some (.dir r es) :=
  ⟨fun E => ⟨_, rfl, rfl, rfl,
    (write_preceded_by_mkdir_of_parent E (some "/w".toList) greetFs greetFlags
      (by intro wd h; cases h; rfl) 0 _ _ _ rfl rfl).2 rfl
      ["w".toList, "workers".toList, "greet".toList] [] (by decide)⟩,
    by rfl, by decide,
    ⟨_, rfl, rfl, rfl,
      (write_preceded_by_mkdir_of_parent (fun _ _ d => .done d.WorkerName none)
        (some "/w".toList) trimFs tFlags
        (by intro wd h; cases h; rfl) 0 _ _ _ rfl rfl).2 rfl
        ["w".toList, "workers".toList, "t".toList, "b".toList] [] (by decide)⟩⟩

/-! ### C10 -/

/-- C10, as stated, fails for text that ends in `{`: in
`{{{ if .UseCustomDomain }}X{{ end }}` the leftmost `{{` starts at the first
brace, the action is `{ if .UseCustomDomain `, the template does not parse and
`templateFile` panics instead of writing `{X`. -/
theorem customDomain_after_brace_counterexample :
    openFree ['{'] = true ∧
    lex (customDomainTemplate ['{'] ['X'] [])
      = some [.action "\x7b if .UseCustomDomain ".toList, .text "X".toList,
          .action " end ".toList] ∧
    classify "\x7b if .UseCustomDomain ".toList = .bad ∧
    ReadFile braceFs "/w/t/f".toList = .ok (customDomainTemplate ['{'] ['X'] []) ∧
    (∀ E : Engine, (templateFile E ⟨braceFs, []⟩ "/w/t/f".toList "/w/t/g".toList
      ⟨"foo".toList, true⟩).2 = .panic) ∧
    (∀ E : Engine, (templateFile E ⟨braceFs, []⟩ "/w/t/f".toList "/w/t/g".toList
      ⟨"foo".toList, true⟩).1.trace = []) ∧
    (∀ E : Engine,
      (main E (some "/w".toList) braceFs ⟨"foo".toList, true, "./t".toList⟩).exit = .panic) ∧
    (∀ E : Engine,
      writesOf (main E (some "/w".toList) braceFs ⟨"foo".toList, true, "./t".toList⟩).sys.trace
        = []) := by
  exact ⟨by decide, by decide, by decide, by rfl, fun _ => rfl, fun _ => rfl, fun _ => rfl,
    fun _ => rfl⟩

/-- C10 (amended): let `pre` and `x` be text without `{{` that does not end
in `{`, and `post` text without `{{`.  The file template
`pre{{ if .UseCustomDomain }}x{{ end }}post` parses, renders to `pre x post`
with `UseCustomDomain = true` and to `pre post` with `UseCustomDomain = false`,
and that is what `templateFile` writes to the destination; `-customdomain`,
false by default, is bound unchanged to `UseCustomDomain` and `-name` to
`WorkerName`. -/
theorem customDomain_block_renders (E : Engine) (pre x post : Str)
    (hpre : textBefore pre = true) (hx : textBefore x = true) (hpost : openFree post = true)
    (sys : Sys) (src dst name : Str) (b : Bool)
    (hread : ReadFile sys.fs src = .ok (customDomainTemplate pre x post)) :
    (∃ tree, parse (customDomainTemplate pre x post) = .ok tree ∧
      Execute tree ⟨name, true⟩ = (pre ++ x ++ post, none) ∧
      Execute tree ⟨name, false⟩ = (pre ++ post, none)) ∧
    templateFile E sys src dst ⟨name, b⟩
      = (⟨(WriteFile sys.fs dst (pre ++ (if b then x else []) ++ post)).1,
          ⟨sys.fs, .writeFile dst (pre ++ (if b then x else []) ++ post),
            (WriteFile sys.fs dst (pre ++ (if b then x else []) ++ post)).2⟩ :: sys.trace⟩,
         .ret ((WriteFile sys.fs dst (pre ++ (if b then x else []) ++ post)).2.map .write)) ∧
    (∀ f : Flags, (templateDataOf f).UseCustomDomain = f.customdomain ∧
      (templateDataOf f).WorkerName = f.name) ∧
    Flags.default.customdomain = false := by
  have hp := parse_customDomainTemplate pre x post hpre hx hpost
  refine ⟨⟨_, hp, ?_, ?_⟩, ?_, fun f => ⟨rfl, rfl⟩, rfl⟩
  · simpa using Execute_customDomain name true pre x post
  · simpa using Execute_customDomain name false pre x post
  · have hr : render E (Base src) (customDomainTemplate pre x post) ⟨name, b⟩
        = .done (pre ++ (if b then x else []) ++ post) none := by
      unfold render
      rw [hp]
      simp only
      rw [Execute_customDomain name b pre x post]
    unfold templateFile
    rw [hread]
    simp only
    rw [hr]

/-- C10 (amended), on a file `/f` holding
`a{{ if .UseCustomDomain }}X{{ end }}b`: rendered with the flag set it is
`aXb`, which `templateFile` writes to `/g`. -/
theorem customDomain_block_renders_witness :
    textBefore ['a'] = true ∧ textBefore ['X'] = true ∧ openFree ['b'] = true ∧
    ReadFile (.dir true [("f".toList, .file (customDomainTemplate ['a'] ['X'] ['b']))])
      "/f".toList = .ok (customDomainTemplate ['a'] ['X'] ['b']) ∧
    ∀ E : Engine,
      (∃ tree, parse (customDomainTemplate ['a'] ['X'] ['b']) = .ok tree ∧
        Execute tree ⟨"foo".toList, true⟩ = ("aXb".toList, none) ∧
        Execute tree ⟨"foo".toList, false⟩ = ("ab".toList, none)) ∧
      callsOf (templateFile E
        ⟨.dir true [("f".toList, .file (customDomainTemplate ['a'] ['X'] ['b']))], []⟩
        "/f".toList "/g".toList ⟨"foo".toList, true⟩).1.trace
        = [(.writeFile "/g".toList "aXb".toList, none)] :=
  ⟨by decide, by decide, by decide, rfl, fun E =>
    have h := customDomain_block_renders E ['a'] ['X'] ['b'] (by decide) (by decide) (by decide)
      ⟨.dir true [("f".toList, .file (customDomainTemplate ['a'] ['X'] ['b']))], []⟩
      "/f".toList "/g".toList "foo".toList true rfl
    ⟨h.1, by
      rw [h.2.1]
      exact of_decide_eq_true rfl⟩⟩
end Holster
